import Mathlib

/-! The in-core inode table of `fs/state.c`

A shallow embedding of the inode table: the global array `inode_table`, its
per-slot reader/writer lock, the directory-entry operations and the lock
helpers.  The global table is passed explicitly; every operation returns the
value the C function returns together with the table it leaves behind.

Conventions of the embedding

* `int` values are `Int`; no arithmetic on them can overflow here, the only
  arithmetic being loop counters bounded by the table constants.
* A `char *` / `char name[MAX_FILE_NAME]` is the list of characters in front of
  its terminator, since the code touches names only through `strcmp`,
  `strcpy`, `strlen` and `name[0] = '\0'`.
* Behaviour the C standard leaves undefined (indexing outside an array,
  using a null or released pointer, overrunning a buffer) and
  `exit(EXIT_FAILURE)` end the run with a `Fault`.
* `insert_delay(DELAY)` is an empty counting loop and is left out.
* `malloc` is taken to succeed; the indeterminate name bytes of a new block
  are an explicit argument (`junk`).
-/

namespace TecnicoFS

/-- The constants of `state.h` and `tecnicofs-api-constants.h`.  The two
headers are not among the sources, so the values are parameters. -/
structure Consts where
  INODE_TABLE_SIZE : Nat
  MAX_DIR_ENTRIES : Nat
  MAX_FILE_NAME : Nat
  FREE_INODE : Int
  SUCCESS : Int
  FAIL : Int
deriving DecidableEq

/-- The tag `type` of an inode (`T_NONE` marks a free slot). -/
inductive type where
  | T_FILE
  | T_DIRECTORY
  | T_NONE
deriving DecidableEq

/-- A C string: the characters in front of the terminator. -/
abbrev Name := List Char

/-- One `DirEntry`: a name buffer and the inumber it refers to. -/
structure DirEntry where
  name : Name
  inumber : Int
deriving DecidableEq

/-- The pointer stored in `union Data` (`dirEntries` and `fileContents` share
it): null, a live heap block of directory entries, or a pointer whose block
has been passed to `free`. -/
inductive Data where
  | null
  | block (entries : List DirEntry)
  | freed
deriving DecidableEq

/-- State of one `pthread_rwlock_t`: not yet initialised, free, held by
`others + 1` readers, or held by a writer. -/
inductive rwlock where
  | uninit
  | unlocked
  | rdlocked (others : Nat)
  | wrlocked
deriving DecidableEq

/-- One slot of `inode_table`. -/
structure inode where
  nodeType : type
  data : Data
  rwl : rwlock
deriving DecidableEq

/-- The global `inode_table`. -/
abbrev Table := List inode

/-- Ways a run ends without returning. -/
inductive Fault where
  | outOfBounds
  | badPointer
  | bufferOverflow
  | exitFailure
  | signedOverflow
deriving DecidableEq

deriving instance DecidableEq for Except

/-- Return codes of the pthread calls that the code distinguishes. -/
inductive LockRet where
  | ok
  | EBUSY
  | EINVAL
deriving DecidableEq

/-- `pthread_rwlock_trywrlock`: acquires only a free lock, reports `EBUSY` on
a held one and an error on a lock that was never initialised. -/
def pthread_rwlock_trywrlock : rwlock → LockRet × rwlock
  | .unlocked => (.ok, .wrlocked)
  | .uninit => (.EINVAL, .uninit)
  | .rdlocked k => (.EBUSY, .rdlocked k)
  | .wrlocked => (.EBUSY, .wrlocked)

/-- `pthread_rwlock_unlock`: releases one hold; releasing a lock nobody holds
is reported as an error. -/
def pthread_rwlock_unlock : rwlock → LockRet × rwlock
  | .wrlocked => (.ok, .unlocked)
  | .rdlocked 0 => (.ok, .unlocked)
  | .rdlocked (k + 1) => (.ok, .rdlocked k)
  | .unlocked => (.EINVAL, .unlocked)
  | .uninit => (.EINVAL, .uninit)

/-- Reading `inode_table[i]`. -/
def slotAt (tbl : Table) (i : Int) : Except Fault inode :=
  if i < 0 then .error .outOfBounds
  else match tbl[i.toNat]? with
    | none => .error .outOfBounds
    | some nd => .ok nd

/-- Following the pointer `data.dirEntries`. -/
def Data.deref : Data → Except Fault (List DirEntry)
  | .block entries => .ok entries
  | .null => .error .badPointer
  | .freed => .error .badPointer

/-- The statement `if (data.dirEntries) free(data.dirEntries);`: the field keeps
its value, the block behind it is gone. -/
def Data.release : Data → Except Fault Data
  | .null => .ok .null
  | .block _ => .ok .freed
  | .freed => .error .badPointer

/-- The slot written by one round of `inode_table_init`. -/
def emptySlot : inode := ⟨.T_NONE, .null, .unlocked⟩

/-- Loop of `inode_table_init`, `n` rounds from index `i`. -/
def inode_table_init_loop : Nat → Nat → Table → Except Fault Table
  | _, 0, tbl => .ok tbl
  | i, n + 1, tbl =>
    if i < tbl.length then inode_table_init_loop (i + 1) n (tbl.set i emptySlot)
    else .error .outOfBounds

/-- `inode_table_init`; `pthread_rwlock_init` is taken to succeed. -/
def inode_table_init (c : Consts) (tbl : Table) : Except Fault Table :=
  inode_table_init_loop 0 c.INODE_TABLE_SIZE tbl

/-- `unlock(inumber)`. -/
def unlock (inumber : Int) (tbl : Table) : Except Fault Table :=
  match slotAt tbl inumber with
  | .error e => .error e
  | .ok nd =>
    match pthread_rwlock_unlock nd.rwl with
    | (.ok, l) => .ok (tbl.set inumber.toNat { nd with rwl := l })
    | _ => .error .exitFailure

/-- The block `malloc(sizeof(DirEntry) * MAX_DIR_ENTRIES)` after the loop that
marks every entry `FREE_INODE`; the name bytes are whatever the heap held. -/
def freshEntries (c : Consts) (junk : Nat → Name) : List DirEntry :=
  (List.range c.MAX_DIR_ENTRIES).map (fun i => ⟨junk i, c.FREE_INODE⟩)

/-- The slot as `inode_create` leaves it once claimed; `l` is its lock. -/
def claimedSlot (c : Consts) (junk : Nat → Name) (nType : type) (l : rwlock) : inode :=
  { nodeType := nType
    data := if nType = .T_DIRECTORY then .block (freshEntries c junk) else .null
    rwl := l }

/-- Loop of `inode_create`: `n` rounds from slot `inumber`. -/
def inode_create_loop (c : Consts) (junk : Nat → Name) (nType : type) :
    Nat → Nat → Table → Except Fault (Int × Table)
  | 0, _, tbl => .ok (c.FAIL, tbl)
  | n + 1, inumber, tbl =>
    match tbl[inumber]? with
    | none => .error .outOfBounds
    | some nd =>
      match pthread_rwlock_trywrlock nd.rwl with
      | (.ok, l) =>
        if nd.nodeType = .T_NONE then
          .ok ((inumber : Int), tbl.set inumber (claimedSlot c junk nType l))
        else
          match unlock (inumber : Int) (tbl.set inumber { nd with rwl := l }) with
          | .error e => .error e
          | .ok tbl' => inode_create_loop c junk nType n (inumber + 1) tbl'
      | (.EBUSY, _) => inode_create_loop c junk nType n (inumber + 1) tbl
      | (.EINVAL, _) => .error .exitFailure

/-- `inode_create(nType)`. -/
def inode_create (c : Consts) (junk : Nat → Name) (nType : type) (tbl : Table) :
    Except Fault (Int × Table) :=
  inode_create_loop c junk nType c.INODE_TABLE_SIZE 0 tbl

/-- `inode_delete(inumber)`. -/
def inode_delete (c : Consts) (inumber : Int) (tbl : Table) : Except Fault (Int × Table) :=
  if inumber < 0 ∨ inumber > c.INODE_TABLE_SIZE then .ok (c.FAIL, tbl)
  else match slotAt tbl inumber with
    | .error e => .error e
    | .ok nd =>
      if nd.nodeType = .T_NONE then .ok (c.FAIL, tbl)
      else match nd.data.release with
        | .error e => .error e
        | .ok d => .ok (c.SUCCESS, tbl.set inumber.toNat { nd with nodeType := .T_NONE, data := d })

/-- `inode_get(inumber, nType, data)`.  An output argument is `none` for a
null pointer and `some v` for a pointer to a cell holding `v`; the cells are
returned as the call leaves them. -/
def inode_get (c : Consts) (inumber : Int) (nType : Option type) (data : Option Data)
    (tbl : Table) : Except Fault (Int × Table × Option type × Option Data) :=
  if inumber < 0 ∨ inumber > c.INODE_TABLE_SIZE then .ok (c.FAIL, tbl, nType, data)
  else match slotAt tbl inumber with
    | .error e => .error e
    | .ok nd =>
      if nd.nodeType = .T_NONE then .ok (c.FAIL, tbl, nType, data)
      else .ok (c.SUCCESS, tbl, nType.map (fun _ => nd.nodeType), data.map (fun _ => nd.data))

/-- The scan shared by the three directory loops,
`for (i = ...; i < MAX_DIR_ENTRIES; i++) if (p(entries[i])) ...`:
the first index among the `n` slots from `i` on whose entry satisfies `p`. -/
def scanEntries (p : DirEntry → Bool) (entries : List DirEntry) :
    Nat → Nat → Except Fault (Option Nat)
  | _, 0 => .ok none
  | i, n + 1 =>
    match entries[i]? with
    | none => .error .outOfBounds
    | some e => if p e then .ok (some i) else scanEntries p entries (i + 1) n

/-- `lookup_sub_node(name, entries)`; `entries` is `none` for `NULL`. -/
def lookup_sub_node (c : Consts) (name : Name) (entries : Option (List DirEntry)) :
    Except Fault Int :=
  match entries with
  | none => .ok c.FAIL
  | some es =>
    match scanEntries (fun e => decide (e.inumber ≠ c.FREE_INODE) && decide (e.name = name))
        es 0 c.MAX_DIR_ENTRIES with
    | .error e => .error e
    | .ok none => .ok c.FAIL
    | .ok (some i) =>
      match es[i]? with
      | none => .error .outOfBounds
      | some e => .ok e.inumber

/-- `dir_reset_entry(inumber, sub_inumber)`. -/
def dir_reset_entry (c : Consts) (inumber sub_inumber : Int) (tbl : Table) :
    Except Fault (Int × Table) :=
  if inumber < 0 ∨ inumber > c.INODE_TABLE_SIZE then .ok (c.FAIL, tbl)
  else match slotAt tbl inumber with
    | .error e => .error e
    | .ok nd =>
      if nd.nodeType = .T_NONE then .ok (c.FAIL, tbl)
      else if nd.nodeType ≠ .T_DIRECTORY then .ok (c.FAIL, tbl)
      else if sub_inumber < c.FREE_INODE ∨ sub_inumber > c.INODE_TABLE_SIZE then .ok (c.FAIL, tbl)
      else match slotAt tbl sub_inumber with
        | .error e => .error e
        | .ok sub =>
          if sub.nodeType = .T_NONE then .ok (c.FAIL, tbl)
          else match nd.data.deref with
            | .error e => .error e
            | .ok es =>
              match scanEntries (fun e => decide (e.inumber = sub_inumber)) es 0
                  c.MAX_DIR_ENTRIES with
              | .error e => .error e
              | .ok none => .ok (c.FAIL, tbl)
              | .ok (some i) =>
                .ok (c.SUCCESS, tbl.set inumber.toNat
                  { nd with data := .block (es.set i ⟨[], c.FREE_INODE⟩) })

/-- `dir_add_entry(inumber, sub_inumber, sub_name)`; `strcpy` of a name that
does not fit the `MAX_FILE_NAME` buffer overruns it. -/
def dir_add_entry (c : Consts) (inumber sub_inumber : Int) (sub_name : Name) (tbl : Table) :
    Except Fault (Int × Table) :=
  if inumber < 0 ∨ inumber > c.INODE_TABLE_SIZE then .ok (c.FAIL, tbl)
  else match slotAt tbl inumber with
    | .error e => .error e
    | .ok nd =>
      if nd.nodeType = .T_NONE then .ok (c.FAIL, tbl)
      else if nd.nodeType ≠ .T_DIRECTORY then .ok (c.FAIL, tbl)
      else if sub_inumber < 0 ∨ sub_inumber > c.INODE_TABLE_SIZE then .ok (c.FAIL, tbl)
      else match slotAt tbl sub_inumber with
        | .error e => .error e
        | .ok sub =>
          if sub.nodeType = .T_NONE then .ok (c.FAIL, tbl)
          else if sub_name.length = 0 then .ok (c.FAIL, tbl)
          else match nd.data.deref with
            | .error e => .error e
            | .ok es =>
              match scanEntries (fun e => decide (e.inumber = c.FREE_INODE)) es 0
                  c.MAX_DIR_ENTRIES with
              | .error e => .error e
              | .ok none => .ok (c.FAIL, tbl)
              | .ok (some i) =>
                if c.MAX_FILE_NAME ≤ sub_name.length then .error .bufferOverflow
                else .ok (c.SUCCESS, tbl.set inumber.toNat
                  { nd with data := .block (es.set i ⟨sub_name, sub_inumber⟩) })

/-- Loop of `unlockAll`, with `i + 1` the number of rounds left (the loop
counter runs `i, i-1, ..., 0`).  `done` is a ghost record of the arguments
already handed to `unlock`, in call order. -/
def unlockAll_loop (inumbers : List Int) : Nat → Table → List Int → Except Fault (Table × List Int)
  | 0, tbl, done => .ok (tbl, done)
  | i + 1, tbl, done =>
    match inumbers[i]? with
    | none => .error .outOfBounds
    | some x =>
      match unlock x tbl with
      | .error e => .error e
      | .ok tbl' => unlockAll_loop inumbers i tbl' (done ++ [x])

/-- The least value of an `int` (32 bits wide). -/
def INT_MIN : Int := -2147483648

/-- `unlockAll(inumbers, size)`: the table it leaves and the ghost record of
its `unlock` calls.  The loop starts at `size-1`, which overflows when `size`
is the least `int`. -/
def unlockAll (inumbers : List Int) (size : Int) (tbl : Table) :
    Except Fault (Table × List Int) :=
  if size - 1 < INT_MIN then .error .signedOverflow
  else unlockAll_loop inumbers size.toNat tbl []

/-- Performing `unlock` on each listed inumber, one after the other in list
order: what "release these locks in this order" means. -/
def unlockSeq : List Int → Table → Except Fault Table
  | [], tbl => .ok tbl
  | x :: xs, tbl =>
    match unlock x tbl with
    | .error e => .error e
    | .ok tbl' => unlockSeq xs tbl'

/-- A small instance of the constants, for concrete tables. -/
def tinyConsts : Consts :=
  { INODE_TABLE_SIZE := 3, MAX_DIR_ENTRIES := 2, MAX_FILE_NAME := 8,
    FREE_INODE := -1, SUCCESS := 0, FAIL := -1 }

/-- The tag of slot `i`, when `i` indexes the table. -/
def kindAt (tbl : Table) (i : Nat) : Option type :=
  tbl[i]?.map inode.nodeType

/-- The entry array that the pointer of slot `i` refers to, when it refers to
a live block. -/
def entriesAt (tbl : Table) (i : Nat) : Option (List DirEntry) :=
  match tbl[i]? with
  | some nd =>
    match nd.data with
    | .block es => some es
    | _ => none
  | none => none

/-- Shape of a slot: a file carries the null pointer, a directory a live block
of `MAX_DIR_ENTRIES` entries; a free slot may hold anything. -/
def inode.wellFormed (c : Consts) (nd : inode) : Bool :=
  match nd.nodeType, nd.data with
  | .T_NONE, _ => true
  | .T_FILE, .null => true
  | .T_DIRECTORY, .block es => decide (es.length = c.MAX_DIR_ENTRIES)
  | _, _ => false

/-- Shape of the table: `inode_table` has `INODE_TABLE_SIZE` slots, each of
them well formed. -/
def WellFormed (c : Consts) (tbl : Table) : Prop :=
  tbl.length = c.INODE_TABLE_SIZE ∧ ∀ nd ∈ tbl, nd.wellFormed c = true

instance (c : Consts) (tbl : Table) : Decidable (WellFormed c tbl) := by
  unfold WellFormed
  infer_instance

/-- A three-slot table for `tinyConsts`: a directory holding the entry
`a -> 2` and one free entry, a free slot, and a file; no lock is held. -/
def tinyTable : Table :=
  [ ⟨.T_DIRECTORY, .block [⟨['a'], 2⟩, ⟨[], -1⟩], .unlocked⟩,
    emptySlot,
    ⟨.T_FILE, .null, .unlocked⟩ ]

/-- The heap contents used with the concrete tables: empty name buffers. -/
def noJunk : Nat → Name := fun _ => []

/-- The table `tinyTable` after `dir_add_entry(0, 2, "b")`. -/
def tinyTableAdded : Table :=
  [ ⟨.T_DIRECTORY, .block [⟨['a'], 2⟩, ⟨['b'], 2⟩], .unlocked⟩,
    emptySlot,
    ⟨.T_FILE, .null, .unlocked⟩ ]

/-- A caller's use of `inode_create`: the slot it returns is still
write-locked, and the caller releases it with `unlock` before the next call. -/
def create_release (c : Consts) (junk : Nat → Name) (nType : type) (tbl : Table) :
    Except Fault (Int × Table) :=
  match inode_create c junk nType tbl with
  | .error e => .error e
  | .ok (r, tbl') =>
    if r = c.FAIL then .ok (r, tbl')
    else
      match unlock r tbl' with
      | .error e => .error e
      | .ok tbl'' => .ok (r, tbl'')

/-- Consecutive `create_release` calls, one per requested kind (each with the
heap contents its `malloc` meets); the values returned, in call order. -/
def create_many (c : Consts) : List (type × (Nat → Name)) → Table →
    Except Fault (List Int × Table)
  | [], tbl => .ok ([], tbl)
  | (nType, junk) :: rest, tbl =>
    match create_release c junk nType tbl with
    | .error e => .error e
    | .ok (r, tbl') =>
      match create_many c rest tbl' with
      | .error e => .error e
      | .ok (rs, tbl'') => .ok (r :: rs, tbl'')

/-- Tables met while the table is filled and emptied by callers that release
their locks: `INODE_TABLE_SIZE` slots, no lock held, the slots whose index
satisfies `free` have tag `T_NONE`, the others are allocated and their pointer
has not been released. -/
def Occupancy (c : Consts) (free : Nat → Prop) (t : Table) : Prop :=
  t.length = c.INODE_TABLE_SIZE ∧ (∀ nd ∈ t, nd.rwl = rwlock.unlocked) ∧
  ∀ (j : Nat) (nd : inode), t[j]? = some nd →
    (free j → nd.nodeType = type.T_NONE) ∧
    (¬ free j → nd.nodeType ≠ type.T_NONE ∧ nd.data ≠ Data.freed)

/-- Three slots as they are before `inode_table_init` has run. -/
def bootTable : Table :=
  [ ⟨.T_NONE, .null, .uninit⟩, ⟨.T_NONE, .null, .uninit⟩, ⟨.T_NONE, .null, .uninit⟩ ]

/-- Three creation requests, filling a table of `tinyConsts`. -/
def tinyKinds : List (type × (Nat → Name)) :=
  [ (.T_DIRECTORY, noJunk), (.T_FILE, noJunk), (.T_DIRECTORY, noJunk) ]

/-- The table `tinyTable` with slot 0 read-locked and slot 2 write-locked, as
after resolving a path through slot 0 to slot 2. -/
def tinyLocked : Table :=
  [ ⟨.T_DIRECTORY, .block [⟨['a'], 2⟩, ⟨[], -1⟩], .rdlocked 0⟩,
    emptySlot,
    ⟨.T_FILE, .null, .wrlocked⟩ ]

/-- The buffer `path` after `snprintf(path, sizeof(path), "%s/%s", name, entry)`:
the joined text, cut to the `MAX_FILE_NAME - 1` characters that fit in front of
the terminator.  (The truncation notice goes to `stderr`, not to `fp`.) -/
def buildPath (c : Consts) (name entry : Name) : Name :=
  (name ++ '/' :: entry).take (c.MAX_FILE_NAME - 1)

/-- The entry loop of `inode_print_tree`, `n` rounds from entry `i`; `recur` is
the recursive call.  The result is the list of lines written to `fp`; `none`
stands for a recursion that has not finished within the fuel. -/
def print_entries (c : Consts) (recur : Int → Name → Option (Except Fault (List Name)))
    (name : Name) (entries : List DirEntry) :
    Nat → Nat → Option (Except Fault (List Name))
  | _, 0 => some (.ok [])
  | i, n + 1 =>
    match entries[i]? with
    | none => some (.error .outOfBounds)
    | some e =>
      if e.inumber ≠ c.FREE_INODE then
        match recur e.inumber (buildPath c name e.name) with
        | none => none
        | some (.error f) => some (.error f)
        | some (.ok out) =>
          match print_entries c recur name entries (i + 1) n with
          | none => none
          | some (.error f) => some (.error f)
          | some (.ok rest) => some (.ok (out ++ rest))
      else print_entries c recur name entries (i + 1) n

/-- `inode_print_tree(fp, inumber, name)`: the lines written to `fp`.  The first
argument bounds the depth of the recursion. -/
def inode_print_tree (c : Consts) (tbl : Table) :
    Nat → Int → Name → Option (Except Fault (List Name))
  | 0, _, _ => none
  | fuel + 1, inumber, name =>
    match slotAt tbl inumber with
    | .error e => some (.error e)
    | .ok nd =>
      match nd.nodeType with
      | .T_FILE => some (.ok [name])
      | .T_NONE => some (.ok [])
      | .T_DIRECTORY =>
        match nd.data.deref with
        | .error e => some (.error e)
        | .ok es =>
          match print_entries c (inode_print_tree c tbl fuel) name es 0 c.MAX_DIR_ENTRIES with
          | none => none
          | some (.error f) => some (.error f)
          | some (.ok rest) => some (.ok (name :: rest))

/-- The directory entries below slot `i` are well formed and of depth at most
`d`: the slot exists, and when it is a directory its pointer refers to a block
of `MAX_DIR_ENTRIES` entries whose populated entries lead to slots of which
the same holds with depth `d - 1`.  Two entries may lead to the same slot. -/
def treeBelow (c : Consts) (tbl : Table) : Nat → Int → Bool
  | 0, _ => false
  | d + 1, i =>
    match slotAt tbl i with
    | .error _ => false
    | .ok nd =>
      match nd.nodeType with
      | .T_DIRECTORY =>
        match nd.data with
        | .block es =>
          decide (es.length = c.MAX_DIR_ENTRIES) &&
            es.all (fun e => decide (e.inumber = c.FREE_INODE) || treeBelow c tbl d e.inumber)
        | _ => false
      | _ => true

/-- The four table operations a caller can issue. -/
inductive Op where
  | create (nType : type) (junk : Nat → Name)
  | delete (inumber : Int)
  | add (inumber sub_inumber : Int) (sub_name : Name)
  | reset (inumber sub_inumber : Int)

/-- Running one operation on the table. -/
def Op.run (c : Consts) : Op → Table → Except Fault (Int × Table)
  | .create nType junk, tbl => inode_create c junk nType tbl
  | .delete inumber, tbl => inode_delete c inumber tbl
  | .add inumber sub_inumber sub_name, tbl => dir_add_entry c inumber sub_inumber sub_name tbl
  | .reset inumber sub_inumber, tbl => dir_reset_entry c inumber sub_inumber tbl

/-- Table states reachable from `inode_table_init` by operations that return;
`allowed t op` restricts the calls that are issued in state `t`. -/
inductive Reachable (c : Consts) (allowed : Table → Op → Prop) : Table → Prop where
  | init (tbl0 t : Table) : tbl0.length = c.INODE_TABLE_SIZE →
      inode_table_init c tbl0 = .ok t → Reachable c allowed t
  | step (t t' : Table) (op : Op) (r : Int) : Reachable c allowed t → allowed t op →
      op.run c t = .ok (r, t') → Reachable c allowed t'

/-- No restriction on the calls. -/
def anyCall : Table → Op → Prop := fun _ _ => True

/-- The discipline of a caller that adds a name to a directory only when no
populated entry of that directory carries it. -/
def freshNameCall (c : Consts) : Table → Op → Prop
  | t, .add inumber _ sub_name =>
    ∀ es, entriesAt t inumber.toNat = some es →
      ∀ e ∈ es, e.inumber ≠ c.FREE_INODE → e.name ≠ sub_name
  | _, _ => True

/-- The names of the populated entries of an entry block, in slot order. -/
def populatedNames (c : Consts) (es : List DirEntry) : List Name :=
  (es.filter (fun e => decide (e.inumber ≠ c.FREE_INODE))).map DirEntry.name

/-- The populated entries of every directory have pairwise distinct names. -/
def NoDupNames (c : Consts) (tbl : Table) : Prop :=
  ∀ nd ∈ tbl, nd.nodeType = type.T_DIRECTORY →
    ∀ es, nd.data = Data.block es → (populatedNames c es).Nodup

/-- Constants for the printing scenario: four slots, two entries per
directory. -/
def printConsts : Consts :=
  { INODE_TABLE_SIZE := 4, MAX_DIR_ENTRIES := 2, MAX_FILE_NAME := 16,
    FREE_INODE := -1, SUCCESS := 0, FAIL := -1 }

/-- The table of the printing scenario: the root directory in slot 0 with the
entries `a -> 1` and `d -> 2`, the file `a`, the directory `d` with the entry
`b -> 3`, and the file `b`. -/
def scenarioTable : Table :=
  [ ⟨.T_DIRECTORY, .block [⟨['a'], 1⟩, ⟨['d'], 2⟩], .unlocked⟩,
    ⟨.T_FILE, .null, .unlocked⟩,
    ⟨.T_DIRECTORY, .block [⟨['b'], 3⟩, ⟨[], -1⟩], .unlocked⟩,
    ⟨.T_FILE, .null, .unlocked⟩ ]

/-- The table `tinyTable` after `inode_create(T_DIRECTORY)`: slot 1 is claimed
and still write-locked. -/
def tinyTableCreated : Table :=
  [ ⟨.T_DIRECTORY, .block [⟨['a'], 2⟩, ⟨[], -1⟩], .unlocked⟩,
    ⟨.T_DIRECTORY, .block [⟨[], -1⟩, ⟨[], -1⟩], .wrlocked⟩,
    ⟨.T_FILE, .null, .unlocked⟩ ]

/-- The table `tinyTable` after `inode_delete(0)`. -/
def tinyTableDeleted : Table :=
  [ ⟨.T_NONE, .freed, .unlocked⟩,
    emptySlot,
    ⟨.T_FILE, .null, .unlocked⟩ ]

/-- Three initialised slots: the table `inode_table_init` writes for
`tinyConsts`. -/
def initTable : Table := [emptySlot, emptySlot, emptySlot]

/-- `initTable` after `inode_create(T_DIRECTORY)`: the directory in slot 0,
still write-locked by its creator. -/
def afterDir : Table :=
  [ ⟨.T_DIRECTORY, .block [⟨[], -1⟩, ⟨[], -1⟩], .wrlocked⟩, emptySlot, emptySlot ]

/-- `afterDir` after `inode_create(T_FILE)`: the file in slot 1. -/
def afterFile : Table :=
  [ ⟨.T_DIRECTORY, .block [⟨[], -1⟩, ⟨[], -1⟩], .wrlocked⟩,
    ⟨.T_FILE, .null, .wrlocked⟩, emptySlot ]

/-- `afterFile` after `dir_add_entry(0, 1, "a")`. -/
def afterAdd : Table :=
  [ ⟨.T_DIRECTORY, .block [⟨['a'], 1⟩, ⟨[], -1⟩], .wrlocked⟩,
    ⟨.T_FILE, .null, .wrlocked⟩, emptySlot ]

/-- `afterAdd` after a second `dir_add_entry(0, 1, "a")`: the directory holds
the name `a` twice. -/
def dupTable : Table :=
  [ ⟨.T_DIRECTORY, .block [⟨['a'], 1⟩, ⟨['a'], 1⟩], .wrlocked⟩,
    ⟨.T_FILE, .null, .wrlocked⟩, emptySlot ]

/-- The slot `x` exists and holds a file or a directory. -/
def isNode (tbl : Table) (x : Int) : Bool :=
  match slotAt tbl x with
  | .ok nd => decide (nd.nodeType ≠ type.T_NONE)
  | .error _ => false

/-- The directory entry in slot `s` of inode `i`: defined when `i` is a
directory, `s` is below `MAX_DIR_ENTRIES` and the entry is populated. -/
def childEntry (c : Consts) (tbl : Table) (i : Int) (s : Nat) : Option DirEntry :=
  match slotAt tbl i with
  | .error _ => none
  | .ok nd =>
    match nd.nodeType, nd.data with
    | .T_DIRECTORY, .block es =>
      if s < c.MAX_DIR_ENTRIES then
        match es[s]? with
        | some e => if e.inumber ≠ c.FREE_INODE then some e else none
        | none => none
      else none
    | _, _ => none

/-- The inode at the end of a chain of directory entries that starts at `i`;
the chain is the list of the entry slots followed.  `none` when some step is
not a populated entry of a directory. -/
def chainTarget (c : Consts) (tbl : Table) : Int → List Nat → Option Int
  | i, [] => some i
  | i, s :: p =>
    match childEntry c tbl i s with
    | some e => chainTarget c tbl e.inumber p
    | none => none

/-- The path text built along a chain of directory entries, starting from the
text `name` at inode `i`: each step appends `/` and the entry name. -/
def chainPath (c : Consts) (tbl : Table) : Int → Name → List Nat → Name
  | _, name, [] => name
  | i, name, s :: p =>
    match childEntry c tbl i s with
    | some e => chainPath c tbl e.inumber (buildPath c name e.name) p
    | none => name

/-- The chains that start with one of the `n` entry slots from `s` on, given
the chains `recur` lists below each child. -/
def chainsEntries (c : Consts) (recur : Int → List (List Nat)) (es : List DirEntry) :
    Nat → Nat → List (List Nat)
  | _, 0 => []
  | s, n + 1 =>
    match es[s]? with
    | none => []
    | some e =>
      if e.inumber ≠ c.FREE_INODE then
        (recur e.inumber).map (fun p => s :: p) ++ chainsEntries c recur es (s + 1) n
      else chainsEntries c recur es (s + 1) n

/-- The chains of at most `d - 1` entries from `i` to a file or directory,
parents in front of children and children in slot order. -/
def chainsBelow (c : Consts) (tbl : Table) : Nat → Int → List (List Nat)
  | 0, _ => []
  | d + 1, i =>
    match slotAt tbl i with
    | .error _ => []
    | .ok nd =>
      match nd.nodeType with
      | .T_FILE => [[]]
      | .T_NONE => []
      | .T_DIRECTORY =>
        match nd.data with
        | .block es => [] :: chainsEntries c (chainsBelow c tbl d) es 0 c.MAX_DIR_ENTRIES
        | _ => []

/-- A table in which the file in slot 1 has two parents: the root lists it as
`a` and as `b`. -/
def sharedChildTable : Table :=
  [ ⟨.T_DIRECTORY, .block [⟨['a'], 1⟩, ⟨['b'], 1⟩], .unlocked⟩,
    ⟨.T_FILE, .null, .unlocked⟩, emptySlot, emptySlot ]

/-! ## Auxiliary facts about lists and slots -/

theorem set_same {α : Type} (l : List α) (i : Nat) (a : α) (h : l[i]? = some a) :
    l.set i a = l := by
  apply List.ext_getElem?
  intro j
  by_cases hj : i = j
  · subst hj
    rw [List.getElem?_set, if_pos rfl, h]
    have : i < l.length := by
      rcases List.getElem?_eq_some.mp h with ⟨hi, _⟩
      exact hi
    simp [this]
  · rw [List.getElem?_set_ne hj]

theorem lt_length_of_getElem? {α : Type} {l : List α} {i : Nat} {a : α} (h : l[i]? = some a) :
    i < l.length := by
  rcases List.getElem?_eq_some.mp h with ⟨hi, _⟩
  exact hi

theorem slotAt_natCast (tbl : Table) (i : Nat) :
    slotAt tbl (i : Int) =
      match tbl[i]? with
      | none => .error .outOfBounds
      | some nd => .ok nd := by
  unfold slotAt
  have h : ¬ ((i : Int) < 0) := by omega
  simp [h]

/-- Releasing the write lock that the allocation scan has just taken on a free
lock restores the table. -/
theorem unlock_after_trywrlock (tbl : Table) (i : Nat) (nd : inode)
    (h : tbl[i]? = some nd) (hl : nd.rwl = .unlocked) :
    unlock (i : Int) (tbl.set i { nd with rwl := .wrlocked }) = .ok tbl := by
  have hi := lt_length_of_getElem? h
  unfold unlock
  rw [slotAt_natCast]
  simp only [List.getElem?_set_self hi, pthread_rwlock_unlock, Int.toNat_ofNat, List.set_set]
  have : ({ nodeType := nd.nodeType, data := nd.data, rwl := rwlock.unlocked } : inode) = nd := by
    cases nd
    simp_all
  rw [this, set_same tbl i nd h]

/-! ## The allocation scan -/

/-- When every slot the scan visits is unlocked and occupied, the scan fails
and restores the table. -/
theorem inode_create_loop_full (c : Consts) (junk : Nat → Name) (nType : type) (tbl : Table) :
    ∀ (n i : Nat),
      (∀ j, i ≤ j → j < i + n →
        ∃ nd, tbl[j]? = some nd ∧ nd.rwl = .unlocked ∧ nd.nodeType ≠ .T_NONE) →
      inode_create_loop c junk nType n i tbl = .ok (c.FAIL, tbl) := by
  intro n
  induction n with
  | zero => intro i _; rfl
  | succ n ih =>
    intro i h
    obtain ⟨nd, hnd, hl, hk⟩ := h i (Nat.le_refl i) (by omega)
    unfold inode_create_loop
    simp only [hnd, hl, pthread_rwlock_trywrlock, if_neg hk]
    have hu := unlock_after_trywrlock tbl i nd hnd hl
    simp only [hl] at hu
    rw [hu]
    exact ih (i + 1) (fun j h1 h2 => h j (by omega) (by omega))

/-- The scan claims the first free slot it meets, when the slots in front of
it are unlocked and occupied. -/
theorem inode_create_loop_found (c : Consts) (junk : Nat → Name) (nType : type) (tbl : Table)
    (k : Nat) (ndk : inode) (hk : tbl[k]? = some ndk) (hkl : ndk.rwl = .unlocked)
    (hkn : ndk.nodeType = .T_NONE) :
    ∀ (n i : Nat), i ≤ k → k < i + n →
      (∀ j, i ≤ j → j < k →
        ∃ nd, tbl[j]? = some nd ∧ nd.rwl = .unlocked ∧ nd.nodeType ≠ .T_NONE) →
      inode_create_loop c junk nType n i tbl =
        .ok ((k : Int), tbl.set k (claimedSlot c junk nType .wrlocked)) := by
  intro n
  induction n with
  | zero => intro i h1 h2; omega
  | succ n ih =>
    intro i h1 h2 h
    unfold inode_create_loop
    by_cases hik : i = k
    · subst hik
      simp only [hk, hkl, pthread_rwlock_trywrlock, hkn, if_true]
    · obtain ⟨nd, hnd, hl, hne⟩ := h i (Nat.le_refl i) (by omega)
      simp only [hnd, hl, pthread_rwlock_trywrlock, if_neg hne]
      have hu := unlock_after_trywrlock tbl i nd hnd hl
      simp only [hl] at hu
      rw [hu]
      exact ih (i + 1) (by omega) (by omega) (fun j h3 h4 => h j (by omega) h4)

/-- C1: on a table of `INODE_TABLE_SIZE` slots none of whose locks is held,
`inode_create(kind)` returns; the value is `FAIL` exactly when no slot has kind
`T_NONE`, and otherwise it is the smallest index whose slot has kind `T_NONE`,
and that slot carries `kind` afterwards.  (`FAIL` is negative; the statement
holds for every tag, in particular for `T_FILE` and `T_DIRECTORY`.) -/
theorem inode_create_smallest_free (c : Consts) (junk : Nat → Name) (nType : type)
    (tbl : Table) (hlen : tbl.length = c.INODE_TABLE_SIZE) (hfail : c.FAIL < 0)
    (hlocks : ∀ nd ∈ tbl, nd.rwl = rwlock.unlocked) :
    ∃ r tbl', inode_create c junk nType tbl = .ok (r, tbl') ∧
      (r = c.FAIL ↔ ∀ nd ∈ tbl, nd.nodeType ≠ type.T_NONE) ∧
      (r ≠ c.FAIL → ∃ i : Nat, r = (i : Int) ∧ i < c.INODE_TABLE_SIZE ∧
        tbl[i]?.map inode.nodeType = some type.T_NONE ∧
        (∀ j, j < i → tbl[j]?.map inode.nodeType ≠ some type.T_NONE) ∧
        tbl'[i]?.map inode.nodeType = some nType) := by
  classical
  by_cases hex : ∃ k : Nat, ∃ nd : inode, tbl[k]? = some nd ∧ nd.nodeType = type.T_NONE
  · have hmin : ∀ j, j < Nat.find hex →
        ¬ ∃ nd : inode, tbl[j]? = some nd ∧ nd.nodeType = type.T_NONE :=
      fun j hj => Nat.find_min hex hj
    obtain ⟨ndk, hk, hkn⟩ := Nat.find_spec hex
    generalize Nat.find hex = k at hmin hk
    have hklt : k < tbl.length := lt_length_of_getElem? hk
    have hkl : ndk.rwl = rwlock.unlocked := hlocks ndk (List.getElem?_mem hk)
    have hbefore : ∀ j, 0 ≤ j → j < k →
        ∃ nd, tbl[j]? = some nd ∧ nd.rwl = rwlock.unlocked ∧ nd.nodeType ≠ type.T_NONE := by
      intro j _ hj
      have hjl : j < tbl.length := by omega
      refine ⟨tbl[j], List.getElem?_eq_getElem hjl, hlocks _ (List.getElem_mem hjl), ?_⟩
      intro hn
      exact hmin j hj ⟨tbl[j], List.getElem?_eq_getElem hjl, hn⟩
    have hrun := inode_create_loop_found c junk nType tbl k ndk hk hkl hkn
      c.INODE_TABLE_SIZE 0 (Nat.zero_le k) (by omega) hbefore
    refine ⟨(k : Int), _, hrun, ?_, ?_⟩
    · constructor
      · intro h
        omega
      · intro h
        exact absurd hkn (h ndk (List.getElem?_mem hk))
    · intro _
      refine ⟨k, rfl, by omega, by simp [hk, hkn], ?_, ?_⟩
      · intro j hj h
        have hjl : j < tbl.length := by omega
        rw [List.getElem?_eq_getElem hjl] at h
        simp only [Option.map_some', Option.some.injEq] at h
        exact hmin j hj ⟨tbl[j], List.getElem?_eq_getElem hjl, h⟩
      · rw [List.getElem?_set_self hklt]
        rfl
  · have hall : ∀ nd ∈ tbl, nd.nodeType ≠ type.T_NONE := by
      intro nd hnd hn
      obtain ⟨k, hk, rfl⟩ := List.getElem_of_mem hnd
      exact hex ⟨k, _, List.getElem?_eq_getElem hk, hn⟩
    have hrun := inode_create_loop_full c junk nType tbl c.INODE_TABLE_SIZE 0
      (by
        intro j _ hj
        have hjl : j < tbl.length := by omega
        exact ⟨tbl[j], List.getElem?_eq_getElem hjl, hlocks _ (List.getElem_mem hjl),
          hall _ (List.getElem_mem hjl)⟩)
    exact ⟨c.FAIL, tbl, hrun, ⟨fun _ => hall, fun _ => rfl⟩, fun h => absurd rfl h⟩

/-- Witness of C1 on `tinyTable`: slot 1 is the only free slot. -/
theorem inode_create_smallest_free_witness :
    tinyTable.length = tinyConsts.INODE_TABLE_SIZE ∧
    (∀ nd ∈ tinyTable, nd.rwl = rwlock.unlocked) ∧
    ∃ r tbl', inode_create tinyConsts noJunk type.T_FILE tinyTable = .ok (r, tbl') ∧
      (r = tinyConsts.FAIL ↔ ∀ nd ∈ tinyTable, nd.nodeType ≠ type.T_NONE) ∧
      (r ≠ tinyConsts.FAIL → ∃ i : Nat, r = (i : Int) ∧ i < tinyConsts.INODE_TABLE_SIZE ∧
        tinyTable[i]?.map inode.nodeType = some type.T_NONE ∧
        (∀ j, j < i → tinyTable[j]?.map inode.nodeType ≠ some type.T_NONE) ∧
        tbl'[i]?.map inode.nodeType = some type.T_FILE) :=
  ⟨by decide, by decide,
    inode_create_smallest_free tinyConsts noJunk type.T_FILE tinyTable (by decide) (by decide)
      (by decide)⟩

/-! ## Freeing a slot -/

/-- C2: `inode_delete(INODE_TABLE_SIZE)` passes the range test
`inumber > INODE_TABLE_SIZE` and reads `inode_table[INODE_TABLE_SIZE]`, one
slot past the end of the table, instead of returning `FAIL`. -/
theorem inode_delete_table_size_out_of_bounds (c : Consts) (tbl : Table)
    (hlen : tbl.length = c.INODE_TABLE_SIZE) :
    inode_delete c (c.INODE_TABLE_SIZE : Int) tbl = .error .outOfBounds := by
  unfold inode_delete
  have h : ¬ ((c.INODE_TABLE_SIZE : Int) < 0 ∨ (c.INODE_TABLE_SIZE : Int) > c.INODE_TABLE_SIZE) := by
    omega
  rw [if_neg h, slotAt_natCast, List.getElem?_eq_none (by omega)]

/-- Witness of C2 on `tinyTable`: `inode_delete(3)` on the three-slot table. -/
theorem inode_delete_table_size_out_of_bounds_witness :
    tinyTable.length = tinyConsts.INODE_TABLE_SIZE ∧
    inode_delete tinyConsts 3 tinyTable = .error .outOfBounds :=
  ⟨by decide, inode_delete_table_size_out_of_bounds tinyConsts tinyTable (by decide)⟩

/-! ## Directory entries -/

/-- What the entry scan computes on a block that covers the scanned range:
the first index whose entry satisfies `p`, or nothing when no entry does. -/
theorem scanEntries_spec (p : DirEntry → Bool) (es : List DirEntry) :
    ∀ (n i : Nat), i + n ≤ es.length →
      (∃ k e, scanEntries p es i n = .ok (some k) ∧ i ≤ k ∧ k < i + n ∧
          es[k]? = some e ∧ p e = true ∧
          ∀ j e', i ≤ j → j < k → es[j]? = some e' → p e' = false) ∨
      (scanEntries p es i n = .ok none ∧
          ∀ j e', i ≤ j → j < i + n → es[j]? = some e' → p e' = false) := by
  intro n
  induction n with
  | zero =>
    intro i _
    right
    refine ⟨by simp [scanEntries], ?_⟩
    intro j e' h1 h2
    omega
  | succ n ih =>
    intro i hi
    have hil : i < es.length := by omega
    have hget : es[i]? = some es[i] := List.getElem?_eq_getElem hil
    by_cases hp : p es[i] = true
    · left
      refine ⟨i, es[i], ?_, Nat.le_refl i, by omega, hget, hp, ?_⟩
      · unfold scanEntries
        simp only [hget, hp, if_true]
      · intro j e' h1 h2
        omega
    · have hpf : p es[i] = false := by simpa using hp
      have hstep : scanEntries p es i (n + 1) = scanEntries p es (i + 1) n := by
        conv => lhs; unfold scanEntries
        simp [hget, hpf]
      have hhere : ∀ j e', j = i → es[j]? = some e' → p e' = false := by
        intro j e' hj he
        subst hj
        rw [hget] at he
        cases he
        exact hpf
      rcases ih (i + 1) (by omega) with ⟨k, e, hk, h1, h2, h3, h4, h5⟩ | ⟨hk, h5⟩
      · left
        refine ⟨k, e, by rw [hstep, hk], by omega, by omega, h3, h4, ?_⟩
        intro j e' hj1 hj2 he
        by_cases hji : j = i
        · exact hhere j e' hji he
        · exact h5 j e' (by omega) hj2 he
      · right
        refine ⟨by rw [hstep, hk], ?_⟩
        intro j e' hj1 hj2 he
        by_cases hji : j = i
        · exact hhere j e' hji he
        · exact h5 j e' (by omega) (by omega) he

/-- The entry scan only looks at the values of `p` on the entries. -/
theorem scanEntries_congr (p : DirEntry → Bool) (es es' : List DirEntry)
    (h : ∀ j : Nat, es[j]?.map p = es'[j]?.map p) :
    ∀ (n i : Nat), scanEntries p es i n = scanEntries p es' i n := by
  intro n
  induction n with
  | zero => intro i; simp [scanEntries]
  | succ n ih =>
    intro i
    have hi := h i
    unfold scanEntries
    cases h1 : es[i]? with
    | none =>
      rw [h1] at hi
      cases h2 : es'[i]? with
      | none => rfl
      | some b => rw [h2] at hi; simp at hi
    | some a =>
      rw [h1] at hi
      cases h2 : es'[i]? with
      | none => rw [h2] at hi; simp at hi
      | some b =>
        rw [h2] at hi
        simp only [Option.map_some', Option.some.injEq] at hi
        simp only [hi, ih (i + 1)]

/-- A directory slot of a well-formed table carries a block of
`MAX_DIR_ENTRIES` entries. -/
theorem block_of_wellFormed_directory (c : Consts) (nd : inode)
    (hw : nd.wellFormed c = true) (hk : nd.nodeType = type.T_DIRECTORY) :
    ∃ es, nd.data = Data.block es ∧ es.length = c.MAX_DIR_ENTRIES := by
  rcases nd with ⟨k, d, l⟩
  simp only at hk
  subst hk
  cases d with
  | null => simp [inode.wellFormed] at hw
  | freed => simp [inode.wellFormed] at hw
  | block es => exact ⟨es, rfl, by simpa [inode.wellFormed] using hw⟩

/-- C3: for in-range parent and child and a name that fits the name buffer,
`dir_add_entry` returns, and it returns `SUCCESS` exactly when the parent is a
directory, the child is allocated, the name is non-empty and the parent has a
free entry.  On success the lowest-index free entry of the parent holds
`(name, child)`, every other entry of the parent is as before, and so is every
other slot of the table. -/
theorem dir_add_entry_success_iff (c : Consts) (p ch : Nat) (name : Name) (tbl : Table)
    (hwf : WellFormed c tbl) (hp : p < c.INODE_TABLE_SIZE) (hch : ch < c.INODE_TABLE_SIZE)
    (hname : name.length < c.MAX_FILE_NAME) (hsf : c.SUCCESS ≠ c.FAIL) :
    ∃ r tbl', dir_add_entry c (p : Int) (ch : Int) name tbl = .ok (r, tbl') ∧
      (r = c.SUCCESS ↔
        kindAt tbl p = some type.T_DIRECTORY ∧ kindAt tbl ch ≠ some type.T_NONE ∧ name ≠ [] ∧
        ∃ es, entriesAt tbl p = some es ∧ ∃ e ∈ es, e.inumber = c.FREE_INODE) ∧
      (r = c.SUCCESS →
        ∃ (es es' : List DirEntry) (i : Nat), entriesAt tbl p = some es ∧
          entriesAt tbl' p = some es' ∧
          es[i]?.map DirEntry.inumber = some c.FREE_INODE ∧
          (∀ j, j < i → es[j]?.map DirEntry.inumber ≠ some c.FREE_INODE) ∧
          es'[i]? = some (DirEntry.mk name (ch : Int)) ∧ (∀ j : Nat, j ≠ i → es'[j]? = es[j]?) ∧
          (∀ q, q ≠ p → tbl'[q]? = tbl[q]?)) := by
  obtain ⟨hlen, hslots⟩ := hwf
  have hpl : p < tbl.length := by omega
  have hcl : ch < tbl.length := by omega
  obtain ⟨pn, hpn⟩ : ∃ pn, tbl[p]? = some pn := ⟨tbl[p], List.getElem?_eq_getElem hpl⟩
  obtain ⟨cn, hcn⟩ : ∃ cn, tbl[ch]? = some cn := ⟨tbl[ch], List.getElem?_eq_getElem hcl⟩
  have h1 : ¬ ((p : Int) < 0 ∨ (p : Int) > c.INODE_TABLE_SIZE) := by omega
  have h2 : ¬ ((ch : Int) < 0 ∨ (ch : Int) > c.INODE_TABLE_SIZE) := by omega
  have hfailcase : ∀ (Q : Prop), ¬ Q →
      dir_add_entry c (p : Int) (ch : Int) name tbl = .ok (c.FAIL, tbl) →
      ∃ r tbl', dir_add_entry c (p : Int) (ch : Int) name tbl = .ok (r, tbl') ∧
        (r = c.SUCCESS ↔ Q) ∧ (r = c.SUCCESS →
          ∃ (es es' : List DirEntry) (i : Nat), entriesAt tbl p = some es ∧
          entriesAt tbl' p = some es' ∧
            es[i]?.map DirEntry.inumber = some c.FREE_INODE ∧
            (∀ j, j < i → es[j]?.map DirEntry.inumber ≠ some c.FREE_INODE) ∧
            es'[i]? = some (DirEntry.mk name (ch : Int)) ∧ (∀ j : Nat, j ≠ i → es'[j]? = es[j]?) ∧
            (∀ q, q ≠ p → tbl'[q]? = tbl[q]?)) := by
    intro Q hQ hrun
    exact ⟨c.FAIL, tbl, hrun, ⟨fun h => absurd h.symm hsf, fun h => absurd h hQ⟩,
      fun h => absurd h.symm hsf⟩
  by_cases hpk : pn.nodeType = type.T_DIRECTORY
  swap
  · apply hfailcase
    · intro h
      apply hpk
      have := h.1
      simp only [kindAt, hpn, Option.map_some', Option.some.injEq] at this
      exact this
    · unfold dir_add_entry
      rw [if_neg h1, slotAt_natCast, hpn]
      by_cases hnone : pn.nodeType = type.T_NONE
      · simp [hnone]
      · simp [hnone, hpk]
  have hpnn : pn.nodeType ≠ type.T_NONE := by rw [hpk]; decide
  by_cases hck : cn.nodeType = type.T_NONE
  · apply hfailcase
    · intro h
      apply h.2.1
      simp [kindAt, hcn, hck]
    · unfold dir_add_entry
      rw [if_neg h1, slotAt_natCast, hpn]
      simp only [hpk, reduceCtorEq, if_false, ne_eq, not_true_eq_false]
      rw [if_neg h2, slotAt_natCast, hcn]
      simp [hck]
  by_cases hnm : name = []
  · apply hfailcase
    · intro h
      exact h.2.2.1 hnm
    · unfold dir_add_entry
      rw [if_neg h1, slotAt_natCast, hpn]
      simp only [hpk, reduceCtorEq, if_false, ne_eq, not_true_eq_false]
      rw [if_neg h2, slotAt_natCast, hcn]
      simp [hck, hnm]
  obtain ⟨es, hdata, heslen⟩ :=
    block_of_wellFormed_directory c pn (hslots pn (List.getElem?_mem hpn)) hpk
  have hents : entriesAt tbl p = some es := by
    simp [entriesAt, hpn, hdata]
  have hnl : ¬ name.length = 0 := by
    intro h
    exact hnm (List.length_eq_zero.mp h)
  have hrun : dir_add_entry c (p : Int) (ch : Int) name tbl =
      match scanEntries (fun e => decide (e.inumber = c.FREE_INODE)) es 0
          c.MAX_DIR_ENTRIES with
      | .error e => .error e
      | .ok none => .ok (c.FAIL, tbl)
      | .ok (some i) =>
        .ok (c.SUCCESS, tbl.set p { pn with data := .block (es.set i ⟨name, (ch : Int)⟩) }) := by
    unfold dir_add_entry
    rw [if_neg h1, slotAt_natCast, hpn]
    simp only [hpk, reduceCtorEq, if_false, ne_eq, not_true_eq_false]
    rw [if_neg h2, slotAt_natCast, hcn]
    simp only [hck, if_false, hnl, hdata, Data.deref, Int.toNat_ofNat, reduceCtorEq]
    have hfit : ¬ c.MAX_FILE_NAME ≤ name.length := by omega
    simp only [hfit, if_false]
  rcases scanEntries_spec (fun e => decide (e.inumber = c.FREE_INODE)) es c.MAX_DIR_ENTRIES 0
      (by omega) with ⟨k, e, hk, _, hk2, hke, hkp, hkmin⟩ | ⟨hk, hnone⟩
  · rw [hk] at hrun
    have hkl : k < es.length := lt_length_of_getElem? hke
    have hkfree : e.inumber = c.FREE_INODE := by simpa using hkp
    refine ⟨c.SUCCESS, _, hrun, ⟨fun _ => ?_, fun _ => rfl⟩, fun _ => ?_⟩
    · refine ⟨by simp [kindAt, hpn, hpk], ?_, hnm, es, hents, e, List.getElem?_mem hke, hkfree⟩
      simp [kindAt, hcn, hck]
    · refine ⟨es, es.set k ⟨name, (ch : Int)⟩, k, hents, ?_, ?_, ?_, ?_, ?_, ?_⟩
      · simp [entriesAt, List.getElem?_set_self hpl]
      · simp [hke, hkfree]
      · intro j hj h
        have hjl : j < es.length := by omega
        rw [List.getElem?_eq_getElem hjl] at h
        simp only [Option.map_some', Option.some.injEq] at h
        have := hkmin j es[j] (Nat.zero_le j) hj (List.getElem?_eq_getElem hjl)
        simp [h] at this
      · exact List.getElem?_set_self hkl
      · intro j hj
        exact List.getElem?_set_ne (Ne.symm hj)
      · intro q hq
        exact List.getElem?_set_ne (Ne.symm hq)
  · rw [hk] at hrun
    apply hfailcase _ _ hrun
    rintro ⟨_, _, _, es2, hes2, e, he, hfree⟩
    rw [hents] at hes2
    cases hes2
    obtain ⟨j, hj, rfl⟩ := List.getElem_of_mem he
    have := hnone j es[j] (Nat.zero_le j) (by omega) (List.getElem?_eq_getElem hj)
    simp [hfree] at this

theorem slotAt_ok_inv {tbl : Table} {i : Int} {nd : inode} (h : slotAt tbl i = .ok nd) :
    0 ≤ i ∧ tbl[i.toNat]? = some nd := by
  unfold slotAt at h
  split at h
  · simp at h
  rename_i hi
  split at h
  · simp at h
  rename_i nd2 hnd
  simp only [Except.ok.injEq] at h
  subst h
  exact ⟨by omega, hnd⟩

theorem deref_ok_inv {d : Data} {es : List DirEntry} (h : d.deref = .ok es) :
    d = Data.block es := by
  cases d with
  | null => simp [Data.deref] at h
  | freed => simp [Data.deref] at h
  | block es2 =>
    simp only [Data.deref, Except.ok.injEq] at h
    rw [h]

/-- What a successful `dir_add_entry` did: the parent is a directory slot whose
block has a free entry, the first one was overwritten. -/
theorem dir_add_entry_success_inv (c : Consts) (p ch : Int) (name : Name) (tbl tbl' : Table)
    (hsf : c.SUCCESS ≠ c.FAIL)
    (h : dir_add_entry c p ch name tbl = .ok (c.SUCCESS, tbl')) :
    ∃ (pn cn : inode) (es : List DirEntry) (i : Nat),
      0 ≤ p ∧ 0 ≤ ch ∧ tbl[p.toNat]? = some pn ∧ tbl[ch.toNat]? = some cn ∧
      pn.nodeType = type.T_DIRECTORY ∧ cn.nodeType ≠ type.T_NONE ∧ name ≠ [] ∧
      name.length < c.MAX_FILE_NAME ∧ pn.data = Data.block es ∧
      scanEntries (fun e => decide (e.inumber = c.FREE_INODE)) es 0 c.MAX_DIR_ENTRIES
        = .ok (some i) ∧
      tbl' = tbl.set p.toNat { pn with data := .block (es.set i ⟨name, ch⟩) } := by
  unfold dir_add_entry at h
  split at h
  · simp at h; exact absurd h.1.symm hsf
  rename_i hrange
  split at h
  · simp at h
  rename_i pn hpn
  split at h
  · simp at h; exact absurd h.1.symm hsf
  rename_i hpnn
  split at h
  · simp at h; exact absurd h.1.symm hsf
  rename_i hpk
  split at h
  · simp at h; exact absurd h.1.symm hsf
  rename_i hcrange
  split at h
  · simp at h
  rename_i cn hcn
  split at h
  · simp at h; exact absurd h.1.symm hsf
  rename_i hck
  split at h
  · simp at h; exact absurd h.1.symm hsf
  rename_i hnl
  split at h
  · simp at h
  rename_i es hes
  split at h
  · simp at h
  · simp at h; exact absurd h.1.symm hsf
  rename_i i hscan
  split at h
  · simp at h
  rename_i hfit
  have hp := slotAt_ok_inv hpn
  have hc := slotAt_ok_inv hcn
  have hd := deref_ok_inv hes
  simp only [Except.ok.injEq, Prod.mk.injEq, true_and] at h
  refine ⟨pn, cn, es, i, hp.1, hc.1, hp.2, hc.2, by simpa using hpk, hck, ?_, by omega, hd,
    hscan, h.symm⟩
  intro hn
  exact hnl (by simp [hn])

/-- Witness of C3 on `tinyTable`: adding `b -> 2` to the directory in slot 0. -/
theorem dir_add_entry_success_iff_witness :
    WellFormed tinyConsts tinyTable ∧
    ∃ r tbl', dir_add_entry tinyConsts ((0 : Nat) : Int) ((2 : Nat) : Int) ['b'] tinyTable
        = .ok (r, tbl') ∧
      (r = tinyConsts.SUCCESS ↔
        kindAt tinyTable 0 = some type.T_DIRECTORY ∧ kindAt tinyTable 2 ≠ some type.T_NONE ∧
        ['b'] ≠ [] ∧
        ∃ es, entriesAt tinyTable 0 = some es ∧ ∃ e ∈ es, e.inumber = tinyConsts.FREE_INODE) ∧
      (r = tinyConsts.SUCCESS →
        ∃ (es es' : List DirEntry) (i : Nat), entriesAt tinyTable 0 = some es ∧
          entriesAt tbl' 0 = some es' ∧
          es[i]?.map DirEntry.inumber = some tinyConsts.FREE_INODE ∧
          (∀ j, j < i → es[j]?.map DirEntry.inumber ≠ some tinyConsts.FREE_INODE) ∧
          es'[i]? = some (DirEntry.mk ['b'] ((2 : Nat) : Int)) ∧
          (∀ j : Nat, j ≠ i → es'[j]? = es[j]?) ∧
          (∀ q, q ≠ 0 → tbl'[q]? = tinyTable[q]?)) :=
  ⟨by decide,
    dir_add_entry_success_iff tinyConsts 0 2 ['b'] tinyTable (by decide) (by decide) (by decide)
      (by decide) (by decide)⟩

theorem lookup_sub_node_of_scan_some (c : Consts) (name : Name) (es : List DirEntry)
    (k : Nat) (e : DirEntry)
    (hscan : scanEntries (fun e => decide (e.inumber ≠ c.FREE_INODE) && decide (e.name = name))
      es 0 c.MAX_DIR_ENTRIES = .ok (some k))
    (hk : es[k]? = some e) :
    lookup_sub_node c name (some es) = .ok e.inumber := by
  simp only [lookup_sub_node, hscan, hk]

theorem lookup_sub_node_of_scan_none (c : Consts) (name : Name) (es : List DirEntry)
    (hscan : scanEntries (fun e => decide (e.inumber ≠ c.FREE_INODE) && decide (e.name = name))
      es 0 c.MAX_DIR_ENTRIES = .ok none) :
    lookup_sub_node c name (some es) = .ok c.FAIL := by
  simp only [lookup_sub_node, hscan]

/-- C4: on an entry array of `MAX_DIR_ENTRIES` entries, `lookup_sub_node`
returns the inumber of the lowest-index entry that is populated
(`inumber != FREE_INODE`) and carries the name, and `FAIL` when no populated
entry carries it (so an entry marked `FREE_INODE` never matches, whatever its
name); with `entries == NULL` it returns `FAIL`. -/
theorem lookup_sub_node_first_match (c : Consts) (name : Name) (es : List DirEntry)
    (hlen : es.length = c.MAX_DIR_ENTRIES) :
    lookup_sub_node c name none = .ok c.FAIL ∧
    ((∃ (i : Nat) (e : DirEntry), es[i]? = some e ∧ e.inumber ≠ c.FREE_INODE ∧ e.name = name ∧
        (∀ (j : Nat) (e' : DirEntry), j < i → es[j]? = some e' →
          ¬ (e'.inumber ≠ c.FREE_INODE ∧ e'.name = name)) ∧
        lookup_sub_node c name (some es) = .ok e.inumber) ∨
     ((∀ e ∈ es, ¬ (e.inumber ≠ c.FREE_INODE ∧ e.name = name)) ∧
        lookup_sub_node c name (some es) = .ok c.FAIL)) := by
  refine ⟨rfl, ?_⟩
  rcases scanEntries_spec
      (fun e => decide (e.inumber ≠ c.FREE_INODE) && decide (e.name = name)) es
      c.MAX_DIR_ENTRIES 0 (by omega) with ⟨k, e, hk, _, _, hke, hkp, hkmin⟩ | ⟨hk, hnone⟩
  · left
    simp only [Bool.and_eq_true, decide_eq_true_eq] at hkp
    refine ⟨k, e, hke, hkp.1, hkp.2, ?_, lookup_sub_node_of_scan_some c name es k e hk hke⟩
    intro j e' hj he hm
    have := hkmin j e' (Nat.zero_le j) hj he
    simp [hm.1, hm.2] at this
  · right
    refine ⟨?_, lookup_sub_node_of_scan_none c name es hk⟩
    intro e he hm
    obtain ⟨j, hj, rfl⟩ := List.getElem_of_mem he
    have := hnone j es[j] (Nat.zero_le j) (by omega) (List.getElem?_eq_getElem hj)
    simp [hm.1, hm.2] at this

/-- Witness of C4 on the entry array of the directory of `tinyTable`. -/
theorem lookup_sub_node_first_match_witness :
    lookup_sub_node tinyConsts ['a'] none = .ok tinyConsts.FAIL ∧
    ((∃ (i : Nat) (e : DirEntry), [DirEntry.mk ['a'] 2, DirEntry.mk [] (-1)][i]? = some e ∧
        e.inumber ≠ tinyConsts.FREE_INODE ∧ e.name = ['a'] ∧
        (∀ (j : Nat) (e' : DirEntry), j < i →
          [DirEntry.mk ['a'] 2, DirEntry.mk [] (-1)][j]? = some e' →
          ¬ (e'.inumber ≠ tinyConsts.FREE_INODE ∧ e'.name = ['a'])) ∧
        lookup_sub_node tinyConsts ['a'] (some [DirEntry.mk ['a'] 2, DirEntry.mk [] (-1)])
          = .ok e.inumber) ∨
     ((∀ e ∈ [DirEntry.mk ['a'] 2, DirEntry.mk [] (-1)],
          ¬ (e.inumber ≠ tinyConsts.FREE_INODE ∧ e.name = ['a'])) ∧
        lookup_sub_node tinyConsts ['a'] (some [DirEntry.mk ['a'] 2, DirEntry.mk [] (-1)])
          = .ok tinyConsts.FAIL)) :=
  lookup_sub_node_first_match tinyConsts ['a'] [DirEntry.mk ['a'] 2, DirEntry.mk [] (-1)]
    (by decide)

/-- The index returned by a successful entry scan is the first one whose entry
satisfies `p`. -/
theorem scanEntries_some_inv (p : DirEntry → Bool) (es : List DirEntry) (n i : Nat)
    (hlen : n ≤ es.length) (h : scanEntries p es 0 n = .ok (some i)) :
    ∃ e, es[i]? = some e ∧ p e = true ∧ i < n ∧
      ∀ (j : Nat) (e' : DirEntry), j < i → es[j]? = some e' → p e' = false := by
  rcases scanEntries_spec p es n 0 (by omega) with ⟨k, e, hk, _, hk2, hke, hkp, hkmin⟩ | ⟨hk, _⟩
  · rw [hk] at h
    simp only [Except.ok.injEq, Option.some.injEq] at h
    subst h
    exact ⟨e, hke, hkp, by omega, fun j e' hj he => hkmin j e' (Nat.zero_le j) hj he⟩
  · rw [hk] at h
    simp at h

/-- C5: when `dir_add_entry(p, c, n)` returns `SUCCESS` on a directory `p` that
had no populated entry named `n`, `lookup_sub_node(n, entries of p)` returns
`c` afterwards, and for every other name the lookup gives what it gave before
the call.  (`FREE_INODE` is negative, `SUCCESS` differs from `FAIL`.) -/
theorem dir_add_entry_then_lookup (c : Consts) (p ch : Nat) (n : Name) (tbl tbl' : Table)
    (es : List DirEntry) (hwf : WellFormed c tbl) (hfree : c.FREE_INODE < 0)
    (hsf : c.SUCCESS ≠ c.FAIL) (hes : entriesAt tbl p = some es)
    (hfresh : ∀ e ∈ es, e.inumber ≠ c.FREE_INODE → e.name ≠ n)
    (hadd : dir_add_entry c (p : Int) (ch : Int) n tbl = .ok (c.SUCCESS, tbl')) :
    ∃ es', entriesAt tbl' p = some es' ∧
      lookup_sub_node c n (some es') = .ok (ch : Int) ∧
      ∀ m, m ≠ n → lookup_sub_node c m (some es') = lookup_sub_node c m (some es) := by
  obtain ⟨pn, cn, es0, i, _, _, hpn, _, hpk, _, _, _, hdata, hscan, htbl⟩ :=
    dir_add_entry_success_inv c p ch n tbl tbl' hsf hadd
  simp only [Int.toNat_ofNat] at hpn htbl
  have hpl : p < tbl.length := lt_length_of_getElem? hpn
  have hes0 : es0 = es := by
    simp only [entriesAt, hpn, hdata, Option.some.injEq] at hes
    exact hes
  subst hes0
  obtain ⟨es1, hd1, heslen⟩ :=
    block_of_wellFormed_directory c pn (hwf.2 pn (List.getElem?_mem hpn)) hpk
  rw [hdata] at hd1
  cases hd1
  obtain ⟨e0, he0, he0p, hi, hmin⟩ :=
    scanEntries_some_inv _ es0 c.MAX_DIR_ENTRIES i (by omega) hscan
  have he0free : e0.inumber = c.FREE_INODE := by simpa using he0p
  have hil : i < es0.length := lt_length_of_getElem? he0
  have hnew : (es0.set i ⟨n, (ch : Int)⟩)[i]? = some ⟨n, (ch : Int)⟩ :=
    List.getElem?_set_self hil
  have hold : ∀ j : Nat, j ≠ i → (es0.set i ⟨n, (ch : Int)⟩)[j]? = es0[j]? :=
    fun j hj => List.getElem?_set_ne (Ne.symm hj)
  have hchne : (ch : Int) ≠ c.FREE_INODE := by omega
  refine ⟨es0.set i ⟨n, (ch : Int)⟩, ?_, ?_, ?_⟩
  · rw [htbl]
    simp [entriesAt, List.getElem?_set_self hpl]
  · rcases scanEntries_spec
        (fun e => decide (e.inumber ≠ c.FREE_INODE) && decide (e.name = n))
        (es0.set i ⟨n, (ch : Int)⟩) c.MAX_DIR_ENTRIES 0
        (by rw [List.length_set]; omega) with ⟨k, e, hk, _, _, hke, hkp, hkmin⟩ | ⟨_, hnone⟩
    · simp only [Bool.and_eq_true, decide_eq_true_eq] at hkp
      have hki : k = i := by
        rcases Nat.lt_trichotomy k i with hlt | heq | hgt
        · have hke2 : es0[k]? = some e := by rw [← hold k (by omega)]; exact hke
          exact absurd hkp.2 (hfresh e (List.getElem?_mem hke2) hkp.1)
        · exact heq
        · have := hkmin i ⟨n, (ch : Int)⟩ (Nat.zero_le i) hgt hnew
          simp [hchne] at this
      subst hki
      rw [hnew] at hke
      cases hke
      exact lookup_sub_node_of_scan_some c n _ k _ hk hnew
    · have := hnone i ⟨n, (ch : Int)⟩ (Nat.zero_le i) (by omega) hnew
      simp [hchne] at this
  · intro m hm
    have hcongr : ∀ j : Nat,
        (es0.set i ⟨n, (ch : Int)⟩)[j]?.map
            (fun e => decide (e.inumber ≠ c.FREE_INODE) && decide (e.name = m)) =
          es0[j]?.map (fun e => decide (e.inumber ≠ c.FREE_INODE) && decide (e.name = m)) := by
      intro j
      by_cases hj : j = i
      · subst hj
        rw [hnew, he0]
        simp [he0free, Ne.symm hm]
      · rw [hold j hj]
    have hsame := scanEntries_congr _ _ _ hcongr c.MAX_DIR_ENTRIES 0
    rcases scanEntries_spec
        (fun e => decide (e.inumber ≠ c.FREE_INODE) && decide (e.name = m)) es0
        c.MAX_DIR_ENTRIES 0 (by omega) with ⟨k, e, hk, _, _, hke, hkp, _⟩ | ⟨hk, _⟩
    · have hki : k ≠ i := by
        intro h
        subst h
        rw [he0] at hke
        cases hke
        simp [he0free] at hkp
      rw [lookup_sub_node_of_scan_some c m es0 k e hk hke]
      exact lookup_sub_node_of_scan_some c m _ k e (by rw [hsame, hk])
        (by rw [hold k hki]; exact hke)
    · rw [lookup_sub_node_of_scan_none c m es0 hk]
      exact lookup_sub_node_of_scan_none c m _ (by rw [hsame, hk])

/-- Witness of C5 on `tinyTable`: adding `b -> 2` to the directory in slot 0. -/
theorem dir_add_entry_then_lookup_witness :
    WellFormed tinyConsts tinyTable ∧
    entriesAt tinyTable 0 = some [⟨['a'], 2⟩, ⟨[], -1⟩] ∧
    dir_add_entry tinyConsts ((0 : Nat) : Int) ((2 : Nat) : Int) ['b'] tinyTable
      = .ok (tinyConsts.SUCCESS, tinyTableAdded) ∧
    ∃ es', entriesAt tinyTableAdded 0 = some es' ∧
      lookup_sub_node tinyConsts ['b'] (some es') = .ok ((2 : Nat) : Int) ∧
      ∀ m, m ≠ ['b'] → lookup_sub_node tinyConsts m (some es') =
        lookup_sub_node tinyConsts m (some [⟨['a'], 2⟩, ⟨[], -1⟩]) :=
  ⟨by decide, by decide, by decide,
    dir_add_entry_then_lookup tinyConsts 0 2 ['b'] tinyTable tinyTableAdded
      [⟨['a'], 2⟩, ⟨[], -1⟩] (by decide) (by decide) (by decide) (by decide) (by decide)
      (by decide)⟩

/-- The run of `dir_reset_entry` once the validity tests have passed. -/
theorem dir_reset_entry_run (c : Consts) (p ch : Nat) (tbl : Table) (pn cn : inode)
    (es : List DirEntry) (hp : p ≤ c.INODE_TABLE_SIZE) (hch : ch ≤ c.INODE_TABLE_SIZE)
    (hfree : c.FREE_INODE ≤ ch)
    (hpn : tbl[p]? = some pn) (hcn : tbl[ch]? = some cn)
    (hpk : pn.nodeType = type.T_DIRECTORY) (hck : cn.nodeType ≠ type.T_NONE)
    (hdata : pn.data = Data.block es) :
    dir_reset_entry c (p : Int) (ch : Int) tbl =
      match scanEntries (fun e => decide (e.inumber = (ch : Int))) es 0 c.MAX_DIR_ENTRIES with
      | .error e => .error e
      | .ok none => .ok (c.FAIL, tbl)
      | .ok (some i) =>
        .ok (c.SUCCESS, tbl.set p { pn with data := .block (es.set i ⟨[], c.FREE_INODE⟩) }) := by
  have h1 : ¬ ((p : Int) < 0 ∨ (p : Int) > c.INODE_TABLE_SIZE) := by omega
  have h2 : ¬ ((ch : Int) < c.FREE_INODE ∨ (ch : Int) > c.INODE_TABLE_SIZE) := by omega
  unfold dir_reset_entry
  rw [if_neg h1, slotAt_natCast, hpn]
  simp only [hpk, reduceCtorEq, if_false, ne_eq, not_true_eq_false]
  rw [if_neg h2, slotAt_natCast, hcn]
  simp only [hck, if_false, hdata, Data.deref, Int.toNat_ofNat]

/-- C6: for a directory `p` and an in-range allocated child `c`,
`dir_reset_entry(p, c)` returns `SUCCESS` when some entry of `p` has inumber
`c`: the lowest-index such entry is marked `FREE_INODE`, every other entry of
`p` and every other slot is unchanged.  When no entry of `p` has inumber `c`
it returns `FAIL`. -/
theorem dir_reset_entry_by_inumber (c : Consts) (p ch : Nat) (tbl : Table)
    (es : List DirEntry) (hwf : WellFormed c tbl)
    (hpk : kindAt tbl p = some type.T_DIRECTORY) (hch : ch < c.INODE_TABLE_SIZE)
    (hck : kindAt tbl ch ≠ some type.T_NONE) (hfree : c.FREE_INODE < 0)
    (hes : entriesAt tbl p = some es) :
    (∀ i : Nat, es[i]?.map DirEntry.inumber = some (ch : Int) →
        (∀ j : Nat, j < i → es[j]?.map DirEntry.inumber ≠ some (ch : Int)) →
        ∃ (tbl' : Table) (es' : List DirEntry),
          dir_reset_entry c (p : Int) (ch : Int) tbl = .ok (c.SUCCESS, tbl') ∧
          entriesAt tbl' p = some es' ∧
          es'[i]?.map DirEntry.inumber = some c.FREE_INODE ∧
          (∀ j : Nat, j ≠ i → es'[j]? = es[j]?) ∧
          (∀ q : Nat, q ≠ p → tbl'[q]? = tbl[q]?)) ∧
    ((∀ e ∈ es, e.inumber ≠ (ch : Int)) →
        dir_reset_entry c (p : Int) (ch : Int) tbl = .ok (c.FAIL, tbl)) := by
  obtain ⟨hlen, hslots⟩ := hwf
  have hcl : ch < tbl.length := by omega
  obtain ⟨cn, hcn⟩ : ∃ cn, tbl[ch]? = some cn := ⟨tbl[ch], List.getElem?_eq_getElem hcl⟩
  have hcnk : cn.nodeType ≠ type.T_NONE := by
    intro h
    apply hck
    simp [kindAt, hcn, h]
  cases hpn : tbl[p]? with
  | none => simp [kindAt, hpn] at hpk
  | some pn =>
    have hpl : p < tbl.length := lt_length_of_getElem? hpn
    have hpnk : pn.nodeType = type.T_DIRECTORY := by
      simpa [kindAt, hpn] using hpk
    obtain ⟨es1, hdata, heslen⟩ :=
      block_of_wellFormed_directory c pn (hslots pn (List.getElem?_mem hpn)) hpnk
    have hes1 : es1 = es := by
      simp only [entriesAt, hpn, hdata, Option.some.injEq] at hes
      exact hes
    subst hes1
    have hrun := dir_reset_entry_run c p ch tbl pn cn es1 (by omega) (by omega) (by omega)
      hpn hcn hpnk hcnk hdata
    constructor
    · intro i hi hmin
      rcases scanEntries_spec (fun e => decide (e.inumber = (ch : Int))) es1
          c.MAX_DIR_ENTRIES 0 (by omega) with ⟨k, e, hk, _, _, hke, hkp, hkmin⟩ | ⟨_, hnone⟩
      · have hkch : e.inumber = (ch : Int) := by simpa using hkp
        have hkl : k < es1.length := lt_length_of_getElem? hke
        have hki : k = i := by
          rcases Nat.lt_trichotomy k i with hlt | heq | hgt
          · exact absurd (by simp [hke, hkch]) (hmin k hlt)
          · exact heq
          · cases hie : es1[i]? with
            | none => simp [hie] at hi
            | some ei =>
              have h1 : ei.inumber = (ch : Int) := by simpa [hie] using hi
              have := hkmin i ei (Nat.zero_le i) hgt hie
              simp [h1] at this
        subst hki
        rw [hk] at hrun
        refine ⟨_, es1.set k ⟨[], c.FREE_INODE⟩, hrun, ?_, ?_, ?_, ?_⟩
        · simp [entriesAt, List.getElem?_set_self hpl]
        · simp [List.getElem?_set_self hkl]
        · intro j hj
          exact List.getElem?_set_ne (Ne.symm hj)
        · intro q hq
          exact List.getElem?_set_ne (Ne.symm hq)
      · cases hie : es1[i]? with
        | none => simp [hie] at hi
        | some ei =>
          have h1 : ei.inumber = (ch : Int) := by simpa [hie] using hi
          have hil : i < es1.length := lt_length_of_getElem? hie
          have := hnone i ei (Nat.zero_le i) (by omega) hie
          simp [h1] at this
    · intro hno
      rcases scanEntries_spec (fun e => decide (e.inumber = (ch : Int))) es1
          c.MAX_DIR_ENTRIES 0 (by omega) with ⟨k, e, _, _, _, hke, hkp, _⟩ | ⟨hk, _⟩
      · have hkch : e.inumber = (ch : Int) := by simpa using hkp
        exact absurd hkch (hno e (List.getElem?_mem hke))
      · rw [hk] at hrun
        exact hrun

/-- Witness of C6 on `tinyTable`: slot 0 is a directory whose entry 0 refers to
the file in slot 2. -/
theorem dir_reset_entry_by_inumber_witness :
    WellFormed tinyConsts tinyTable ∧
    kindAt tinyTable 0 = some type.T_DIRECTORY ∧
    kindAt tinyTable 2 ≠ some type.T_NONE ∧
    entriesAt tinyTable 0 = some [⟨['a'], 2⟩, ⟨[], -1⟩] ∧
    (∀ i : Nat, [DirEntry.mk ['a'] 2, DirEntry.mk [] (-1)][i]?.map DirEntry.inumber
          = some ((2 : Nat) : Int) →
        (∀ j : Nat, j < i → [DirEntry.mk ['a'] 2, DirEntry.mk [] (-1)][j]?.map DirEntry.inumber
          ≠ some ((2 : Nat) : Int)) →
        ∃ (tbl' : Table) (es' : List DirEntry),
          dir_reset_entry tinyConsts ((0 : Nat) : Int) ((2 : Nat) : Int) tinyTable
            = .ok (tinyConsts.SUCCESS, tbl') ∧
          entriesAt tbl' 0 = some es' ∧
          es'[i]?.map DirEntry.inumber = some tinyConsts.FREE_INODE ∧
          (∀ j : Nat, j ≠ i → es'[j]? = [DirEntry.mk ['a'] 2, DirEntry.mk [] (-1)][j]?) ∧
          (∀ q : Nat, q ≠ 0 → tbl'[q]? = tinyTable[q]?)) ∧
    ((∀ e ∈ [DirEntry.mk ['a'] 2, DirEntry.mk [] (-1)], e.inumber ≠ ((2 : Nat) : Int)) →
        dir_reset_entry tinyConsts ((0 : Nat) : Int) ((2 : Nat) : Int) tinyTable
          = .ok (tinyConsts.FAIL, tinyTable)) :=
  ⟨by decide, by decide, by decide, by decide,
    dir_reset_entry_by_inumber tinyConsts 0 2 tinyTable [⟨['a'], 2⟩, ⟨[], -1⟩]
      (by decide) (by decide) (by decide) (by decide) (by decide) (by decide)⟩

/-- C7: with a directory parent, `dir_reset_entry(parent, FREE_INODE)` is not
rejected: the lower range test compares with `FREE_INODE` and not with 0, so
the negative `sub_inumber` passes it and the code reads
`inode_table[FREE_INODE]`, in front of the table, instead of returning
`FAIL`. -/
theorem dir_reset_entry_free_inode_out_of_bounds (c : Consts) (p : Nat) (tbl : Table)
    (hlen : tbl.length = c.INODE_TABLE_SIZE) (hfree : c.FREE_INODE < 0)
    (hpk : kindAt tbl p = some type.T_DIRECTORY) :
    dir_reset_entry c (p : Int) c.FREE_INODE tbl = .error .outOfBounds := by
  cases hpn : tbl[p]? with
  | none => simp [kindAt, hpn] at hpk
  | some pn =>
    have hpl : p < tbl.length := lt_length_of_getElem? hpn
    have hpnk : pn.nodeType = type.T_DIRECTORY := by
      simpa [kindAt, hpn] using hpk
    have h1 : ¬ ((p : Int) < 0 ∨ (p : Int) > c.INODE_TABLE_SIZE) := by omega
    have h2 : ¬ (c.FREE_INODE < c.FREE_INODE ∨ c.FREE_INODE > c.INODE_TABLE_SIZE) := by omega
    unfold dir_reset_entry
    rw [if_neg h1, slotAt_natCast, hpn]
    simp only [hpnk, reduceCtorEq, if_false, ne_eq, not_true_eq_false]
    rw [if_neg h2]
    simp only [slotAt, hfree, if_true]

/-- Witness of C7 on `tinyTable`: `dir_reset_entry(0, -1)`. -/
theorem dir_reset_entry_free_inode_out_of_bounds_witness :
    tinyTable.length = tinyConsts.INODE_TABLE_SIZE ∧ tinyConsts.FREE_INODE < 0 ∧
    kindAt tinyTable 0 = some type.T_DIRECTORY ∧
    dir_reset_entry tinyConsts ((0 : Nat) : Int) tinyConsts.FREE_INODE tinyTable
      = .error .outOfBounds :=
  ⟨by decide, by decide, by decide,
    dir_reset_entry_free_inode_out_of_bounds tinyConsts 0 tinyTable (by decide) (by decide)
      (by decide)⟩

/-! ## Failure leaves the table alone -/

theorem inode_create_loop_fail_unchanged (c : Consts) (junk : Nat → Name) (nType : type)
    (hfail : c.FAIL < 0) :
    ∀ (n i : Nat) (tbl tbl' : Table),
      inode_create_loop c junk nType n i tbl = .ok (c.FAIL, tbl') → tbl' = tbl := by
  intro n
  induction n with
  | zero =>
    intro i tbl tbl' h
    simp only [inode_create_loop, Except.ok.injEq, Prod.mk.injEq, true_and] at h
    exact h.symm
  | succ n ih =>
    intro i tbl tbl' h
    unfold inode_create_loop at h
    cases hnd : tbl[i]? with
    | none => simp [hnd] at h
    | some nd =>
      simp only [hnd] at h
      cases hl : nd.rwl with
      | uninit => simp [hl, pthread_rwlock_trywrlock] at h
      | rdlocked k =>
        simp only [hl, pthread_rwlock_trywrlock] at h
        exact ih (i + 1) tbl tbl' h
      | wrlocked =>
        simp only [hl, pthread_rwlock_trywrlock] at h
        exact ih (i + 1) tbl tbl' h
      | unlocked =>
        simp only [hl, pthread_rwlock_trywrlock] at h
        by_cases hk : nd.nodeType = type.T_NONE
        · simp only [hk, if_true, Except.ok.injEq, Prod.mk.injEq] at h
          omega
        · have hu := unlock_after_trywrlock tbl i nd hnd hl
          simp only [hl] at hu
          simp only [hk, if_false, hu] at h
          exact ih (i + 1) tbl tbl' h

theorem inode_delete_fail_unchanged (c : Consts) (hsf : c.SUCCESS ≠ c.FAIL) (inumber : Int)
    (tbl tbl' : Table) (h : inode_delete c inumber tbl = .ok (c.FAIL, tbl')) : tbl' = tbl := by
  unfold inode_delete at h
  repeat' split at h
  all_goals simp only [Except.ok.injEq, Prod.mk.injEq, true_and, reduceCtorEq] at h
  all_goals first | exact h.symm | exact absurd h.1 hsf

theorem inode_get_fail_unchanged (c : Consts) (hsf : c.SUCCESS ≠ c.FAIL) (inumber : Int)
    (nType : Option type) (data : Option Data) (tbl tbl' : Table) (t : Option type)
    (d : Option Data) (h : inode_get c inumber nType data tbl = .ok (c.FAIL, tbl', t, d)) :
    tbl' = tbl := by
  unfold inode_get at h
  repeat' split at h
  all_goals simp only [Except.ok.injEq, Prod.mk.injEq, true_and, reduceCtorEq] at h
  all_goals first | exact h.1.symm | exact absurd h.1 hsf

theorem dir_add_entry_fail_unchanged (c : Consts) (hsf : c.SUCCESS ≠ c.FAIL)
    (p ch : Int) (name : Name) (tbl tbl' : Table)
    (h : dir_add_entry c p ch name tbl = .ok (c.FAIL, tbl')) : tbl' = tbl := by
  unfold dir_add_entry at h
  repeat' split at h
  all_goals simp only [Except.ok.injEq, Prod.mk.injEq, true_and, reduceCtorEq] at h
  all_goals first | exact h.symm | exact absurd h.1 hsf

theorem dir_reset_entry_fail_unchanged (c : Consts) (hsf : c.SUCCESS ≠ c.FAIL)
    (p ch : Int) (tbl tbl' : Table)
    (h : dir_reset_entry c p ch tbl = .ok (c.FAIL, tbl')) : tbl' = tbl := by
  unfold dir_reset_entry at h
  repeat' split at h
  all_goals simp only [Except.ok.injEq, Prod.mk.injEq, true_and, reduceCtorEq] at h
  all_goals first | exact h.symm | exact absurd h.1 hsf

/-- C8: whenever `inode_create`, `inode_delete`, `inode_get`, `dir_add_entry`
or `dir_reset_entry` returns `FAIL`, the table it leaves (tags, entry blocks
and lock states of all slots) is the table it was called on.  (`FAIL` is
negative and differs from `SUCCESS`.) -/
theorem fail_leaves_table_unchanged (c : Consts) (hfail : c.FAIL < 0)
    (hsf : c.SUCCESS ≠ c.FAIL) :
    (∀ (junk : Nat → Name) (nType : type) (tbl tbl' : Table),
      inode_create c junk nType tbl = .ok (c.FAIL, tbl') → tbl' = tbl) ∧
    (∀ (inumber : Int) (tbl tbl' : Table),
      inode_delete c inumber tbl = .ok (c.FAIL, tbl') → tbl' = tbl) ∧
    (∀ (inumber : Int) (nType : Option type) (data : Option Data) (tbl tbl' : Table)
        (t : Option type) (d : Option Data),
      inode_get c inumber nType data tbl = .ok (c.FAIL, tbl', t, d) → tbl' = tbl) ∧
    (∀ (p ch : Int) (name : Name) (tbl tbl' : Table),
      dir_add_entry c p ch name tbl = .ok (c.FAIL, tbl') → tbl' = tbl) ∧
    (∀ (p ch : Int) (tbl tbl' : Table),
      dir_reset_entry c p ch tbl = .ok (c.FAIL, tbl') → tbl' = tbl) :=
  ⟨fun junk nType tbl tbl' h =>
      inode_create_loop_fail_unchanged c junk nType hfail c.INODE_TABLE_SIZE 0 tbl tbl' h,
    inode_delete_fail_unchanged c hsf,
    inode_get_fail_unchanged c hsf,
    dir_add_entry_fail_unchanged c hsf,
    dir_reset_entry_fail_unchanged c hsf⟩

/-- Witness of C8 for the constants `tinyConsts`. -/
theorem fail_leaves_table_unchanged_witness :
    tinyConsts.FAIL < 0 ∧ tinyConsts.SUCCESS ≠ tinyConsts.FAIL ∧
    ((∀ (junk : Nat → Name) (nType : type) (tbl tbl' : Table),
      inode_create tinyConsts junk nType tbl = .ok (tinyConsts.FAIL, tbl') → tbl' = tbl) ∧
    (∀ (inumber : Int) (tbl tbl' : Table),
      inode_delete tinyConsts inumber tbl = .ok (tinyConsts.FAIL, tbl') → tbl' = tbl) ∧
    (∀ (inumber : Int) (nType : Option type) (data : Option Data) (tbl tbl' : Table)
        (t : Option type) (d : Option Data),
      inode_get tinyConsts inumber nType data tbl = .ok (tinyConsts.FAIL, tbl', t, d) →
        tbl' = tbl) ∧
    (∀ (p ch : Int) (name : Name) (tbl tbl' : Table),
      dir_add_entry tinyConsts p ch name tbl = .ok (tinyConsts.FAIL, tbl') → tbl' = tbl) ∧
    (∀ (p ch : Int) (tbl tbl' : Table),
      dir_reset_entry tinyConsts p ch tbl = .ok (tinyConsts.FAIL, tbl') → tbl' = tbl)) :=
  ⟨by decide, by decide, fail_leaves_table_unchanged tinyConsts (by decide) (by decide)⟩

/-! ## Filling the table -/

theorem inode_table_init_loop_spec :
    ∀ (n i : Nat) (tbl : Table), i + n ≤ tbl.length →
      ∃ t, inode_table_init_loop i n tbl = .ok t ∧ t.length = tbl.length ∧
        (∀ j : Nat, i ≤ j → j < i + n → t[j]? = some emptySlot) ∧
        (∀ j : Nat, j < i → t[j]? = tbl[j]?) := by
  intro n
  induction n with
  | zero =>
    intro i tbl _
    exact ⟨tbl, rfl, rfl, fun j h1 h2 => by omega, fun j _ => rfl⟩
  | succ n ih =>
    intro i tbl h
    have hil : i < tbl.length := by omega
    obtain ⟨t, ht, hlen, hin, hout⟩ := ih (i + 1) (tbl.set i emptySlot)
      (by rw [List.length_set]; omega)
    refine ⟨t, ?_, by rw [hlen, List.length_set], ?_, ?_⟩
    · conv => lhs; unfold inode_table_init_loop
      rw [if_pos hil, ht]
    · intro j h1 h2
      by_cases hj : j = i
      · subst hj
        rw [hout j (by omega)]
        exact List.getElem?_set_self hil
      · exact hin j (by omega) (by omega)
    · intro j hj
      rw [hout j (by omega)]
      exact List.getElem?_set_ne (by omega)

/-- After `inode_table_init` every slot is free and no lock is held. -/
theorem inode_table_init_occupancy (c : Consts) (tbl0 : Table)
    (hlen : tbl0.length = c.INODE_TABLE_SIZE) :
    ∃ t0, inode_table_init c tbl0 = .ok t0 ∧ Occupancy c (fun _ => True) t0 := by
  obtain ⟨t, ht, hl, hin, _⟩ := inode_table_init_loop_spec c.INODE_TABLE_SIZE 0 tbl0 (by omega)
  have hall : ∀ (j : Nat) (nd : inode), t[j]? = some nd → nd = emptySlot := by
    intro j nd hj
    have hjl : j < t.length := lt_length_of_getElem? hj
    rw [hin j (Nat.zero_le j) (by omega)] at hj
    cases hj
    rfl
  refine ⟨t, ht, by omega, ?_, ?_⟩
  · intro nd hnd
    obtain ⟨j, hj⟩ := List.mem_iff_getElem?.mp hnd
    rw [hall j nd hj]
    rfl
  · intro j nd hj
    rw [hall j nd hj]
    exact ⟨fun _ => rfl, fun h => absurd trivial h⟩

theorem Occupancy.congr (c : Consts) (free free' : Nat → Prop) (t : Table)
    (h : ∀ j, j < c.INODE_TABLE_SIZE → (free j ↔ free' j)) (ho : Occupancy c free t) :
    Occupancy c free' t := by
  obtain ⟨hl, hu, hs⟩ := ho
  refine ⟨hl, hu, ?_⟩
  intro j nd hj
  have hjl : j < t.length := lt_length_of_getElem? hj
  have hiff := h j (by omega)
  obtain ⟨h1, h2⟩ := hs j nd hj
  exact ⟨fun hf => h1 (hiff.mpr hf), fun hf => h2 (fun hf' => hf (hiff.mp hf'))⟩

/-- One `create_release` on a table without held locks claims the least free
slot, returns its index and leaves the lock released. -/
theorem create_release_step (c : Consts) (junk : Nat → Name) (nType : type)
    (free : Nat → Prop) (t : Table) (k : Nat) (hfail : c.FAIL < 0)
    (ho : Occupancy c free t) (hk : k < c.INODE_TABLE_SIZE) (hfree : free k)
    (hmin : ∀ j, j < k → ¬ free j) (hnT : nType ≠ type.T_NONE) :
    ∃ t', create_release c junk nType t = .ok ((k : Int), t') ∧
      Occupancy c (fun j => free j ∧ j ≠ k) t' := by
  obtain ⟨hl, hu, hs⟩ := ho
  have hkl : k < t.length := by omega
  have hget : t[k]? = some t[k] := List.getElem?_eq_getElem hkl
  have hrun := inode_create_loop_found c junk nType t k t[k] hget
    (hu _ (List.getElem_mem hkl)) ((hs k _ hget).1 hfree) c.INODE_TABLE_SIZE 0
    (Nat.zero_le k) (by omega)
    (by
      intro j _ hj
      have hjl : j < t.length := by omega
      exact ⟨t[j], List.getElem?_eq_getElem hjl, hu _ (List.getElem_mem hjl),
        ((hs j _ (List.getElem?_eq_getElem hjl)).2 (hmin j hj)).1⟩)
  have hne : ¬ ((k : Int) = c.FAIL) := by omega
  have hunl : unlock (k : Int) (t.set k (claimedSlot c junk nType .wrlocked)) =
      .ok (t.set k (claimedSlot c junk nType .unlocked)) := by
    unfold unlock
    rw [slotAt_natCast]
    simp only [List.getElem?_set_self hkl, pthread_rwlock_unlock, claimedSlot, Int.toNat_ofNat,
      List.set_set]
  refine ⟨t.set k (claimedSlot c junk nType .unlocked), ?_, ?_, ?_, ?_⟩
  · unfold create_release inode_create
    rw [hrun]
    simp only [hne, if_false, hunl]
  · rw [List.length_set]
    exact hl
  · intro nd hnd
    rcases List.mem_or_eq_of_mem_set hnd with h | h
    · exact hu nd h
    · rw [h]
      rfl
  · intro j nd hj
    by_cases hjk : j = k
    · subst hjk
      rw [List.getElem?_set_self hkl] at hj
      cases hj
      refine ⟨fun h => absurd rfl h.2, fun _ => ⟨hnT, ?_⟩⟩
      unfold claimedSlot
      by_cases hd : nType = type.T_DIRECTORY
      · simp [hd]
      · simp [hd]
    · rw [List.getElem?_set_ne (Ne.symm hjk)] at hj
      obtain ⟨h1, h2⟩ := hs j nd hj
      exact ⟨fun h => h1 h.1, fun h => h2 (fun hf => h ⟨hf, hjk⟩)⟩

/-- On a table with no free slot and no held lock `inode_create` fails. -/
theorem inode_create_full (c : Consts) (junk : Nat → Name) (nType : type) (t : Table)
    (ho : Occupancy c (fun _ => False) t) :
    inode_create c junk nType t = .ok (c.FAIL, t) := by
  obtain ⟨hl, hu, hs⟩ := ho
  apply inode_create_loop_full
  intro j _ hj
  have hjl : j < t.length := by omega
  exact ⟨t[j], List.getElem?_eq_getElem hjl, hu _ (List.getElem_mem hjl),
    ((hs j _ (List.getElem?_eq_getElem hjl)).2 (fun h => h)).1⟩

/-- Consecutive `create_release` calls on a table whose free slots are those
from `k` on return `k, k+1, ...`. -/
theorem create_many_consecutive (c : Consts) (hfail : c.FAIL < 0) :
    ∀ (kinds : List (type × (Nat → Name))) (k : Nat) (t : Table),
      Occupancy c (fun j => k ≤ j) t → k + kinds.length ≤ c.INODE_TABLE_SIZE →
      (∀ x ∈ kinds, x.1 ≠ type.T_NONE) →
      ∃ t', create_many c kinds t =
          .ok ((List.range' k kinds.length).map (fun i : Nat => (i : Int)), t') ∧
        Occupancy c (fun j => k + kinds.length ≤ j) t' := by
  intro kinds
  induction kinds with
  | nil =>
    intro k t ho _ _
    exact ⟨t, rfl, ho⟩
  | cons x rest ih =>
    intro k t ho hk hkinds
    obtain ⟨nType, junk⟩ := x
    simp only [List.length_cons] at hk
    obtain ⟨t1, hstep, ho1⟩ := create_release_step c junk nType (fun j => k ≤ j) t k hfail ho
      (by omega) (Nat.le_refl k) (fun j hj => by omega)
      (hkinds (nType, junk) (List.mem_cons_self _ _))
    have ho1' : Occupancy c (fun j => k + 1 ≤ j) t1 :=
      Occupancy.congr c _ _ t1 (fun j _ => by constructor <;> intro h <;> omega) ho1
    obtain ⟨t2, hrest, ho2⟩ := ih (k + 1) t1 ho1' (by omega)
      (fun y hy => hkinds y (List.mem_cons_of_mem _ hy))
    refine ⟨t2, ?_, Occupancy.congr c _ _ t2
      (fun j _ => by simp only [List.length_cons]; constructor <;> intro h <;> omega) ho2⟩
    unfold create_many
    simp only [hstep, hrest, List.length_cons, List.range'_succ, List.map_cons]

/-- Freeing a slot of a full table whose locks are released succeeds and
leaves that slot as the only free one. -/
theorem inode_delete_of_full (c : Consts) (t : Table) (i : Nat)
    (ho : Occupancy c (fun _ => False) t) (hi : i < c.INODE_TABLE_SIZE) :
    ∃ t1, inode_delete c (i : Int) t = .ok (c.SUCCESS, t1) ∧
      Occupancy c (fun j => j = i) t1 := by
  obtain ⟨hl, hu, hs⟩ := ho
  have hil : i < t.length := by omega
  obtain ⟨nd, hnd⟩ : ∃ nd, t[i]? = some nd := ⟨t[i], List.getElem?_eq_getElem hil⟩
  obtain ⟨hk, hd⟩ := (hs i nd hnd).2 (fun h => h)
  have h1 : ¬ ((i : Int) < 0 ∨ (i : Int) > c.INODE_TABLE_SIZE) := by omega
  obtain ⟨d, hrel⟩ : ∃ d, nd.data.release = .ok d := by
    cases hdd : nd.data with
    | null => exact ⟨_, rfl⟩
    | block es => exact ⟨_, rfl⟩
    | freed => exact absurd hdd hd
  refine ⟨t.set i { nd with nodeType := type.T_NONE, data := d }, ?_, ?_, ?_, ?_⟩
  · unfold inode_delete
    rw [if_neg h1, slotAt_natCast, hnd]
    simp only [hk, if_false, hrel, Int.toNat_ofNat]
  · rw [List.length_set]
    exact hl
  · intro x hx
    rcases List.mem_or_eq_of_mem_set hx with h | h
    · exact hu x h
    · rw [h]
      exact hu nd (List.getElem?_mem hnd)
  · intro j x hj
    by_cases hji : j = i
    · subst hji
      rw [List.getElem?_set_self hil] at hj
      cases hj
      exact ⟨fun _ => rfl, fun h => absurd rfl h⟩
    · rw [List.getElem?_set_ne (Ne.symm hji)] at hj
      exact ⟨fun h => absurd h hji, fun _ => (hs j x hj).2 (fun h => h)⟩

/-- C9: from the table written by `inode_table_init`, `INODE_TABLE_SIZE`
consecutive `inode_create` calls of kind file or directory, each followed by
the caller's `unlock` of the slot returned, return `0, 1, ...,
INODE_TABLE_SIZE - 1`; one more `inode_create` returns `FAIL`; and after
`inode_delete(i)`, which succeeds for every `i` below `INODE_TABLE_SIZE`, the
next `inode_create` returns `i` and the one after it returns `FAIL`. -/
theorem table_exhaustion (c : Consts) (tbl0 : Table) (kinds : List (type × (Nat → Name)))
    (hlen0 : tbl0.length = c.INODE_TABLE_SIZE) (hfail : c.FAIL < 0)
    (hk : kinds.length = c.INODE_TABLE_SIZE)
    (hkinds : ∀ x ∈ kinds, x.1 = type.T_FILE ∨ x.1 = type.T_DIRECTORY) :
    ∃ t0 full, inode_table_init c tbl0 = .ok t0 ∧
      create_many c kinds t0 =
        .ok ((List.range c.INODE_TABLE_SIZE).map (fun i : Nat => (i : Int)), full) ∧
      (∀ (nType : type) (junk : Nat → Name), nType = type.T_FILE ∨ nType = type.T_DIRECTORY →
        inode_create c junk nType full = .ok (c.FAIL, full)) ∧
      (∀ i : Nat, i < c.INODE_TABLE_SIZE →
        ∃ t1, inode_delete c (i : Int) full = .ok (c.SUCCESS, t1) ∧
          ∀ (nType : type) (junk : Nat → Name),
            nType = type.T_FILE ∨ nType = type.T_DIRECTORY →
            ∃ t2, create_release c junk nType t1 = .ok ((i : Int), t2) ∧
              ∀ (nType' : type) (junk' : Nat → Name),
                nType' = type.T_FILE ∨ nType' = type.T_DIRECTORY →
                inode_create c junk' nType' t2 = .ok (c.FAIL, t2)) := by
  have hnone : ∀ nType : type, nType = type.T_FILE ∨ nType = type.T_DIRECTORY →
      nType ≠ type.T_NONE := by
    intro nType h
    rcases h with h | h <;> rw [h] <;> decide
  obtain ⟨t0, hinit, ho0⟩ := inode_table_init_occupancy c tbl0 hlen0
  have ho0' : Occupancy c (fun j => 0 ≤ j) t0 :=
    Occupancy.congr c _ _ t0 (fun j _ => by simp) ho0
  obtain ⟨full, hmany, hofull⟩ := create_many_consecutive c hfail kinds 0 t0 ho0' (by omega)
    (fun x hx => hnone x.1 (hkinds x hx))
  have hfull : Occupancy c (fun _ => False) full :=
    Occupancy.congr c _ _ full
      (fun j hj => ⟨fun h => by have h2 : 0 + kinds.length ≤ j := h; omega, fun h => h.elim⟩)
      hofull
  refine ⟨t0, full, hinit, ?_, ?_, ?_⟩
  · rw [hmany, hk, List.range_eq_range']
  · intro nType junk _
    exact inode_create_full c junk nType full hfull
  · intro i hi
    obtain ⟨t1, hdel, ho1⟩ := inode_delete_of_full c full i hfull hi
    refine ⟨t1, hdel, ?_⟩
    intro nType junk hT
    obtain ⟨t2, hcr, ho2⟩ := create_release_step c junk nType (fun j => j = i) t1 i hfail ho1
      hi rfl (fun j hj => by omega) (hnone nType hT)
    refine ⟨t2, hcr, ?_⟩
    intro nType' junk' _
    exact inode_create_full c junk' nType' t2
      (Occupancy.congr c _ _ t2 (fun j _ => by constructor <;> intro h <;> simp_all) ho2)

/-- Witness of C9 for `tinyConsts`: three creations fill the three slots. -/
theorem table_exhaustion_witness :
    bootTable.length = tinyConsts.INODE_TABLE_SIZE ∧ tinyConsts.FAIL < 0 ∧
    tinyKinds.length = tinyConsts.INODE_TABLE_SIZE ∧
    (∀ x ∈ tinyKinds, x.1 = type.T_FILE ∨ x.1 = type.T_DIRECTORY) ∧
    ∃ t0 full, inode_table_init tinyConsts bootTable = .ok t0 ∧
      create_many tinyConsts tinyKinds t0 =
        .ok ((List.range tinyConsts.INODE_TABLE_SIZE).map (fun i : Nat => (i : Int)), full) ∧
      (∀ (nType : type) (junk : Nat → Name), nType = type.T_FILE ∨ nType = type.T_DIRECTORY →
        inode_create tinyConsts junk nType full = .ok (tinyConsts.FAIL, full)) ∧
      (∀ i : Nat, i < tinyConsts.INODE_TABLE_SIZE →
        ∃ t1, inode_delete tinyConsts (i : Int) full = .ok (tinyConsts.SUCCESS, t1) ∧
          ∀ (nType : type) (junk : Nat → Name),
            nType = type.T_FILE ∨ nType = type.T_DIRECTORY →
            ∃ t2, create_release tinyConsts junk nType t1 = .ok ((i : Int), t2) ∧
              ∀ (nType' : type) (junk' : Nat → Name),
                nType' = type.T_FILE ∨ nType' = type.T_DIRECTORY →
                inode_create tinyConsts junk' nType' t2 = .ok (tinyConsts.FAIL, t2)) :=
  ⟨by decide, by decide, by decide, by decide,
    table_exhaustion tinyConsts bootTable tinyKinds (by decide) (by decide) (by decide)
      (by decide)⟩

/-! ## Releasing a list of locks -/

/-- Every run of the loop of `unlockAll` that returns has called `unlock` on
`inumbers[i-1], ..., inumbers[0]`, in this order. -/
theorem unlockAll_loop_calls (inumbers : List Int) :
    ∀ (i : Nat) (tbl : Table) (done : List Int) (tbl' : Table) (calls : List Int),
      unlockAll_loop inumbers i tbl done = .ok (tbl', calls) →
      calls = done ++ (inumbers.take i).reverse ∧ i ≤ inumbers.length := by
  intro i
  induction i with
  | zero =>
    intro tbl done tbl' calls h
    simp only [unlockAll_loop, Except.ok.injEq, Prod.mk.injEq] at h
    simp [h.2]
  | succ i ih =>
    intro tbl done tbl' calls h
    unfold unlockAll_loop at h
    cases hx : inumbers[i]? with
    | none => simp [hx] at h
    | some x =>
      simp only [hx] at h
      cases hu : unlock x tbl with
      | error e => simp [hu] at h
      | ok tbl1 =>
        simp only [hu] at h
        obtain ⟨hc, _⟩ := ih tbl1 (done ++ [x]) tbl' calls h
        have hil : i < inumbers.length := lt_length_of_getElem? hx
        refine ⟨?_, by omega⟩
        rw [hc, List.take_succ, hx]
        simp

/-- The loop of `unlockAll` returns when the slots named by the first `i`
array elements are distinct, in range, and hold a lock that can be released. -/
theorem unlockAll_loop_returns (inumbers : List Int) :
    ∀ (i : Nat) (tbl : Table) (done : List Int), i ≤ inumbers.length →
      (inumbers.take i).Nodup →
      (∀ x ∈ inumbers.take i, ∃ nd, slotAt tbl x = .ok nd ∧
        (pthread_rwlock_unlock nd.rwl).1 = LockRet.ok) →
      ∃ tbl', unlockAll_loop inumbers i tbl done =
        .ok (tbl', done ++ (inumbers.take i).reverse) := by
  intro i
  induction i with
  | zero =>
    intro tbl done _ _ _
    exact ⟨tbl, by simp [unlockAll_loop]⟩
  | succ i ih =>
    intro tbl done hi hnd hheld
    have hil : i < inumbers.length := by omega
    have hx : inumbers[i]? = some inumbers[i] := List.getElem?_eq_getElem hil
    have htake : inumbers.take (i + 1) = inumbers.take i ++ [inumbers[i]] := by
      rw [List.take_succ, hx]
      rfl
    rw [htake] at hnd hheld
    obtain ⟨hnd1, _, hdisj⟩ := List.nodup_append.mp hnd
    obtain ⟨nd, hslot, hok⟩ :=
      hheld inumbers[i] (List.mem_append_right _ (List.mem_singleton_self _))
    obtain ⟨hx0, hxget⟩ := slotAt_ok_inv hslot
    obtain ⟨l, hl⟩ : ∃ l, pthread_rwlock_unlock nd.rwl = (LockRet.ok, l) :=
      ⟨(pthread_rwlock_unlock nd.rwl).2, by rw [← hok]⟩
    have hu : unlock inumbers[i] tbl =
        .ok (tbl.set inumbers[i].toNat { nd with rwl := l }) := by
      unfold unlock
      simp only [hslot, hl]
    obtain ⟨tbl', hrest⟩ := ih (tbl.set inumbers[i].toNat { nd with rwl := l })
      (done ++ [inumbers[i]]) (by omega) hnd1
      (by
        intro y hy
        obtain ⟨ndy, hyslot, hyok⟩ := hheld y (List.mem_append_left _ hy)
        obtain ⟨hy0, hyget⟩ := slotAt_ok_inv hyslot
        have hne : y ≠ inumbers[i] := by
          intro h
          exact hdisj hy (List.mem_singleton.mpr h)
        have hne2 : inumbers[i].toNat ≠ y.toNat := by omega
        refine ⟨ndy, ?_, hyok⟩
        unfold slotAt
        rw [if_neg (by omega), List.getElem?_set_ne hne2, hyget])
    refine ⟨tbl', ?_⟩
    conv => lhs; unfold unlockAll_loop
    simp only [hx, hu, hrest, htake, List.reverse_append, List.reverse_cons, List.reverse_nil,
      List.nil_append, List.append_assoc, List.singleton_append]

/-- The table a run of the loop of `unlockAll` leaves is the one obtained by
performing its `unlock` calls one after the other. -/
theorem unlockAll_loop_table (inumbers : List Int) :
    ∀ (i : Nat) (tbl : Table) (done : List Int) (tbl' : Table) (calls : List Int),
      unlockAll_loop inumbers i tbl done = .ok (tbl', calls) →
      unlockSeq (inumbers.take i).reverse tbl = .ok tbl' := by
  intro i
  induction i with
  | zero =>
    intro tbl done tbl' calls h
    simp only [unlockAll_loop, Except.ok.injEq, Prod.mk.injEq] at h
    simp [unlockSeq, h.1]
  | succ i ih =>
    intro tbl done tbl' calls h
    unfold unlockAll_loop at h
    cases hx : inumbers[i]? with
    | none => simp [hx] at h
    | some x =>
      simp only [hx] at h
      cases hu : unlock x tbl with
      | error e => simp [hu] at h
      | ok tbl1 =>
        simp only [hu] at h
        have hrest := ih tbl1 (done ++ [x]) tbl' calls h
        rw [List.take_succ, hx]
        simp only [Option.toList, List.reverse_append, List.reverse_cons, List.reverse_nil,
          List.nil_append, List.singleton_append, unlockSeq, hu]
        exact hrest

/-- The loop of `unlockAll` on distinct held slots: it returns, every named
slot has had one hold released, every other slot is untouched. -/
theorem unlockAll_loop_effect (inumbers : List Int) :
    ∀ (i : Nat) (tbl : Table) (done : List Int), i ≤ inumbers.length →
      (inumbers.take i).Nodup →
      (∀ x ∈ inumbers.take i, ∃ nd, slotAt tbl x = .ok nd ∧
        (pthread_rwlock_unlock nd.rwl).1 = LockRet.ok) →
      ∃ tbl', unlockAll_loop inumbers i tbl done =
          .ok (tbl', done ++ (inumbers.take i).reverse) ∧
        (∀ x ∈ inumbers.take i, ∀ nd, slotAt tbl x = .ok nd →
          slotAt tbl' x = .ok { nd with rwl := (pthread_rwlock_unlock nd.rwl).2 }) ∧
        (∀ j : Nat, (∀ x ∈ inumbers.take i, x.toNat ≠ j) → tbl'[j]? = tbl[j]?) := by
  intro i
  induction i with
  | zero =>
    intro tbl done _ _ _
    refine ⟨tbl, by simp [unlockAll_loop], ?_, fun _ _ => rfl⟩
    intro x hx
    simp at hx
  | succ i ih =>
    intro tbl done hi hnd hheld
    have hil : i < inumbers.length := by omega
    have hx : inumbers[i]? = some inumbers[i] := List.getElem?_eq_getElem hil
    have htake : inumbers.take (i + 1) = inumbers.take i ++ [inumbers[i]] := by
      rw [List.take_succ, hx]
      rfl
    rw [htake] at hnd hheld
    obtain ⟨hnd1, _, hdisj⟩ := List.nodup_append.mp hnd
    obtain ⟨nd, hslot, hok⟩ :=
      hheld inumbers[i] (List.mem_append_right _ (List.mem_singleton_self _))
    obtain ⟨hx0, hxget⟩ := slotAt_ok_inv hslot
    have hxl : inumbers[i].toNat < tbl.length := lt_length_of_getElem? hxget
    have hl : pthread_rwlock_unlock nd.rwl =
        (LockRet.ok, (pthread_rwlock_unlock nd.rwl).2) := by
      rw [← hok]
    have hu : unlock inumbers[i] tbl =
        .ok (tbl.set inumbers[i].toNat
          { nd with rwl := (pthread_rwlock_unlock nd.rwl).2 }) := by
      unfold unlock
      simp only [hslot]
      rw [hl]
    have hother : ∀ y ∈ inumbers.take i, 0 ≤ y ∧ inumbers[i].toNat ≠ y.toNat := by
      intro y hy
      obtain ⟨ndy, hyslot, _⟩ := hheld y (List.mem_append_left _ hy)
      obtain ⟨hy0, _⟩ := slotAt_ok_inv hyslot
      have hne : y ≠ inumbers[i] := fun h => hdisj hy (List.mem_singleton.mpr h)
      exact ⟨hy0, by omega⟩
    have hkeep : ∀ y ∈ inumbers.take i, ∀ ndy, slotAt tbl y = .ok ndy →
        slotAt (tbl.set inumbers[i].toNat
          { nd with rwl := (pthread_rwlock_unlock nd.rwl).2 }) y = .ok ndy := by
      intro y hy ndy hyslot
      obtain ⟨hy0, hyget⟩ := slotAt_ok_inv hyslot
      unfold slotAt
      rw [if_neg (by omega), List.getElem?_set_ne (hother y hy).2, hyget]
    obtain ⟨tbl', hrest, heff, hframe⟩ := ih
      (tbl.set inumbers[i].toNat { nd with rwl := (pthread_rwlock_unlock nd.rwl).2 })
      (done ++ [inumbers[i]]) (by omega) hnd1
      (by
        intro y hy
        obtain ⟨ndy, hyslot, hyok⟩ := hheld y (List.mem_append_left _ hy)
        exact ⟨ndy, hkeep y hy ndy hyslot, hyok⟩)
    refine ⟨tbl', ?_, ?_, ?_⟩
    · conv => lhs; unfold unlockAll_loop
      simp only [hx, hu, hrest, htake, List.reverse_append, List.reverse_cons,
        List.reverse_nil, List.nil_append, List.append_assoc, List.singleton_append]
    · intro y hy ndy hyslot
      rw [htake] at hy
      rcases List.mem_append.mp hy with hy1 | hy1
      · exact heff y hy1 ndy (hkeep y hy1 ndy hyslot)
      · have hyx : y = inumbers[i] := List.mem_singleton.mp hy1
        subst hyx
        rw [hslot] at hyslot
        cases hyslot
        have hfr := hframe inumbers[i].toNat (fun z hz => Ne.symm (hother z hz).2)
        rw [List.getElem?_set_self hxl] at hfr
        unfold slotAt
        rw [if_neg (by omega), hfr]
    · intro j hj
      rw [htake] at hj
      rw [hframe j (fun z hz => hj z (List.mem_append_left _ hz))]
      exact List.getElem?_set_ne
        (hj inumbers[i] (List.mem_append_right _ (List.mem_singleton_self _)))

/-- C10, as stated, fails at the least `int`: there `size-1` overflows, so
`unlockAll(inumbers, INT_MIN)` is not a run that returns having made no
call. -/
theorem unlockAll_int_min_overflows :
    unlockAll [0, 2] (-2147483648) tinyLocked = .error .signedOverflow ∧
    ¬ ∃ (tbl' : Table) (calls : List Int),
      unlockAll [0, 2] (-2147483648) tinyLocked = .ok (tbl', calls) := by
  have h2 : unlockAll [0, 2] (-2147483648) tinyLocked = .error .signedOverflow := by decide
  refine ⟨h2, ?_⟩
  rintro ⟨tbl', calls, h⟩
  rw [h2] at h
  cases h

/-- C10, amended: for every array and every `size` above the least `int`,
`unlockAll(inumbers, size)` makes no `unlock` call when `size <= 0`; whenever
it returns it has made exactly `size` calls, on `inumbers[size-1]`,
`inumbers[size-2]`, ..., `inumbers[0]` in this order, and the table it leaves
is the one these `unlock` calls produce one after the other; and it does
return when the first `size` elements of the array name distinct slots of the
table, each holding a lock that `unlock` can release: then every named slot
has had one hold released and every other slot is untouched. -/
theorem unlockAll_reverse_order (inumbers : List Int) (size : Int) (tbl : Table)
    (hsize : INT_MIN < size) :
    (size ≤ 0 → unlockAll inumbers size tbl = .ok (tbl, [])) ∧
    (∀ (tbl' : Table) (calls : List Int), unlockAll inumbers size tbl = .ok (tbl', calls) →
      calls = (inumbers.take size.toNat).reverse ∧ calls.length = size.toNat ∧
      unlockSeq calls tbl = .ok tbl') ∧
    (size.toNat ≤ inumbers.length → (inumbers.take size.toNat).Nodup →
      (∀ x ∈ inumbers.take size.toNat, ∃ nd, slotAt tbl x = .ok nd ∧
        (pthread_rwlock_unlock nd.rwl).1 = LockRet.ok) →
      ∃ tbl', unlockAll inumbers size tbl = .ok (tbl', (inumbers.take size.toNat).reverse) ∧
        (∀ x ∈ inumbers.take size.toNat, ∀ nd, slotAt tbl x = .ok nd →
          slotAt tbl' x = .ok { nd with rwl := (pthread_rwlock_unlock nd.rwl).2 }) ∧
        (∀ j : Nat, (∀ x ∈ inumbers.take size.toNat, x.toNat ≠ j) →
          tbl'[j]? = tbl[j]?)) := by
  have hno : ¬ (size - 1 < INT_MIN) := by omega
  have hdef : unlockAll inumbers size tbl = unlockAll_loop inumbers size.toNat tbl [] := by
    unfold unlockAll
    rw [if_neg hno]
  rw [hdef]
  refine ⟨?_, ?_, ?_⟩
  · intro h
    have h0 : size.toNat = 0 := by omega
    simp [h0, unlockAll_loop]
  · intro tbl' calls h
    obtain ⟨hc, hle⟩ := unlockAll_loop_calls inumbers size.toNat tbl [] tbl' calls h
    rw [List.nil_append] at hc
    refine ⟨hc, ?_, ?_⟩
    · rw [hc, List.length_reverse, List.length_take_of_le hle]
    · rw [hc]
      exact unlockAll_loop_table inumbers size.toNat tbl [] tbl' calls h
  · intro hle hnd hheld
    obtain ⟨tbl', h, heff, hframe⟩ :=
      unlockAll_loop_effect inumbers size.toNat tbl [] hle hnd hheld
    rw [List.nil_append] at h
    exact ⟨tbl', h, heff, hframe⟩

/-- Witness of the amended C10 on `tinyLocked`: the locks of slots 0 and 2,
taken in this order, are released as 2 then 0, which leaves `tinyTable`. -/
theorem unlockAll_reverse_order_witness :
    INT_MIN < 2 ∧
    unlockAll [0, 2] 2 tinyLocked = .ok (tinyTable, [2, 0]) ∧
    ([2, 0] = (([0, 2] : List Int).take (2 : Int).toNat).reverse ∧
      ([2, 0] : List Int).length = (2 : Int).toNat ∧
      unlockSeq [2, 0] tinyLocked = .ok tinyTable) :=
  ⟨by decide, by decide,
    (unlockAll_reverse_order [0, 2] 2 tinyLocked (by decide)).2.1 tinyTable [2, 0]
      (by decide)⟩

/-! ## Printing the tree -/

/-- The entry loop of the printer gives the same result when the recursive
calls are replaced by calls that finish wherever the former did. -/
theorem print_entries_mono (c : Consts)
    (r1 r2 : Int → Name → Option (Except Fault (List Name))) (name : Name)
    (es : List DirEntry)
    (h : ∀ (i : Int) (n : Name) (res : Except Fault (List Name)),
      r1 i n = some res → r2 i n = some res) :
    ∀ (n i : Nat) (res : Except Fault (List Name)),
      print_entries c r1 name es i n = some res →
      print_entries c r2 name es i n = some res := by
  intro n
  induction n with
  | zero =>
    intro i res hr
    simpa [print_entries] using hr
  | succ n ih =>
    intro i res hr
    unfold print_entries at hr ⊢
    cases he : es[i]? with
    | none => simpa [he] using hr
    | some e =>
      simp only [he] at hr ⊢
      by_cases hp : e.inumber ≠ c.FREE_INODE
      · rw [if_pos hp] at hr ⊢
        cases h1 : r1 e.inumber (buildPath c name e.name) with
        | none => simp [h1] at hr
        | some x =>
          rw [h _ _ _ h1]
          simp only [h1] at hr
          cases x with
          | error f => exact hr
          | ok out =>
            simp only at hr ⊢
            cases h2 : print_entries c r1 name es (i + 1) n with
            | none => simp [h2] at hr
            | some y =>
              rw [ih _ _ h2]
              simp only [h2] at hr
              exact hr
      · rw [if_neg hp] at hr ⊢
        exact ih _ _ hr

/-- A printing run that has finished is not changed by more fuel. -/
theorem inode_print_tree_succ (c : Consts) (tbl : Table) :
    ∀ (fuel : Nat) (i : Int) (name : Name) (res : Except Fault (List Name)),
      inode_print_tree c tbl fuel i name = some res →
      inode_print_tree c tbl (fuel + 1) i name = some res := by
  intro fuel
  induction fuel with
  | zero =>
    intro i name res h
    simp [inode_print_tree] at h
  | succ fuel ih =>
    intro i name res h
    rw [inode_print_tree] at h ⊢
    cases hs : slotAt tbl i with
    | error e => simpa [hs] using h
    | ok nd =>
      simp only [hs] at h ⊢
      cases hk : nd.nodeType with
      | T_FILE => simpa [hk] using h
      | T_NONE => simpa [hk] using h
      | T_DIRECTORY =>
        simp only [hk] at h ⊢
        cases hd : nd.data.deref with
        | error e => simpa [hd] using h
        | ok es =>
          simp only [hd] at h ⊢
          cases hp : print_entries c (inode_print_tree c tbl fuel) name es 0
              c.MAX_DIR_ENTRIES with
          | none => simp [hp] at h
          | some y =>
            rw [print_entries_mono c _ _ name es ih _ _ _ hp]
            simp only [hp] at h
            exact h

theorem inode_print_tree_le (c : Consts) (tbl : Table) (fuel fuel' : Nat) (hle : fuel ≤ fuel')
    (i : Int) (name : Name) (res : Except Fault (List Name))
    (h : inode_print_tree c tbl fuel i name = some res) :
    inode_print_tree c tbl fuel' i name = some res := by
  induction hle with
  | refl => exact h
  | step _ ih => exact inode_print_tree_succ c tbl _ i name res ih

/-- The lines written by the entry loop: the outputs of the recursive calls
on the populated entries among the scanned ones, in slot order. -/
theorem print_entries_spec (c : Consts)
    (recur : Int → Name → Option (Except Fault (List Name))) (name : Name)
    (es : List DirEntry) :
    ∀ (n i : Nat) (out : List Name),
      print_entries c recur name es i n = some (.ok out) →
      ∃ outs : List (List Name), out = outs.flatten ∧
        List.Forall₂
          (fun e o => recur e.inumber (buildPath c name e.name) = some (.ok o))
          (((es.drop i).take n).filter (fun e => decide (e.inumber ≠ c.FREE_INODE))) outs := by
  intro n
  induction n with
  | zero =>
    intro i out h
    simp only [print_entries, Option.some.injEq, Except.ok.injEq] at h
    exact ⟨[], by simp [← h], by simp⟩
  | succ n ih =>
    intro i out h
    unfold print_entries at h
    cases he : es[i]? with
    | none => simp [he] at h
    | some e =>
      have hil : i < es.length := lt_length_of_getElem? he
      have hei : es[i] = e := by
        rw [List.getElem?_eq_getElem hil] at he
        exact Option.some.inj he
      have hdrop : (es.drop i).take (n + 1) = e :: (es.drop (i + 1)).take n := by
        rw [List.drop_eq_getElem_cons hil, hei, List.take_succ_cons]
      simp only [he] at h
      by_cases hp : e.inumber ≠ c.FREE_INODE
      · rw [if_pos hp] at h
        cases h1 : recur e.inumber (buildPath c name e.name) with
        | none => simp [h1] at h
        | some x =>
          simp only [h1] at h
          cases x with
          | error f => simp at h
          | ok o =>
            simp only at h
            cases h2 : print_entries c recur name es (i + 1) n with
            | none => simp [h2] at h
            | some y =>
              simp only [h2] at h
              cases y with
              | error f => simp at h
              | ok rest =>
                simp only [Option.some.injEq, Except.ok.injEq] at h
                obtain ⟨outs, hout, hall⟩ := ih (i + 1) rest h2
                refine ⟨o :: outs, by rw [← h, hout, List.flatten_cons], ?_⟩
                rw [hdrop, List.filter_cons_of_pos (by simpa using hp)]
                exact List.Forall₂.cons h1 hall
      · rw [if_neg hp] at h
        obtain ⟨outs, hout, hall⟩ := ih (i + 1) out h
        refine ⟨outs, hout, ?_⟩
        rw [hdrop, List.filter_cons_of_neg (by simpa using hp)]
        exact hall

theorem forall₂_imp_of_mem {α β : Type} {R S : α → β → Prop} {l1 : List α} {l2 : List β}
    (h : List.Forall₂ R l1 l2) (himp : ∀ a b, a ∈ l1 → R a b → S a b) :
    List.Forall₂ S l1 l2 := by
  induction h with
  | nil => exact List.Forall₂.nil
  | cons hab _ ih =>
    exact List.Forall₂.cons (himp _ _ (List.mem_cons_self _ _) hab)
      (ih (fun a b ha hr => himp a b (List.mem_cons_of_mem _ ha) hr))

/-- The lines written for a directory: its own line, then the outputs of the
recursive calls on its populated entries, in slot order. -/
theorem inode_print_tree_directory (c : Consts) (tbl : Table) (fuel : Nat) (i : Int)
    (name : Name) (out : List Name) (nd : inode) (es : List DirEntry)
    (hs : slotAt tbl i = .ok nd) (hk : nd.nodeType = type.T_DIRECTORY)
    (hd : nd.data = Data.block es)
    (h : inode_print_tree c tbl fuel i name = some (.ok out)) :
    ∃ outs : List (List Name), out = name :: outs.flatten ∧
      List.Forall₂
        (fun e o => inode_print_tree c tbl fuel e.inumber (buildPath c name e.name)
          = some (.ok o))
        ((es.take c.MAX_DIR_ENTRIES).filter (fun e => decide (e.inumber ≠ c.FREE_INODE)))
        outs := by
  cases fuel with
  | zero => simp [inode_print_tree] at h
  | succ fuel =>
    rw [inode_print_tree] at h
    simp only [hs, hk, hd, Data.deref] at h
    cases hp : print_entries c (inode_print_tree c tbl fuel) name es 0 c.MAX_DIR_ENTRIES with
    | none => simp [hp] at h
    | some y =>
      simp only [hp] at h
      cases y with
      | error f => simp at h
      | ok rest =>
        simp only [Option.some.injEq, Except.ok.injEq] at h
        obtain ⟨outs, hout, hall⟩ := print_entries_spec c _ name es _ _ rest hp
        rw [List.drop_zero] at hall
        refine ⟨outs, by rw [← h, hout], ?_⟩
        exact forall₂_imp_of_mem hall
          (fun e o _ hr => inode_print_tree_succ c tbl fuel _ _ _ hr)

/-- The entry loop finishes when the recursive calls on the populated entries
do and the block covers the scanned range. -/
theorem print_entries_returns (c : Consts)
    (recur : Int → Name → Option (Except Fault (List Name))) (name : Name)
    (es : List DirEntry)
    (hrec : ∀ e ∈ es, e.inumber ≠ c.FREE_INODE →
      ∀ nm : Name, ∃ o, recur e.inumber nm = some (.ok o)) :
    ∀ (n i : Nat), i + n ≤ es.length →
      ∃ out, print_entries c recur name es i n = some (.ok out) := by
  intro n
  induction n with
  | zero =>
    intro i _
    exact ⟨[], by simp [print_entries]⟩
  | succ n ih =>
    intro i hi
    have hil : i < es.length := by omega
    have he : es[i]? = some es[i] := List.getElem?_eq_getElem hil
    obtain ⟨rest, hrest⟩ := ih (i + 1) (by omega)
    unfold print_entries
    simp only [he]
    by_cases hp : es[i].inumber ≠ c.FREE_INODE
    · obtain ⟨o, ho⟩ := hrec es[i] (List.getElem_mem hil) hp (buildPath c name es[i].name)
      rw [if_pos hp]
      simp only [ho, hrest]
      exact ⟨_, rfl⟩
    · rw [if_neg hp]
      exact ⟨rest, hrest⟩

theorem treeBelow_succ_inv (c : Consts) (tbl : Table) (d : Nat) (i : Int)
    (h : treeBelow c tbl (d + 1) i = true) :
    ∃ nd, slotAt tbl i = .ok nd ∧
      (nd.nodeType = type.T_DIRECTORY →
        ∃ es, nd.data = Data.block es ∧ es.length = c.MAX_DIR_ENTRIES ∧
          ∀ e ∈ es, e.inumber ≠ c.FREE_INODE → treeBelow c tbl d e.inumber = true) := by
  rw [treeBelow] at h
  cases hs : slotAt tbl i with
  | error e => simp [hs] at h
  | ok nd =>
    refine ⟨nd, rfl, ?_⟩
    intro hk
    simp only [hs, hk] at h
    cases hd : nd.data with
    | null => simp [hd] at h
    | freed => simp [hd] at h
    | block es =>
      simp only [hd, Bool.and_eq_true, decide_eq_true_eq, List.all_eq_true, Bool.or_eq_true] at h
      refine ⟨es, rfl, h.1, ?_⟩
      intro e he hne
      rcases h.2 e he with h1 | h1
      · exact absurd h1 hne
      · exact h1

/-- Below well-formed entries of depth at most `d` the printer finishes with fuel
`d`. -/
theorem inode_print_tree_returns (c : Consts) (tbl : Table) :
    ∀ (d : Nat) (i : Int) (name : Name), treeBelow c tbl d i = true →
      ∃ out, inode_print_tree c tbl d i name = some (.ok out) := by
  intro d
  induction d with
  | zero =>
    intro i name h
    simp [treeBelow] at h
  | succ d ih =>
    intro i name h
    obtain ⟨nd, hs, hdir⟩ := treeBelow_succ_inv c tbl d i h
    rw [inode_print_tree]
    simp only [hs]
    cases hk : nd.nodeType with
    | T_FILE => exact ⟨_, rfl⟩
    | T_NONE => exact ⟨_, rfl⟩
    | T_DIRECTORY =>
      obtain ⟨es, hd, hlen, hch⟩ := hdir hk
      obtain ⟨rest, hrest⟩ := print_entries_returns c (inode_print_tree c tbl d) name es
        (fun e he hne nm => ih e.inumber nm (hch e he hne)) c.MAX_DIR_ENTRIES 0 (by omega)
      simp only [hd, Data.deref, hrest]
      exact ⟨_, rfl⟩

/-- C11, as stated, fails: on the scenario table no root path argument makes
`inode_print_tree(fp, 0, name)` write the lines `/`, `/a`, `/d`, `/d/b`.  The
first line is the argument itself, so it would have to be `/`, and then the
second line is `//a`. -/
theorem print_scenario_no_root_argument :
    ¬ ∃ (name : Name) (fuel : Nat),
      inode_print_tree printConsts scenarioTable fuel 0 name =
        some (.ok [['/'], ['/', 'a'], ['/', 'd'], ['/', 'd', '/', 'b']]) := by
  rintro ⟨name, fuel, h⟩
  obtain ⟨outs, hout, _⟩ := inode_print_tree_directory printConsts scenarioTable fuel 0 name _
    ⟨.T_DIRECTORY, .block [⟨['a'], 1⟩, ⟨['d'], 2⟩], .unlocked⟩ [⟨['a'], 1⟩, ⟨['d'], 2⟩]
    rfl rfl rfl h
  have hname : name = ['/'] := by
    simp only [List.cons.injEq] at hout
    exact hout.1.symm
  subst hname
  have h3 := inode_print_tree_le printConsts scenarioTable fuel (fuel + 3) (by omega) 0 ['/'] _ h
  have h4 : inode_print_tree printConsts scenarioTable (fuel + 3) 0 ['/'] =
      some (.ok [['/'], ['/', '/', 'a'], ['/', '/', 'd'], ['/', '/', 'd', '/', 'b']]) :=
    inode_print_tree_le printConsts scenarioTable 3 (fuel + 3) (by omega) 0 ['/'] _ (by decide)
  rw [h3] at h4
  exact absurd h4 (by decide)

/-- C11, amended: on the scenario table `inode_print_tree(fp, 0, "")` writes
exactly the lines `` (the empty line of the root), `/a`, `/d`, `/d/b`, in this
order, `/d` in front of `/d/b`; the recursion needs depth 3. -/
theorem print_scenario_lines (k : Nat) :
    inode_print_tree printConsts scenarioTable (3 + k) 0 [] =
      some (.ok [[], ['/', 'a'], ['/', 'd'], ['/', 'd', '/', 'b']]) :=
  inode_print_tree_le printConsts scenarioTable 3 (3 + k) (by omega) 0 [] _ (by decide)

/-! ## Reading a slot -/

/-- Away from the table bound `inode_get` accepts exactly the inumbers
`inode_delete` accepts.  When
`inode_delete(inumber)` would return `SUCCESS`, `inode_get` returns `SUCCESS`,
stores the tag and the payload of the slot through the non-null output
pointers and leaves the table as it was; when `inode_delete` would return
`FAIL`, `inode_get` returns `FAIL` and writes no output.  In particular
`inode_get` succeeds on every in-range allocated slot. -/
theorem inode_get_agrees_with_delete (c : Consts) (hsf : c.SUCCESS ≠ c.FAIL) (inumber : Int)
    (nType : Option type) (data : Option Data) (tbl : Table) :
    (∀ t1, inode_delete c inumber tbl = .ok (c.SUCCESS, t1) →
      ∃ nd, slotAt tbl inumber = .ok nd ∧ nd.nodeType ≠ type.T_NONE ∧
        inode_get c inumber nType data tbl =
          .ok (c.SUCCESS, tbl, nType.map (fun _ => nd.nodeType),
            data.map (fun _ => nd.data))) ∧
    (∀ t1, inode_delete c inumber tbl = .ok (c.FAIL, t1) →
      inode_get c inumber nType data tbl = .ok (c.FAIL, tbl, nType, data)) ∧
    (∀ nd, 0 ≤ inumber → inumber < c.INODE_TABLE_SIZE → tbl[inumber.toNat]? = some nd →
      nd.nodeType ≠ type.T_NONE →
      inode_get c inumber nType data tbl =
        .ok (c.SUCCESS, tbl, nType.map (fun _ => nd.nodeType), data.map (fun _ => nd.data))) := by
  refine ⟨?_, ?_, ?_⟩
  · intro t1 h
    unfold inode_delete at h
    unfold inode_get
    by_cases hr : inumber < 0 ∨ inumber > c.INODE_TABLE_SIZE
    · rw [if_pos hr] at h
      simp only [Except.ok.injEq, Prod.mk.injEq] at h
      exact absurd h.1.symm hsf
    · rw [if_neg hr] at h ⊢
      cases hs : slotAt tbl inumber with
      | error e => simp [hs] at h
      | ok nd =>
        simp only [hs] at h ⊢
        by_cases hk : nd.nodeType = type.T_NONE
        · rw [if_pos hk] at h
          simp only [Except.ok.injEq, Prod.mk.injEq] at h
          exact absurd h.1.symm hsf
        · exact ⟨nd, rfl, hk, by rw [if_neg hk]⟩
  · intro t1 h
    unfold inode_delete at h
    unfold inode_get
    by_cases hr : inumber < 0 ∨ inumber > c.INODE_TABLE_SIZE
    · rw [if_pos hr]
    · rw [if_neg hr] at h ⊢
      cases hs : slotAt tbl inumber with
      | error e => simp [hs] at h
      | ok nd =>
        simp only [hs] at h ⊢
        by_cases hk : nd.nodeType = type.T_NONE
        · rw [if_pos hk]
        · rw [if_neg hk] at h
          cases hrel : nd.data.release with
          | error e => simp [hrel] at h
          | ok d2 =>
            simp only [hrel, Except.ok.injEq, Prod.mk.injEq] at h
            exact absurd h.1 hsf
  · intro nd h0 hlt hnd hk
    unfold inode_get
    have hr : ¬ (inumber < 0 ∨ inumber > c.INODE_TABLE_SIZE) := by omega
    have hs : slotAt tbl inumber = .ok nd := by
      unfold slotAt
      rw [if_neg (by omega), hnd]
    rw [if_neg hr]
    simp only [hs, if_neg hk]

/-- C13: `inode_get(INODE_TABLE_SIZE, ...)` passes the range test
`inumber > INODE_TABLE_SIZE` and reads `inode_table[INODE_TABLE_SIZE]`, one
slot past the end of the table, instead of returning `FAIL` with the outputs
untouched. -/
theorem inode_get_table_size_out_of_bounds (c : Consts) (nType : Option type)
    (data : Option Data) (tbl : Table) (hlen : tbl.length = c.INODE_TABLE_SIZE) :
    inode_get c (c.INODE_TABLE_SIZE : Int) nType data tbl = .error .outOfBounds := by
  unfold inode_get
  have h : ¬ ((c.INODE_TABLE_SIZE : Int) < 0 ∨ (c.INODE_TABLE_SIZE : Int) > c.INODE_TABLE_SIZE) := by
    omega
  rw [if_neg h, slotAt_natCast, List.getElem?_eq_none (by omega)]

/-- Witness of C13 on `tinyTable`: `inode_get(3, &t, &d)` on the three-slot
table. -/
theorem inode_get_table_size_out_of_bounds_witness :
    tinyTable.length = tinyConsts.INODE_TABLE_SIZE ∧
    inode_get tinyConsts 3 (some type.T_NONE) (some Data.freed) tinyTable
      = .error .outOfBounds :=
  ⟨by decide,
    inode_get_table_size_out_of_bounds tinyConsts (some type.T_NONE) (some Data.freed)
      tinyTable (by decide)⟩

/-- The claimed slot and the untouched rest: what a run of the allocation scan
that returns has done. -/
theorem inode_create_loop_inv (c : Consts) (junk : Nat → Name) (nType : type) :
    ∀ (n i : Nat) (tbl : Table) (r : Int) (tbl' : Table),
      inode_create_loop c junk nType n i tbl = .ok (r, tbl') →
      (r = c.FAIL ∧ tbl' = tbl) ∨
      (∃ (k : Nat) (nd : inode), i ≤ k ∧ k < i + n ∧ r = (k : Int) ∧ tbl[k]? = some nd ∧
        nd.rwl = rwlock.unlocked ∧ nd.nodeType = type.T_NONE ∧
        tbl' = tbl.set k (claimedSlot c junk nType .wrlocked)) := by
  intro n
  induction n with
  | zero =>
    intro i tbl r tbl' h
    simp only [inode_create_loop, Except.ok.injEq, Prod.mk.injEq] at h
    exact Or.inl ⟨h.1.symm, h.2.symm⟩
  | succ n ih =>
    intro i tbl r tbl' h
    have hnext : inode_create_loop c junk nType n (i + 1) tbl = .ok (r, tbl') →
        (r = c.FAIL ∧ tbl' = tbl) ∨
        (∃ (k : Nat) (nd : inode), i ≤ k ∧ k < i + (n + 1) ∧ r = (k : Int) ∧
          tbl[k]? = some nd ∧ nd.rwl = rwlock.unlocked ∧ nd.nodeType = type.T_NONE ∧
          tbl' = tbl.set k (claimedSlot c junk nType .wrlocked)) := by
      intro h2
      rcases ih (i + 1) tbl r tbl' h2 with h3 | ⟨k, nd, h4, h5, h6⟩
      · exact Or.inl h3
      · exact Or.inr ⟨k, nd, by omega, by omega, h6⟩
    unfold inode_create_loop at h
    cases hnd : tbl[i]? with
    | none => simp [hnd] at h
    | some nd =>
      simp only [hnd] at h
      cases hl : nd.rwl with
      | uninit => simp [hl, pthread_rwlock_trywrlock] at h
      | rdlocked k =>
        simp only [hl, pthread_rwlock_trywrlock] at h
        exact hnext h
      | wrlocked =>
        simp only [hl, pthread_rwlock_trywrlock] at h
        exact hnext h
      | unlocked =>
        simp only [hl, pthread_rwlock_trywrlock] at h
        by_cases hk : nd.nodeType = type.T_NONE
        · simp only [hk, if_true, Except.ok.injEq, Prod.mk.injEq] at h
          exact Or.inr ⟨i, nd, Nat.le_refl i, by omega, h.1.symm, hnd, hl, hk, h.2.symm⟩
        · have hu := unlock_after_trywrlock tbl i nd hnd hl
          simp only [hl] at hu
          simp only [hk, if_false, hu] at h
          exact hnext h

theorem length_freshEntries (c : Consts) (junk : Nat → Name) :
    (freshEntries c junk).length = c.MAX_DIR_ENTRIES := by
  simp [freshEntries]

theorem inumber_freshEntries (c : Consts) (junk : Nat → Name) :
    ∀ e ∈ freshEntries c junk, e.inumber = c.FREE_INODE := by
  intro e he
  simp only [freshEntries, List.mem_map] at he
  obtain ⟨i, _, rfl⟩ := he
  rfl

/-- C14: when `inode_create(T_DIRECTORY)` returns an inumber, the slot it names
points to a block of `MAX_DIR_ENTRIES` entries, every one of them marked
`FREE_INODE`, whatever the table and the heap held before; so
`lookup_sub_node` on that block returns `FAIL` for every name. -/
theorem inode_create_directory_entries_free (c : Consts) (junk : Nat → Name) (tbl : Table)
    (r : Int) (tbl' : Table)
    (h : inode_create c junk type.T_DIRECTORY tbl = .ok (r, tbl')) (hr : r ≠ c.FAIL) :
    ∃ es, entriesAt tbl' r.toNat = some es ∧ es.length = c.MAX_DIR_ENTRIES ∧
      (∀ e ∈ es, e.inumber = c.FREE_INODE) ∧
      ∀ n : Name, lookup_sub_node c n (some es) = .ok c.FAIL := by
  rcases inode_create_loop_inv c junk type.T_DIRECTORY c.INODE_TABLE_SIZE 0 tbl r tbl' h with
    ⟨h1, _⟩ | ⟨k, nd, _, _, hrk, hnd, _, _, htbl⟩
  · exact absurd h1 hr
  · have hkl : k < tbl.length := lt_length_of_getElem? hnd
    refine ⟨freshEntries c junk, ?_, length_freshEntries c junk, inumber_freshEntries c junk, ?_⟩
    · rw [hrk, htbl]
      simp [entriesAt, List.getElem?_set_self hkl, claimedSlot]
    · intro n
      rcases scanEntries_spec
          (fun e => decide (e.inumber ≠ c.FREE_INODE) && decide (e.name = n))
          (freshEntries c junk) c.MAX_DIR_ENTRIES 0
          (by rw [length_freshEntries]; omega) with ⟨j, e, _, _, _, hje, hjp, _⟩ | ⟨hk, _⟩
      · have := inumber_freshEntries c junk e (List.getElem?_mem hje)
        simp [this] at hjp
      · exact lookup_sub_node_of_scan_none c n _ hk

/-- Witness of C14 on `tinyTable`: the directory is created in slot 1. -/
theorem inode_create_directory_entries_free_witness :
    inode_create tinyConsts noJunk type.T_DIRECTORY tinyTable = .ok (1, tinyTableCreated) ∧
    (1 : Int) ≠ tinyConsts.FAIL ∧
    ∃ es, entriesAt tinyTableCreated (1 : Int).toNat = some es ∧
      es.length = tinyConsts.MAX_DIR_ENTRIES ∧
      (∀ e ∈ es, e.inumber = tinyConsts.FREE_INODE) ∧
      ∀ n : Name, lookup_sub_node tinyConsts n (some es) = .ok tinyConsts.FAIL :=
  ⟨by decide, by decide,
    inode_create_directory_entries_free tinyConsts noJunk tinyTable 1 tinyTableCreated
      (by decide) (by decide)⟩

/-! ## Locks during allocation -/

/-- The allocation scan returns on every table whose locks are initialised,
whoever holds them. -/
theorem inode_create_loop_returns (c : Consts) (junk : Nat → Name) (nType : type) :
    ∀ (n i : Nat) (tbl : Table), i + n ≤ tbl.length →
      (∀ nd ∈ tbl, nd.rwl ≠ rwlock.uninit) →
      ∃ r tbl', inode_create_loop c junk nType n i tbl = .ok (r, tbl') := by
  intro n
  induction n with
  | zero =>
    intro i tbl _ _
    exact ⟨c.FAIL, tbl, rfl⟩
  | succ n ih =>
    intro i tbl hi hinit
    have hil : i < tbl.length := by omega
    have hnd : tbl[i]? = some tbl[i] := List.getElem?_eq_getElem hil
    obtain ⟨r, tbl', hrest⟩ := ih (i + 1) tbl (by omega) hinit
    unfold inode_create_loop
    simp only [hnd]
    cases hl : tbl[i].rwl with
    | uninit => exact absurd hl (hinit _ (List.getElem_mem hil))
    | rdlocked k =>
      simp only [pthread_rwlock_trywrlock]
      exact ⟨r, tbl', hrest⟩
    | wrlocked =>
      simp only [pthread_rwlock_trywrlock]
      exact ⟨r, tbl', hrest⟩
    | unlocked =>
      simp only [pthread_rwlock_trywrlock]
      by_cases hk : tbl[i].nodeType = type.T_NONE
      · rw [if_pos hk]
        exact ⟨_, _, rfl⟩
      · have hu := unlock_after_trywrlock tbl i tbl[i] hnd hl
        rw [if_neg hk]
        simp only [hu]
        exact ⟨r, tbl', hrest⟩

/-- C15: on a table of `INODE_TABLE_SIZE` slots with initialised locks, in any
state of being held, `inode_create` returns (it only tries the locks).
When it returns `FAIL` the table, and so every lock state, is as before.
When it returns an inumber, that slot was unlocked and of kind `T_NONE` before
the call and is write-locked after it, and the lock state of every other slot
is as before. -/
theorem inode_create_lock_frame (c : Consts) (junk : Nat → Name) (nType : type) (tbl : Table)
    (hlen : tbl.length = c.INODE_TABLE_SIZE)
    (hinit : ∀ nd ∈ tbl, nd.rwl ≠ rwlock.uninit) (hfail : c.FAIL < 0) :
    ∃ r tbl', inode_create c junk nType tbl = .ok (r, tbl') ∧
      (r = c.FAIL → tbl' = tbl) ∧
      (r ≠ c.FAIL → ∃ k : Nat, r = (k : Int) ∧ k < c.INODE_TABLE_SIZE ∧
        tbl[k]?.map inode.rwl = some rwlock.unlocked ∧
        tbl[k]?.map inode.nodeType = some type.T_NONE ∧
        tbl'[k]?.map inode.rwl = some rwlock.wrlocked ∧
        ∀ j : Nat, j ≠ k → tbl'[j]?.map inode.rwl = tbl[j]?.map inode.rwl) := by
  obtain ⟨r, tbl', hrun⟩ :=
    inode_create_loop_returns c junk nType c.INODE_TABLE_SIZE 0 tbl (by omega) hinit
  refine ⟨r, tbl', hrun, ?_, ?_⟩
  · intro hr
    rcases inode_create_loop_inv c junk nType c.INODE_TABLE_SIZE 0 tbl r tbl' hrun with
      ⟨_, h2⟩ | ⟨k, nd, _, _, hrk, _⟩
    · exact h2
    · omega
  · intro hr
    rcases inode_create_loop_inv c junk nType c.INODE_TABLE_SIZE 0 tbl r tbl' hrun with
      ⟨h1, _⟩ | ⟨k, nd, _, hk, hrk, hnd, hl, hkind, htbl⟩
    · exact absurd h1 hr
    · have hkl : k < tbl.length := lt_length_of_getElem? hnd
      refine ⟨k, hrk, by omega, by simp [hnd, hl], by simp [hnd, hkind], ?_, ?_⟩
      · rw [htbl, List.getElem?_set_self hkl]
        rfl
      · intro j hj
        rw [htbl, List.getElem?_set_ne (Ne.symm hj)]

/-- Witness of C15 on `tinyLocked`: slot 0 is read-locked by another caller,
slot 2 write-locked, slot 1 free. -/
theorem inode_create_lock_frame_witness :
    tinyLocked.length = tinyConsts.INODE_TABLE_SIZE ∧
    (∀ nd ∈ tinyLocked, nd.rwl ≠ rwlock.uninit) ∧ tinyConsts.FAIL < 0 ∧
    ∃ r tbl', inode_create tinyConsts noJunk type.T_FILE tinyLocked = .ok (r, tbl') ∧
      (r = tinyConsts.FAIL → tbl' = tinyLocked) ∧
      (r ≠ tinyConsts.FAIL → ∃ k : Nat, r = (k : Int) ∧ k < tinyConsts.INODE_TABLE_SIZE ∧
        tinyLocked[k]?.map inode.rwl = some rwlock.unlocked ∧
        tinyLocked[k]?.map inode.nodeType = some type.T_NONE ∧
        tbl'[k]?.map inode.rwl = some rwlock.wrlocked ∧
        ∀ j : Nat, j ≠ k → tbl'[j]?.map inode.rwl = tinyLocked[j]?.map inode.rwl) :=
  ⟨by decide, by decide, by decide,
    inode_create_lock_frame tinyConsts noJunk type.T_FILE tinyLocked (by decide) (by decide)
      (by decide)⟩

/-! ## Deleting touches one slot -/

/-- C18: a successful `inode_delete(i)` changes slot `i` only: the slot becomes
`T_NONE`, every other slot of the table (tag, pointer, entries, lock) is as
before; so the slots that the populated entries of a deleted directory refer
to keep their tags. -/
theorem inode_delete_only_that_slot (c : Consts) (hsf : c.SUCCESS ≠ c.FAIL) (inumber : Int)
    (tbl tbl' : Table) (h : inode_delete c inumber tbl = .ok (c.SUCCESS, tbl')) :
    0 ≤ inumber ∧ tbl'.length = tbl.length ∧
    kindAt tbl' inumber.toNat = some type.T_NONE ∧
    (∀ j : Nat, j ≠ inumber.toNat → tbl'[j]? = tbl[j]?) ∧
    (∀ es, entriesAt tbl inumber.toNat = some es →
      ∀ e ∈ es, e.inumber ≠ c.FREE_INODE → e.inumber.toNat ≠ inumber.toNat →
        kindAt tbl' e.inumber.toNat = kindAt tbl e.inumber.toNat) := by
  unfold inode_delete at h
  by_cases hr : inumber < 0 ∨ inumber > c.INODE_TABLE_SIZE
  · rw [if_pos hr] at h
    simp only [Except.ok.injEq, Prod.mk.injEq] at h
    exact absurd h.1.symm hsf
  · rw [if_neg hr] at h
    cases hs : slotAt tbl inumber with
    | error e => simp [hs] at h
    | ok nd =>
      simp only [hs] at h
      obtain ⟨h0, hnd⟩ := slotAt_ok_inv hs
      have hil : inumber.toNat < tbl.length := lt_length_of_getElem? hnd
      by_cases hk : nd.nodeType = type.T_NONE
      · rw [if_pos hk] at h
        simp only [Except.ok.injEq, Prod.mk.injEq] at h
        exact absurd h.1.symm hsf
      · rw [if_neg hk] at h
        cases hrel : nd.data.release with
        | error e => simp [hrel] at h
        | ok d2 =>
          simp only [hrel, Except.ok.injEq, Prod.mk.injEq, true_and] at h
          have hothers : ∀ j : Nat, j ≠ inumber.toNat → tbl'[j]? = tbl[j]? := by
            intro j hj
            rw [← h, List.getElem?_set_ne (Ne.symm hj)]
          refine ⟨h0, by rw [← h, List.length_set], ?_, hothers, ?_⟩
          · rw [← h]
            simp [kindAt, List.getElem?_set_self hil]
          · intro es _ e _ _ hne
            simp only [kindAt, hothers _ hne]

/-- Witness of C18 on `tinyTable`: deleting the directory in slot 0, whose
entry `a` refers to slot 2. -/
theorem inode_delete_only_that_slot_witness :
    tinyConsts.SUCCESS ≠ tinyConsts.FAIL ∧
    inode_delete tinyConsts 0 tinyTable = .ok (tinyConsts.SUCCESS, tinyTableDeleted) ∧
    (0 : Int) ≤ 0 ∧ tinyTableDeleted.length = tinyTable.length ∧
    kindAt tinyTableDeleted (0 : Int).toNat = some type.T_NONE ∧
    (∀ j : Nat, j ≠ (0 : Int).toNat → tinyTableDeleted[j]? = tinyTable[j]?) ∧
    (∀ es, entriesAt tinyTable (0 : Int).toNat = some es →
      ∀ e ∈ es, e.inumber ≠ tinyConsts.FREE_INODE → e.inumber.toNat ≠ (0 : Int).toNat →
        kindAt tinyTableDeleted e.inumber.toNat = kindAt tinyTable e.inumber.toNat) :=
  ⟨by decide, by decide,
    inode_delete_only_that_slot tinyConsts (by decide) 0 tinyTable tinyTableDeleted
      (by decide)⟩

/-! ## Reachable tables -/

theorem scanEntries_some_sat (p : DirEntry → Bool) (es : List DirEntry) :
    ∀ (n i k : Nat), scanEntries p es i n = .ok (some k) →
      ∃ e, es[k]? = some e ∧ p e = true := by
  intro n
  induction n with
  | zero =>
    intro i k h
    simp [scanEntries] at h
  | succ n ih =>
    intro i k h
    unfold scanEntries at h
    cases he : es[i]? with
    | none => simp [he] at h
    | some e =>
      simp only [he] at h
      by_cases hp : p e = true
      · rw [if_pos hp] at h
        simp only [Except.ok.injEq, Option.some.injEq] at h
        subst h
        exact ⟨e, he, hp⟩
      · rw [if_neg hp] at h
        exact ih _ _ h

/-- Whatever it returns, `inode_delete` leaves the table alone or resets one
slot to `T_NONE`. -/
theorem inode_delete_inv (c : Consts) (inumber : Int) (tbl : Table) (r : Int) (tbl' : Table)
    (h : inode_delete c inumber tbl = .ok (r, tbl')) :
    tbl' = tbl ∨ ∃ (nd : inode) (d : Data),
      tbl' = tbl.set inumber.toNat { nd with nodeType := type.T_NONE, data := d } := by
  unfold inode_delete at h
  split at h
  · simp only [Except.ok.injEq, Prod.mk.injEq] at h
    exact Or.inl h.2.symm
  split at h
  · simp at h
  rename_i nd hnd
  split at h
  · simp only [Except.ok.injEq, Prod.mk.injEq] at h
    exact Or.inl h.2.symm
  split at h
  · simp at h
  rename_i d hd
  simp only [Except.ok.injEq, Prod.mk.injEq] at h
  exact Or.inr ⟨nd, d, h.2.symm⟩

/-- Whatever it returns, `dir_add_entry` leaves the table alone or overwrites
one free entry of a directory block. -/
theorem dir_add_entry_inv (c : Consts) (p ch : Int) (name : Name) (tbl : Table) (r : Int)
    (tbl' : Table) (h : dir_add_entry c p ch name tbl = .ok (r, tbl')) :
    tbl' = tbl ∨ ∃ (pn : inode) (es : List DirEntry) (k : Nat) (e : DirEntry),
      tbl[p.toNat]? = some pn ∧ pn.nodeType = type.T_DIRECTORY ∧ pn.data = Data.block es ∧
      es[k]? = some e ∧ e.inumber = c.FREE_INODE ∧
      tbl' = tbl.set p.toNat { pn with data := .block (es.set k ⟨name, ch⟩) } := by
  unfold dir_add_entry at h
  split at h
  · simp only [Except.ok.injEq, Prod.mk.injEq] at h
    exact Or.inl h.2.symm
  split at h
  · simp at h
  rename_i pn hpn
  split at h
  · simp only [Except.ok.injEq, Prod.mk.injEq] at h
    exact Or.inl h.2.symm
  split at h
  · simp only [Except.ok.injEq, Prod.mk.injEq] at h
    exact Or.inl h.2.symm
  rename_i hpk
  split at h
  · simp only [Except.ok.injEq, Prod.mk.injEq] at h
    exact Or.inl h.2.symm
  split at h
  · simp at h
  split at h
  · simp only [Except.ok.injEq, Prod.mk.injEq] at h
    exact Or.inl h.2.symm
  split at h
  · simp only [Except.ok.injEq, Prod.mk.injEq] at h
    exact Or.inl h.2.symm
  split at h
  · simp at h
  rename_i es hes
  split at h
  · simp at h
  · simp only [Except.ok.injEq, Prod.mk.injEq] at h
    exact Or.inl h.2.symm
  rename_i k hscan
  split at h
  · simp at h
  simp only [Except.ok.injEq, Prod.mk.injEq] at h
  obtain ⟨e, hke, hkp⟩ := scanEntries_some_sat _ es _ _ _ hscan
  exact Or.inr ⟨pn, es, k, e, (slotAt_ok_inv hpn).2, by simpa using hpk, deref_ok_inv hes, hke,
    by simpa using hkp, h.2.symm⟩

/-- Whatever it returns, `dir_reset_entry` leaves the table alone or marks one
entry of a directory block free. -/
theorem dir_reset_entry_inv (c : Consts) (p ch : Int) (tbl : Table) (r : Int)
    (tbl' : Table) (h : dir_reset_entry c p ch tbl = .ok (r, tbl')) :
    tbl' = tbl ∨ ∃ (pn : inode) (es : List DirEntry) (k : Nat) (e : DirEntry),
      tbl[p.toNat]? = some pn ∧ pn.nodeType = type.T_DIRECTORY ∧ pn.data = Data.block es ∧
      es[k]? = some e ∧ e.inumber = ch ∧
      tbl' = tbl.set p.toNat { pn with data := .block (es.set k ⟨[], c.FREE_INODE⟩) } := by
  unfold dir_reset_entry at h
  split at h
  · simp only [Except.ok.injEq, Prod.mk.injEq] at h
    exact Or.inl h.2.symm
  split at h
  · simp at h
  rename_i pn hpn
  split at h
  · simp only [Except.ok.injEq, Prod.mk.injEq] at h
    exact Or.inl h.2.symm
  split at h
  · simp only [Except.ok.injEq, Prod.mk.injEq] at h
    exact Or.inl h.2.symm
  rename_i hpk
  split at h
  · simp only [Except.ok.injEq, Prod.mk.injEq] at h
    exact Or.inl h.2.symm
  split at h
  · simp at h
  split at h
  · simp only [Except.ok.injEq, Prod.mk.injEq] at h
    exact Or.inl h.2.symm
  split at h
  · simp at h
  rename_i es hes
  split at h
  · simp at h
  · simp only [Except.ok.injEq, Prod.mk.injEq] at h
    exact Or.inl h.2.symm
  rename_i k hscan
  simp only [Except.ok.injEq, Prod.mk.injEq] at h
  obtain ⟨e, hke, hkp⟩ := scanEntries_some_sat _ es _ _ _ hscan
  exact Or.inr ⟨pn, es, k, e, (slotAt_ok_inv hpn).2, by simpa using hpk, deref_ok_inv hes, hke,
    by simpa using hkp, h.2.symm⟩

theorem wellFormed_set (c : Consts) (t : Table) (k : Nat) (x : inode)
    (h : WellFormed c t) (hx : x.wellFormed c = true) : WellFormed c (t.set k x) := by
  refine ⟨by rw [List.length_set]; exact h.1, ?_⟩
  intro nd hnd
  rcases List.mem_or_eq_of_mem_set hnd with h1 | h1
  · exact h.2 nd h1
  · rw [h1]
    exact hx

theorem wellFormed_claimedSlot (c : Consts) (junk : Nat → Name) (nType : type) (l : rwlock) :
    (claimedSlot c junk nType l).wellFormed c = true := by
  cases nType <;> simp [claimedSlot, inode.wellFormed, length_freshEntries]

theorem wellFormed_of_file_or_directory (c : Consts) (nd : inode)
    (h : nd.wellFormed c = true) :
    (nd.nodeType = type.T_FILE → nd.data = Data.null) ∧
    (nd.nodeType = type.T_DIRECTORY →
      ∃ es, nd.data = Data.block es ∧ es.length = c.MAX_DIR_ENTRIES) := by
  refine ⟨?_, block_of_wellFormed_directory c nd h⟩
  intro hk
  rcases nd with ⟨k, d, l⟩
  simp only at hk
  subst hk
  cases d with
  | null => rfl
  | freed => simp [inode.wellFormed] at h
  | block es => simp [inode.wellFormed] at h

/-- Every table reachable from `inode_table_init`, under any calling
discipline, is well formed. -/
theorem reachable_wellFormed (c : Consts) (allowed : Table → Op → Prop) (tbl : Table)
    (h : Reachable c allowed tbl) : WellFormed c tbl := by
  induction h with
  | init tbl0 t hlen hinit =>
    obtain ⟨t0, ht0, hl, _, hs⟩ := inode_table_init_occupancy c tbl0 hlen
    rw [hinit] at ht0
    cases ht0
    refine ⟨hl, ?_⟩
    intro nd hnd
    obtain ⟨j, hj⟩ := List.mem_iff_getElem?.mp hnd
    have hk := (hs j nd hj).1 trivial
    rcases nd with ⟨k, d, l⟩
    simp only at hk
    subst hk
    rfl
  | step t t' op r _ _ hrun ih =>
    cases op with
    | create nType junk =>
      rcases inode_create_loop_inv c junk nType c.INODE_TABLE_SIZE 0 t r t' hrun with
        ⟨_, h2⟩ | ⟨k, nd, _, _, _, _, _, _, h2⟩
      · rw [h2]
        exact ih
      · rw [h2]
        exact wellFormed_set c t k _ ih (wellFormed_claimedSlot c junk nType _)
    | delete inumber =>
      rcases inode_delete_inv c inumber t r t' hrun with h2 | ⟨nd, d, h2⟩
      · rw [h2]
        exact ih
      · rw [h2]
        exact wellFormed_set c t _ _ ih rfl
    | add p ch name =>
      rcases dir_add_entry_inv c p ch name t r t' hrun with
        h2 | ⟨pn, es, k, e, hpn, hpk, hd, _, _, h2⟩
      · rw [h2]
        exact ih
      · rw [h2]
        apply wellFormed_set c t _ _ ih
        obtain ⟨es2, hd2, hlen2⟩ :=
          block_of_wellFormed_directory c pn (ih.2 pn (List.getElem?_mem hpn)) hpk
        rw [hd] at hd2
        cases hd2
        simp [inode.wellFormed, hpk, hlen2]
    | reset p ch =>
      rcases dir_reset_entry_inv c p ch t r t' hrun with
        h2 | ⟨pn, es, k, e, hpn, hpk, hd, _, _, h2⟩
      · rw [h2]
        exact ih
      · rw [h2]
        apply wellFormed_set c t _ _ ih
        obtain ⟨es2, hd2, hlen2⟩ :=
          block_of_wellFormed_directory c pn (ih.2 pn (List.getElem?_mem hpn)) hpk
        rw [hd] at hd2
        cases hd2
        simp [inode.wellFormed, hpk, hlen2]

/-- C19: in every table reachable from `inode_table_init` by `inode_create`,
`inode_delete`, `dir_add_entry` and `dir_reset_entry` calls, a slot of kind
`T_FILE` carries the null pointer and a slot of kind `T_DIRECTORY` points to a
block of exactly `MAX_DIR_ENTRIES` entries; and on a file parent
`dir_add_entry` and `dir_reset_entry` return `FAIL` without touching the
table. -/
theorem reachable_payload_matches_kind (c : Consts) (tbl : Table)
    (h : Reachable c anyCall tbl) :
    (∀ nd ∈ tbl,
      (nd.nodeType = type.T_FILE → nd.data = Data.null) ∧
      (nd.nodeType = type.T_DIRECTORY →
        ∃ es, nd.data = Data.block es ∧ es.length = c.MAX_DIR_ENTRIES)) ∧
    (∀ (p : Nat) (ch : Int) (name : Name), kindAt tbl p = some type.T_FILE →
      dir_add_entry c (p : Int) ch name tbl = .ok (c.FAIL, tbl) ∧
      dir_reset_entry c (p : Int) ch tbl = .ok (c.FAIL, tbl)) := by
  have hwf := reachable_wellFormed c anyCall tbl h
  refine ⟨fun nd hnd => wellFormed_of_file_or_directory c nd (hwf.2 nd hnd), ?_⟩
  intro p ch name hk
  cases hpn : tbl[p]? with
  | none => simp [kindAt, hpn] at hk
  | some pn =>
    have hpl : p < tbl.length := lt_length_of_getElem? hpn
    have hpk : pn.nodeType = type.T_FILE := by simpa [kindAt, hpn] using hk
    have h1 : ¬ ((p : Int) < 0 ∨ (p : Int) > c.INODE_TABLE_SIZE) := by
      have := hwf.1
      omega
    constructor
    · unfold dir_add_entry
      rw [if_neg h1, slotAt_natCast, hpn]
      simp [hpk]
    · unfold dir_reset_entry
      rw [if_neg h1, slotAt_natCast, hpn]
      simp [hpk]

theorem Reachable.weaken (c : Consts) (allowed allowed' : Table → Op → Prop)
    (himp : ∀ t op, allowed t op → allowed' t op) (tbl : Table)
    (h : Reachable c allowed tbl) : Reachable c allowed' tbl := by
  induction h with
  | init tbl0 t hlen hinit => exact Reachable.init tbl0 t hlen hinit
  | step t t' op r _ hallow hrun ih => exact Reachable.step t t' op r ih (himp t op hallow) hrun

/-- The table `afterAdd` is reached by a caller that only adds fresh names:
init, create a directory, create a file, add the file to the directory. -/
theorem reachable_afterAdd : Reachable tinyConsts (freshNameCall tinyConsts) afterAdd := by
  have h0 : Reachable tinyConsts (freshNameCall tinyConsts) initTable :=
    Reachable.init bootTable initTable (by decide) (by decide)
  have h1 : Reachable tinyConsts (freshNameCall tinyConsts) afterDir :=
    Reachable.step initTable afterDir (.create .T_DIRECTORY noJunk) 0 h0 trivial (by decide)
  have h2 : Reachable tinyConsts (freshNameCall tinyConsts) afterFile :=
    Reachable.step afterDir afterFile (.create .T_FILE noJunk) 1 h1 trivial (by decide)
  refine Reachable.step afterFile afterAdd (.add 0 1 ['a']) 0 h2 ?_ (by decide)
  intro es hes e he hpop
  have hes2 : es = [⟨[], -1⟩, ⟨[], -1⟩] := by
    simp only [entriesAt, afterFile] at hes
    simpa using hes.symm
  subst hes2
  have : e.inumber = tinyConsts.FREE_INODE := by
    simp only [List.mem_cons, List.mem_singleton, List.not_mem_nil, or_false] at he
    rcases he with h | h <;> rw [h] <;> rfl
  exact absurd this hpop

/-- The table `dupTable` is reached by adding the same name a second time. -/
theorem reachable_dupTable : Reachable tinyConsts anyCall dupTable :=
  Reachable.step afterAdd dupTable (.add 0 1 ['a']) 0
    (Reachable.weaken tinyConsts _ anyCall (fun _ _ _ => trivial) afterAdd reachable_afterAdd)
    trivial (by decide)

/-- Witness of C19 on the reachable table `dupTable`. -/
theorem reachable_payload_matches_kind_witness :
    Reachable tinyConsts anyCall dupTable ∧
    (∀ nd ∈ dupTable,
      (nd.nodeType = type.T_FILE → nd.data = Data.null) ∧
      (nd.nodeType = type.T_DIRECTORY →
        ∃ es, nd.data = Data.block es ∧ es.length = tinyConsts.MAX_DIR_ENTRIES)) ∧
    (∀ (p : Nat) (ch : Int) (name : Name), kindAt dupTable p = some type.T_FILE →
      dir_add_entry tinyConsts (p : Int) ch name dupTable = .ok (tinyConsts.FAIL, dupTable) ∧
      dir_reset_entry tinyConsts (p : Int) ch dupTable = .ok (tinyConsts.FAIL, dupTable)) :=
  ⟨reachable_dupTable, reachable_payload_matches_kind tinyConsts dupTable reachable_dupTable⟩

/-! ## Names within a directory -/

/-- C16, as stated, fails: `dir_add_entry` does not look for the name, so
adding `a` twice to the directory in slot 0 reaches a table with two populated
entries named `a`. -/
theorem reachable_duplicate_names :
    ¬ ∀ tbl, Reachable tinyConsts anyCall tbl → NoDupNames tinyConsts tbl := by
  intro h
  have hdup := h dupTable reachable_dupTable
    ⟨.T_DIRECTORY, .block [⟨['a'], 1⟩, ⟨['a'], 1⟩], .wrlocked⟩
    (by simp [dupTable]) rfl [⟨['a'], 1⟩, ⟨['a'], 1⟩] rfl
  revert hdup
  decide

theorem populatedNames_append (c : Consts) (a b : List DirEntry) :
    populatedNames c (a ++ b) = populatedNames c a ++ populatedNames c b := by
  simp [populatedNames]

theorem populatedNames_cons_free (c : Consts) (e : DirEntry) (l : List DirEntry)
    (h : e.inumber = c.FREE_INODE) : populatedNames c (e :: l) = populatedNames c l := by
  simp [populatedNames, h]

theorem populatedNames_cons_populated (c : Consts) (e : DirEntry) (l : List DirEntry)
    (h : e.inumber ≠ c.FREE_INODE) :
    populatedNames c (e :: l) = e.name :: populatedNames c l := by
  simp [populatedNames, h]

theorem mem_populatedNames (c : Consts) (es : List DirEntry) (n : Name) :
    n ∈ populatedNames c es ↔ ∃ e ∈ es, e.inumber ≠ c.FREE_INODE ∧ e.name = n := by
  simp [populatedNames, List.mem_map, List.mem_filter, and_assoc]

theorem entries_split (es : List DirEntry) (k : Nat) (e : DirEntry) (h : es[k]? = some e) :
    es = es.take k ++ e :: es.drop (k + 1) ∧
    ∀ x : DirEntry, es.set k x = es.take k ++ x :: es.drop (k + 1) := by
  have hk : k < es.length := lt_length_of_getElem? h
  have he : es[k] = e := by
    rw [List.getElem?_eq_getElem hk] at h
    exact Option.some.inj h
  constructor
  · conv => lhs; rw [← List.take_append_drop k es, List.drop_eq_getElem_cons hk, he]
  · intro x
    exact List.set_eq_take_cons_drop x hk

/-- Marking an entry free can only remove a name from the populated ones. -/
theorem populatedNames_set_free (c : Consts) (es : List DirEntry) (k : Nat) (e x : DirEntry)
    (he : es[k]? = some e) (hx : x.inumber = c.FREE_INODE) :
    (populatedNames c (es.set k x)).Sublist (populatedNames c es) := by
  obtain ⟨h1, h2⟩ := entries_split es k e he
  rw [h2 x]
  conv => rhs; rw [h1]
  rw [populatedNames_append, populatedNames_append, populatedNames_cons_free c x _ hx]
  apply List.Sublist.append_left
  by_cases hp : e.inumber = c.FREE_INODE
  · rw [populatedNames_cons_free c e _ hp]
  · rw [populatedNames_cons_populated c e _ hp]
    exact List.sublist_cons_self _ _

/-- Writing a name that no populated entry carries into a free entry keeps the
populated names distinct. -/
theorem populatedNames_set_new (c : Consts) (es : List DirEntry) (k : Nat) (e : DirEntry)
    (n : Name) (ch : Int) (he : es[k]? = some e) (hfree : e.inumber = c.FREE_INODE)
    (hnd : (populatedNames c es).Nodup)
    (hfresh : ∀ e ∈ es, e.inumber ≠ c.FREE_INODE → e.name ≠ n) :
    (populatedNames c (es.set k ⟨n, ch⟩)).Nodup := by
  obtain ⟨h1, h2⟩ := entries_split es k e he
  have hold : populatedNames c es =
      populatedNames c (es.take k) ++ populatedNames c (es.drop (k + 1)) := by
    conv => lhs; rw [h1]
    rw [populatedNames_append, populatedNames_cons_free c e _ hfree]
  have hnot : n ∉ populatedNames c es := by
    intro hmem
    obtain ⟨e2, he2, hp2, hn2⟩ := (mem_populatedNames c es n).mp hmem
    exact hfresh e2 he2 hp2 hn2
  rw [h2, populatedNames_append]
  by_cases hch : ch = c.FREE_INODE
  · rw [populatedNames_cons_free c ⟨n, ch⟩ _ hch, ← hold]
    exact hnd
  · rw [populatedNames_cons_populated c ⟨n, ch⟩ _ hch]
    apply List.nodup_middle.mpr
    rw [← hold]
    exact List.nodup_cons.mpr ⟨hnot, hnd⟩

theorem noDupNames_set (c : Consts) (t : Table) (k : Nat) (x : inode)
    (h : NoDupNames c t)
    (hx : x.nodeType = type.T_DIRECTORY →
      ∀ es, x.data = Data.block es → (populatedNames c es).Nodup) :
    NoDupNames c (t.set k x) := by
  intro nd hnd
  rcases List.mem_or_eq_of_mem_set hnd with h1 | h1
  · exact h nd h1
  · rw [h1]
    exact hx

/-- C16, amended: in every table reachable from `inode_table_init` by
`inode_create`, `inode_delete` and `dir_reset_entry` calls and by
`dir_add_entry` calls whose name no populated entry of the parent carries at
the time of the call, the populated entries of each directory have pairwise
distinct names. -/
theorem reachable_fresh_names_distinct (c : Consts) (tbl : Table)
    (h : Reachable c (freshNameCall c) tbl) : NoDupNames c tbl := by
  induction h with
  | init tbl0 t hlen hinit =>
    obtain ⟨t0, ht0, _, _, hs⟩ := inode_table_init_occupancy c tbl0 hlen
    rw [hinit] at ht0
    cases ht0
    intro nd hnd hk
    obtain ⟨j, hj⟩ := List.mem_iff_getElem?.mp hnd
    have := (hs j nd hj).1 trivial
    rw [this] at hk
    cases hk
  | step t t' op r _ hallow hrun ih =>
    cases op with
    | create nType junk =>
      rcases inode_create_loop_inv c junk nType c.INODE_TABLE_SIZE 0 t r t' hrun with
        ⟨_, h2⟩ | ⟨k, nd, _, _, _, _, _, _, h2⟩
      · rw [h2]
        exact ih
      · rw [h2]
        apply noDupNames_set c t k _ ih
        intro hk es hes
        have hes2 : es = freshEntries c junk := by
          simp only [claimedSlot] at hk hes
          rw [if_pos hk] at hes
          exact (Data.block.inj hes).symm
        have hnil : populatedNames c es = [] := by
          rw [hes2]
          simp only [populatedNames, List.map_eq_nil_iff, List.filter_eq_nil_iff]
          intro e he
          simp [inumber_freshEntries c junk e he]
        rw [hnil]
        exact List.nodup_nil
    | delete inumber =>
      rcases inode_delete_inv c inumber t r t' hrun with h2 | ⟨nd, d, h2⟩
      · rw [h2]
        exact ih
      · rw [h2]
        apply noDupNames_set c t _ _ ih
        intro hk
        cases hk
    | add p ch name =>
      rcases dir_add_entry_inv c p ch name t r t' hrun with
        h2 | ⟨pn, es, k, e, hpn, hpk, hd, hke, hfree, h2⟩
      · rw [h2]
        exact ih
      · rw [h2]
        apply noDupNames_set c t _ _ ih
        intro _ es2 hes2
        have hes3 : es2 = es.set k ⟨name, ch⟩ := (Data.block.inj hes2).symm
        rw [hes3]
        have hents : entriesAt t p.toNat = some es := by
          simp [entriesAt, hpn, hd]
        exact populatedNames_set_new c es k e name ch hke hfree
          (ih pn (List.getElem?_mem hpn) hpk es hd) (hallow es hents)
    | reset p ch =>
      rcases dir_reset_entry_inv c p ch t r t' hrun with
        h2 | ⟨pn, es, k, e, hpn, hpk, hd, hke, _, h2⟩
      · rw [h2]
        exact ih
      · rw [h2]
        apply noDupNames_set c t _ _ ih
        intro _ es2 hes2
        have hes3 : es2 = es.set k ⟨[], c.FREE_INODE⟩ := (Data.block.inj hes2).symm
        rw [hes3]
        exact List.Nodup.sublist (populatedNames_set_free c es k e _ hke rfl)
          (ih pn (List.getElem?_mem hpn) hpk es hd)

/-- Witness of the amended C16 on the table `afterAdd`. -/
theorem reachable_fresh_names_distinct_witness :
    Reachable tinyConsts (freshNameCall tinyConsts) afterAdd ∧
    NoDupNames tinyConsts afterAdd :=
  ⟨reachable_afterAdd, reachable_fresh_names_distinct tinyConsts afterAdd reachable_afterAdd⟩

/-! ## Removing an entry and putting it back -/

theorem childEntry_of_directory (c : Consts) (tbl : Table) (i : Int) (s : Nat) (nd : inode)
    (es : List DirEntry) (e : DirEntry) (hs : slotAt tbl i = .ok nd)
    (hk : nd.nodeType = type.T_DIRECTORY) (hd : nd.data = Data.block es)
    (hsl : s < c.MAX_DIR_ENTRIES) (he : es[s]? = some e) (hp : e.inumber ≠ c.FREE_INODE) :
    childEntry c tbl i s = some e := by
  simp only [childEntry, hs, hk, hd, hsl, if_true, he, hp, ne_eq, not_false_eq_true]

theorem childEntry_some_inv (c : Consts) (tbl : Table) (i : Int) (s : Nat) (e : DirEntry)
    (h : childEntry c tbl i s = some e) :
    ∃ (nd : inode) (es : List DirEntry), slotAt tbl i = .ok nd ∧
      nd.nodeType = type.T_DIRECTORY ∧ nd.data = Data.block es ∧ s < c.MAX_DIR_ENTRIES ∧
      es[s]? = some e ∧ e.inumber ≠ c.FREE_INODE := by
  unfold childEntry at h
  cases hs : slotAt tbl i with
  | error f => simp [hs] at h
  | ok nd =>
    simp only [hs] at h
    cases hk : nd.nodeType with
    | T_FILE => simp [hk] at h
    | T_NONE => simp [hk] at h
    | T_DIRECTORY =>
      cases hd : nd.data with
      | null => simp [hk, hd] at h
      | freed => simp [hk, hd] at h
      | block es =>
        simp only [hk, hd] at h
        by_cases hsl : s < c.MAX_DIR_ENTRIES
        · rw [if_pos hsl] at h
          cases he : es[s]? with
          | none => simp [he] at h
          | some e0 =>
            simp only [he] at h
            by_cases hp : e0.inumber ≠ c.FREE_INODE
            · rw [if_pos hp] at h
              cases h
              exact ⟨nd, es, rfl, hk, hd, hsl, he, hp⟩
            · rw [if_neg hp] at h
              cases h
        · rw [if_neg hsl] at h
          cases h

/-- The chains listed for a range of entry slots: a slot of the range holding
a populated entry, followed by a chain listed below the child. -/
theorem mem_chainsEntries (c : Consts) (recur : Int → List (List Nat)) (es : List DirEntry)
    (q : List Nat) :
    ∀ (n s0 : Nat), q ∈ chainsEntries c recur es s0 n ↔
      ∃ (s : Nat) (e : DirEntry) (p : List Nat), s0 ≤ s ∧ s < s0 + n ∧ es[s]? = some e ∧
        e.inumber ≠ c.FREE_INODE ∧ p ∈ recur e.inumber ∧ q = s :: p := by
  intro n
  induction n with
  | zero =>
    intro s0
    simp only [chainsEntries, List.not_mem_nil, false_iff]
    rintro ⟨s, _, _, h1, h2, _⟩
    omega
  | succ n ih =>
    intro s0
    unfold chainsEntries
    cases he0 : es[s0]? with
    | none =>
      simp only [List.not_mem_nil, false_iff]
      rintro ⟨s, e, _, h1, _, h3, _⟩
      have hl : es.length ≤ s0 := List.getElem?_eq_none_iff.mp he0
      have := lt_length_of_getElem? h3
      omega
    | some e0 =>
      simp only []
      by_cases hp0 : e0.inumber ≠ c.FREE_INODE
      · rw [if_pos hp0, List.mem_append, ih (s0 + 1)]
        constructor
        · rintro (h | ⟨s, e, p, h1, h2, h3, h4, h5, h6⟩)
          · obtain ⟨p, hp, hq⟩ := List.mem_map.mp h
            exact ⟨s0, e0, p, Nat.le_refl s0, by omega, he0, hp0, hp, hq.symm⟩
          · exact ⟨s, e, p, by omega, by omega, h3, h4, h5, h6⟩
        · rintro ⟨s, e, p, h1, h2, h3, h4, h5, h6⟩
          by_cases hs : s = s0
          · subst hs
            rw [he0] at h3
            cases h3
            exact Or.inl (List.mem_map.mpr ⟨p, h5, h6.symm⟩)
          · exact Or.inr ⟨s, e, p, by omega, by omega, h3, h4, h5, h6⟩
      · rw [if_neg hp0, ih (s0 + 1)]
        constructor
        · rintro ⟨s, e, p, h1, h2, h3, h4, h5, h6⟩
          exact ⟨s, e, p, by omega, by omega, h3, h4, h5, h6⟩
        · rintro ⟨s, e, p, h1, h2, h3, h4, h5, h6⟩
          by_cases hs : s = s0
          · subst hs
            rw [he0] at h3
            cases h3
            exact absurd h4 hp0
          · exact ⟨s, e, p, by omega, by omega, h3, h4, h5, h6⟩

theorem nodup_chainsEntries (c : Consts) (recur : Int → List (List Nat)) (es : List DirEntry)
    (hrec : ∀ x, (recur x).Nodup) :
    ∀ (n s0 : Nat), (chainsEntries c recur es s0 n).Nodup := by
  intro n
  induction n with
  | zero =>
    intro s0
    simp [chainsEntries]
  | succ n ih =>
    intro s0
    unfold chainsEntries
    cases he0 : es[s0]? with
    | none => exact List.nodup_nil
    | some e0 =>
      simp only []
      by_cases hp0 : e0.inumber ≠ c.FREE_INODE
      · rw [if_pos hp0]
        refine List.nodup_append.mpr
          ⟨List.Nodup.map List.cons_injective (hrec e0.inumber), ih (s0 + 1), ?_⟩
        intro a ha1 ha2
        obtain ⟨p, _, hq⟩ := List.mem_map.mp ha1
        obtain ⟨s, _, p2, h1, _, _, _, _, h6⟩ :=
          (mem_chainsEntries c recur es a n (s0 + 1)).mp ha2
        rw [← hq] at h6
        have := (List.cons.inj h6).1
        omega
      · rw [if_neg hp0]
        exact ih (s0 + 1)

theorem sublist_chainsEntries (c : Consts) (recur : Int → List (List Nat))
    (es : List DirEntry) (s : Nat) (e : DirEntry) (he : es[s]? = some e)
    (hp : e.inumber ≠ c.FREE_INODE) :
    ∀ (n s0 : Nat), s0 ≤ s → s < s0 + n →
      ((recur e.inumber).map (fun p => s :: p)).Sublist (chainsEntries c recur es s0 n) := by
  intro n
  induction n with
  | zero =>
    intro s0 h1 h2
    omega
  | succ n ih =>
    intro s0 h1 h2
    unfold chainsEntries
    by_cases hs : s = s0
    · subst hs
      simp only [he, hp, ne_eq, not_false_eq_true, if_true]
      exact List.sublist_append_left _ _
    · have hsl : s < es.length := lt_length_of_getElem? he
      have he0 : es[s0]? = some es[s0] := List.getElem?_eq_getElem (by omega)
      simp only [he0]
      by_cases hp0 : es[s0].inumber ≠ c.FREE_INODE
      · rw [if_pos hp0]
        exact List.sublist_append_of_sublist_right (ih (s0 + 1) (by omega) (by omega))
      · rw [if_neg hp0]
        exact ih (s0 + 1) (by omega) (by omega)

theorem isNode_of_slot (tbl : Table) (i : Int) (nd : inode) (hs : slotAt tbl i = .ok nd)
    (hk : nd.nodeType ≠ type.T_NONE) : isNode tbl i = true := by
  simp [isNode, hs, hk]

/-- Every listed chain leads to a file or a directory. -/
theorem target_of_mem_chainsBelow (c : Consts) (tbl : Table) :
    ∀ (d : Nat) (i : Int) (p : List Nat), p ∈ chainsBelow c tbl d i →
      ∃ x, chainTarget c tbl i p = some x ∧ isNode tbl x = true := by
  intro d
  induction d with
  | zero =>
    intro i p h
    simp [chainsBelow] at h
  | succ d ih =>
    intro i p h
    rw [chainsBelow] at h
    cases hs : slotAt tbl i with
    | error f => simp [hs] at h
    | ok nd =>
      simp only [hs] at h
      cases hk : nd.nodeType with
      | T_NONE => simp [hk] at h
      | T_FILE =>
        simp only [hk, List.mem_singleton] at h
        subst h
        exact ⟨i, rfl, isNode_of_slot tbl i nd hs (by rw [hk]; decide)⟩
      | T_DIRECTORY =>
        simp only [hk] at h
        cases hd : nd.data with
        | null => simp [hd] at h
        | freed => simp [hd] at h
        | block es =>
          simp only [hd, List.mem_cons] at h
          rcases h with h | h
          · subst h
            exact ⟨i, rfl, isNode_of_slot tbl i nd hs (by rw [hk]; decide)⟩
          · obtain ⟨s, e, p2, _, h2, h3, h4, h5, h6⟩ :=
              (mem_chainsEntries c _ es p c.MAX_DIR_ENTRIES 0).mp h
            obtain ⟨x, hx, hnode⟩ := ih e.inumber p2 h5
            refine ⟨x, ?_, hnode⟩
            rw [h6, chainTarget,
              childEntry_of_directory c tbl i s nd es e hs hk hd (by omega) h3 h4]
            exact hx

/-- Below well-formed entries of depth at most `d`, every chain from `i` to a file or
a directory is listed. -/
theorem mem_chainsBelow_of_target (c : Consts) (tbl : Table) :
    ∀ (p : List Nat) (d : Nat) (i x : Int), treeBelow c tbl d i = true →
      chainTarget c tbl i p = some x → isNode tbl x = true → p ∈ chainsBelow c tbl d i := by
  intro p
  induction p with
  | nil =>
    intro d i x htree ht hnode
    simp only [chainTarget, Option.some.injEq] at ht
    subst ht
    cases d with
    | zero => simp [treeBelow] at htree
    | succ d =>
      obtain ⟨nd, hs, hdir⟩ := treeBelow_succ_inv c tbl d i htree
      rw [chainsBelow]
      simp only [hs]
      cases hk : nd.nodeType with
      | T_NONE => simp [isNode, hs, hk] at hnode
      | T_FILE => simp
      | T_DIRECTORY =>
        obtain ⟨es, hd, _, _⟩ := hdir hk
        simp [hd]
  | cons s p ih =>
    intro d i x htree ht hnode
    rw [chainTarget] at ht
    cases hce : childEntry c tbl i s with
    | none => simp [hce] at ht
    | some e =>
      simp only [hce] at ht
      obtain ⟨nd, es, hs, hk, hd, hsl, he, hpop⟩ := childEntry_some_inv c tbl i s e hce
      cases d with
      | zero => simp [treeBelow] at htree
      | succ d =>
        obtain ⟨nd2, hs2, hdir⟩ := treeBelow_succ_inv c tbl d i htree
        rw [hs] at hs2
        cases hs2
        obtain ⟨es2, hd2, _, hch⟩ := hdir hk
        rw [hd] at hd2
        cases hd2
        have hrec := ih d e.inumber x (hch e (List.getElem?_mem he) hpop) ht hnode
        rw [chainsBelow]
        simp only [hs, hk, hd]
        exact List.mem_cons_of_mem _
          ((mem_chainsEntries c _ es (s :: p) c.MAX_DIR_ENTRIES 0).mpr
            ⟨s, e, p, Nat.zero_le s, by omega, he, hpop, hrec, rfl⟩)

theorem nodup_chainsBelow (c : Consts) (tbl : Table) :
    ∀ (d : Nat) (i : Int), (chainsBelow c tbl d i).Nodup := by
  intro d
  induction d with
  | zero =>
    intro i
    simp [chainsBelow]
  | succ d ih =>
    intro i
    rw [chainsBelow]
    cases hs : slotAt tbl i with
    | error f => exact List.nodup_nil
    | ok nd =>
      simp only []
      cases hk : nd.nodeType with
      | T_NONE => exact List.nodup_nil
      | T_FILE => simp
      | T_DIRECTORY =>
        simp only []
        cases hd : nd.data with
        | null => exact List.nodup_nil
        | freed => exact List.nodup_nil
        | block es =>
          simp only []
          refine List.nodup_cons.mpr ⟨?_, nodup_chainsEntries c _ es ih _ _⟩
          intro hmem
          obtain ⟨s, _, p, _, _, _, _, _, h6⟩ :=
            (mem_chainsEntries c _ es [] c.MAX_DIR_ENTRIES 0).mp hmem
          cases h6

/-- In the list of chains every chain stands behind each of its proper initial
segments: a node is listed after all the directories above it. -/
theorem ancestor_before_chainsBelow (c : Consts) (tbl : Table) :
    ∀ (d : Nat) (i : Int) (p r : List Nat), r ≠ [] → p ++ r ∈ chainsBelow c tbl d i →
      List.Sublist [p, p ++ r] (chainsBelow c tbl d i) := by
  intro d
  induction d with
  | zero =>
    intro i p r _ h
    simp [chainsBelow] at h
  | succ d ih =>
    intro i p r hr h
    rw [chainsBelow] at h ⊢
    cases hs : slotAt tbl i with
    | error f => simp [hs] at h
    | ok nd =>
      simp only [hs] at h ⊢
      cases hk : nd.nodeType with
      | T_NONE => simp [hk] at h
      | T_FILE =>
        simp only [hk, List.mem_singleton, List.append_eq_nil] at h
        exact absurd h.2 hr
      | T_DIRECTORY =>
        simp only [hk] at h ⊢
        cases hd : nd.data with
        | null => simp [hd] at h
        | freed => simp [hd] at h
        | block es =>
          simp only [hd, List.mem_cons] at h ⊢
          have hq : p ++ r ∈ chainsEntries c (chainsBelow c tbl d) es 0 c.MAX_DIR_ENTRIES := by
            rcases h with h | h
            · exact absurd (List.append_eq_nil.mp h).2 hr
            · exact h
          cases p with
          | nil =>
            exact List.Sublist.cons₂ _ (List.singleton_sublist.mpr hq)
          | cons s p2 =>
            obtain ⟨s2, e, q2, _, h2, h3, h4, h5, h6⟩ :=
              (mem_chainsEntries c _ es _ c.MAX_DIR_ENTRIES 0).mp hq
            simp only [List.cons_append, List.cons.injEq] at h6
            obtain ⟨hss, hq2⟩ := h6
            subst hss
            subst hq2
            have hsub := (ih e.inumber p2 r hr h5).map (fun p => s :: p)
            have hsub2 := sublist_chainsEntries c (chainsBelow c tbl d) es s e h3 h4
              c.MAX_DIR_ENTRIES 0 (Nat.zero_le s) (by omega)
            exact List.Sublist.cons _ (List.Sublist.trans hsub hsub2)

/-- The lines the entry loop writes: one per chain listed for the scanned
slots, each the path text built along the chain. -/
theorem print_entries_chains (c : Consts) (tbl : Table)
    (recur : Int → Name → Option (Except Fault (List Name)))
    (R : Int → List (List Nat)) (i : Int) (nd : inode) (es : List DirEntry) (name : Name)
    (hs : slotAt tbl i = .ok nd) (hk : nd.nodeType = type.T_DIRECTORY)
    (hd : nd.data = Data.block es)
    (hrec : ∀ e ∈ es, e.inumber ≠ c.FREE_INODE → ∀ nm : Name,
      recur e.inumber nm = some (.ok ((R e.inumber).map (chainPath c tbl e.inumber nm)))) :
    ∀ (n s0 : Nat), s0 + n ≤ c.MAX_DIR_ENTRIES → c.MAX_DIR_ENTRIES ≤ es.length →
      print_entries c recur name es s0 n =
        some (.ok ((chainsEntries c R es s0 n).map (chainPath c tbl i name))) := by
  intro n
  induction n with
  | zero =>
    intro s0 _ _
    simp [print_entries, chainsEntries]
  | succ n ih =>
    intro s0 h1 h2
    have hsl : s0 < es.length := by omega
    have he : es[s0]? = some es[s0] := List.getElem?_eq_getElem hsl
    have hrest := ih (s0 + 1) (by omega) h2
    unfold print_entries chainsEntries
    simp only [he]
    by_cases hp : es[s0].inumber ≠ c.FREE_INODE
    · rw [if_pos hp, if_pos hp]
      simp only [hrec es[s0] (List.getElem_mem hsl) hp, hrest, List.map_append, List.map_map]
      have hstep : ∀ p : List Nat,
          (chainPath c tbl i name ∘ fun p => s0 :: p) p =
            chainPath c tbl es[s0].inumber (buildPath c name es[s0].name) p := by
        intro p
        simp only [Function.comp, chainPath,
          childEntry_of_directory c tbl i s0 nd es es[s0] hs hk hd (by omega) he hp]
      rw [List.map_congr_left (fun p _ => hstep p)]
    · rw [if_neg hp, if_neg hp]
      exact hrest

/-- Below well-formed entries of depth at most `d` the printer writes one line per
listed chain, in the order of the list: the path text built along the chain. -/
theorem inode_print_tree_chains (c : Consts) (tbl : Table) :
    ∀ (d : Nat) (i : Int) (name : Name), treeBelow c tbl d i = true →
      inode_print_tree c tbl d i name =
        some (.ok ((chainsBelow c tbl d i).map (chainPath c tbl i name))) := by
  intro d
  induction d with
  | zero =>
    intro i name h
    simp [treeBelow] at h
  | succ d ih =>
    intro i name h
    obtain ⟨nd, hs, hdir⟩ := treeBelow_succ_inv c tbl d i h
    rw [inode_print_tree, chainsBelow]
    simp only [hs]
    cases hk : nd.nodeType with
    | T_FILE => simp [chainPath]
    | T_NONE => simp
    | T_DIRECTORY =>
      obtain ⟨es, hd, hlen, hch⟩ := hdir hk
      have hloop := print_entries_chains c tbl (inode_print_tree c tbl d) (chainsBelow c tbl d)
        i nd es name hs hk hd
        (fun e he hpop nm => ih e.inumber nm (hch e he hpop)) c.MAX_DIR_ENTRIES 0
        (by omega) (by omega)
      simp only [hd, Data.deref, hloop, List.map_cons, chainPath]

/-- When the targets of the listed chains are pairwise distinct, every file or
directory below `i` is reached by one chain only. -/
theorem unique_chain_of_nodup_targets (c : Consts) (tbl : Table) (d : Nat) (i : Int)
    (htree : treeBelow c tbl d i = true)
    (hnd : ((chainsBelow c tbl d i).map (chainTarget c tbl i)).Nodup) :
    ∀ (p q : List Nat) (x : Int), chainTarget c tbl i p = some x →
      chainTarget c tbl i q = some x → isNode tbl x = true → p = q := by
  intro p q x hp hq hx
  exact List.inj_on_of_nodup_map hnd
    (mem_chainsBelow_of_target c tbl p d i x htree hp hx)
    (mem_chainsBelow_of_target c tbl q d i x htree hq hx) (by rw [hp, hq])

/-- A predicate that singles out one element of a list without repetitions
holds of exactly one position. -/
theorem countP_eq_one_of_unique {α : Type} [DecidableEq α] (l : List α) (P : α → Bool)
    (a : α) (hnd : l.Nodup) (ha : a ∈ l) (hP : ∀ b ∈ l, P b = true ↔ b = a) :
    l.countP P = 1 := by
  induction l with
  | nil => simp at ha
  | cons b l ih =>
    rw [List.nodup_cons] at hnd
    by_cases hba : b = a
    · subst hba
      have h0 : l.countP P = 0 := by
        rw [List.countP_eq_zero]
        intro y hy hPy
        have := (hP y (List.mem_cons_of_mem _ hy)).mp hPy
        subst this
        exact hnd.1 hy
      rw [List.countP_cons_of_pos _ _ ((hP b (List.mem_cons_self _ _)).mpr rfl), h0]
    · have hal : a ∈ l := by
        rcases List.mem_cons.mp ha with h | h
        · exact absurd h.symm hba
        · exact h
      have hb : ¬ P b = true := fun h => hba ((hP b (List.mem_cons_self _ _)).mp h)
      rw [List.countP_cons_of_neg _ _ hb]
      exact ih hnd.2 hal (fun y hy => hP y (List.mem_cons_of_mem _ hy))

/-- Entries of finite depth alone do not make a tree: in `sharedChildTable`
the file in slot 1 is listed by two entries of the root, and the printer
writes three lines for the two nodes. -/
theorem shared_child_printed_twice :
    treeBelow printConsts sharedChildTable 2 0 = true ∧
    inode_print_tree printConsts sharedChildTable 2 0 [] =
      some (.ok [[], ['/', 'a'], ['/', 'b']]) ∧
    chainTarget printConsts sharedChildTable 0 [0] = some 1 ∧
    chainTarget printConsts sharedChildTable 0 [1] = some 1 := by
  decide

/-- C12: let the directory entries below slot `i` form a finite tree: the
entries lead to well-formed slots within depth `d`, and every file or
directory is reached from `i` by one chain of entries only.  Then
`inode_print_tree(fp, i, name)` finishes, with the same output for every
recursion depth from `d` on.  A slot of kind `T_NONE` writes nothing, a file
writes the line `name` only, and a directory whose built paths are shorter
than `MAX_FILE_NAME` writes the line `name` followed, for each populated entry
`(e, c)` in increasing slot order, by the output of
`inode_print_tree(fp, c, name ++ "/" ++ e)`.  Over the whole tree: the lines
are, in order, the path texts of a list of chains; the chains listed are
exactly the chains from `i` to a file or a directory, and every file or
directory reachable from `i` is the end node of exactly one listed chain, so
one line is written per reachable file or directory; and the line of a node
stands behind the line of every directory above it. -/
theorem inode_print_tree_preorder (c : Consts) (tbl : Table) (d : Nat) (i : Int) (name : Name)
    (htree : treeBelow c tbl d i = true)
    (hone : ∀ (p q : List Nat) (x : Int), chainTarget c tbl i p = some x →
      chainTarget c tbl i q = some x → isNode tbl x = true → p = q) :
    ∃ (out : List Name) (chains : List (List Nat)),
      (∀ fuel, d ≤ fuel → inode_print_tree c tbl fuel i name = some (.ok out)) ∧
      (∀ nd, slotAt tbl i = .ok nd →
        (nd.nodeType = type.T_NONE → out = []) ∧
        (nd.nodeType = type.T_FILE → out = [name]) ∧
        (nd.nodeType = type.T_DIRECTORY → ∀ es, nd.data = Data.block es →
          (∀ e ∈ es, e.inumber ≠ c.FREE_INODE →
            (name ++ '/' :: e.name).length < c.MAX_FILE_NAME) →
          ∃ outs : List (List Name), out = name :: outs.flatten ∧
            List.Forall₂
              (fun e o => ∀ fuel, d ≤ fuel →
                inode_print_tree c tbl fuel e.inumber (name ++ '/' :: e.name) = some (.ok o))
              (es.filter (fun e => decide (e.inumber ≠ c.FREE_INODE))) outs)) ∧
      out = chains.map (chainPath c tbl i name) ∧
      (∀ p : List Nat, p ∈ chains ↔
        ∃ x, chainTarget c tbl i p = some x ∧ isNode tbl x = true) ∧
      (chains.map (chainTarget c tbl i)).Nodup ∧
      (∀ x : Int, (∃ p, chainTarget c tbl i p = some x ∧ isNode tbl x = true) →
        chains.countP (fun p => decide (chainTarget c tbl i p = some x)) = 1) ∧
      (∀ p r : List Nat, r ≠ [] → p ++ r ∈ chains →
        List.Sublist [p, p ++ r] chains ∧
        List.Sublist [chainPath c tbl i name p, chainPath c tbl i name (p ++ r)] out) := by
  have hout := inode_print_tree_chains c tbl d i name htree
  have hmem : ∀ p : List Nat, p ∈ chainsBelow c tbl d i ↔
      ∃ x, chainTarget c tbl i p = some x ∧ isNode tbl x = true :=
    fun p => ⟨target_of_mem_chainsBelow c tbl d i p,
      fun ⟨x, hx, hn⟩ => mem_chainsBelow_of_target c tbl p d i x htree hx hn⟩
  have hnd : ((chainsBelow c tbl d i).map (chainTarget c tbl i)).Nodup := by
    apply List.Nodup.map_on _ (nodup_chainsBelow c tbl d i)
    intro p hp q hq hpq
    obtain ⟨x, hx, hn⟩ := (hmem p).mp hp
    obtain ⟨y, hy, _⟩ := (hmem q).mp hq
    rw [hx, hy] at hpq
    cases hpq
    exact hone p q x hx hy hn
  refine ⟨(chainsBelow c tbl d i).map (chainPath c tbl i name), chainsBelow c tbl d i,
    fun fuel hle => inode_print_tree_le c tbl d fuel hle i name _ hout, ?_, rfl, hmem, hnd,
    ?_, ?_⟩
  · intro nd hs
    cases d with
    | zero => simp [treeBelow] at htree
    | succ d =>
      refine ⟨?_, ?_, ?_⟩
      · intro hk
        rw [inode_print_tree] at hout
        simp only [hs, hk, Option.some.injEq, Except.ok.injEq] at hout
        exact hout.symm
      · intro hk
        rw [inode_print_tree] at hout
        simp only [hs, hk, Option.some.injEq, Except.ok.injEq] at hout
        exact hout.symm
      · intro hk es hd hshort
        obtain ⟨nd2, hs2, hdir⟩ := treeBelow_succ_inv c tbl d i htree
        rw [hs] at hs2
        cases hs2
        obtain ⟨es2, hd2, hlen, _⟩ := hdir hk
        rw [hd] at hd2
        cases hd2
        obtain ⟨outs, hflat, hall⟩ :=
          inode_print_tree_directory c tbl (d + 1) i name _ nd es hs hk hd hout
        rw [List.take_of_length_le (by omega)] at hall
        refine ⟨outs, hflat, forall₂_imp_of_mem hall ?_⟩
        intro e o he hr fuel hle
        have hpop : e.inumber ≠ c.FREE_INODE := by
          have := (List.mem_filter.mp he).2
          simpa using this
        have hfit := hshort e (List.mem_filter.mp he).1 hpop
        have hpath : buildPath c name e.name = name ++ '/' :: e.name := by
          unfold buildPath
          exact List.take_of_length_le (by omega)
        rw [hpath] at hr
        exact inode_print_tree_le c tbl (d + 1) fuel hle _ _ _ hr
  · rintro x ⟨p, hx, hn⟩
    apply countP_eq_one_of_unique _ _ p (nodup_chainsBelow c tbl d i)
      ((hmem p).mpr ⟨x, hx, hn⟩)
    intro q _
    rw [decide_eq_true_iff]
    exact ⟨fun hq => hone q p x hq hx hn, fun hq => hq ▸ hx⟩
  · intro p r hr hin
    have hsub := ancestor_before_chainsBelow c tbl d i p r hr hin
    exact ⟨hsub, hsub.map (chainPath c tbl i name)⟩

/-- Witness of C12 on the scenario table, printed from the root with the
argument `""`. -/
theorem inode_print_tree_preorder_witness :
    treeBelow printConsts scenarioTable 3 0 = true ∧
    (∀ (p q : List Nat) (x : Int), chainTarget printConsts scenarioTable 0 p = some x →
      chainTarget printConsts scenarioTable 0 q = some x → isNode scenarioTable x = true →
      p = q) ∧
    ∃ (out : List Name) (chains : List (List Nat)),
      (∀ fuel, 3 ≤ fuel → inode_print_tree printConsts scenarioTable fuel 0 ([] : Name) = some (.ok out)) ∧
      (∀ nd, slotAt scenarioTable 0 = .ok nd →
        (nd.nodeType = type.T_NONE → out = []) ∧
        (nd.nodeType = type.T_FILE → out = [([] : Name)]) ∧
        (nd.nodeType = type.T_DIRECTORY → ∀ es, nd.data = Data.block es →
          (∀ e ∈ es, e.inumber ≠ printConsts.FREE_INODE →
            (([] : Name) ++ '/' :: e.name).length < printConsts.MAX_FILE_NAME) →
          ∃ outs : List (List Name), out = ([] : Name) :: outs.flatten ∧
            List.Forall₂
              (fun e o => ∀ fuel, 3 ≤ fuel →
                inode_print_tree printConsts scenarioTable fuel e.inumber (([] : Name) ++ '/' :: e.name) = some (.ok o))
              (es.filter (fun e => decide (e.inumber ≠ printConsts.FREE_INODE))) outs)) ∧
      out = chains.map (chainPath printConsts scenarioTable 0 ([] : Name)) ∧
      (∀ p : List Nat, p ∈ chains ↔
        ∃ x, chainTarget printConsts scenarioTable 0 p = some x ∧ isNode scenarioTable x = true) ∧
      (chains.map (chainTarget printConsts scenarioTable 0)).Nodup ∧
      (∀ x : Int,
        (∃ p, chainTarget printConsts scenarioTable 0 p = some x ∧ isNode scenarioTable x = true) →
        chains.countP (fun p => decide (chainTarget printConsts scenarioTable 0 p = some x)) = 1) ∧
      (∀ p r : List Nat, r ≠ [] → p ++ r ∈ chains →
        List.Sublist [p, p ++ r] chains ∧
        List.Sublist [chainPath printConsts scenarioTable 0 ([] : Name) p, chainPath printConsts scenarioTable 0 ([] : Name) (p ++ r)] out) :=
  ⟨by decide,
    unique_chain_of_nodup_targets printConsts scenarioTable 3 0 (by decide) (by decide),
    inode_print_tree_preorder printConsts scenarioTable 3 0 [] (by decide)
      (unique_chain_of_nodup_targets printConsts scenarioTable 3 0 (by decide) (by decide))⟩

end TecnicoFS
